import Mathlib

/-!
# Verification of the `math-input` expression model

A shallow embedding of the expression model of the `math-input` web
component (`src/math-node.js` and the `MathInput` glue code): the node
tree, the flat "precis" token summary, the serializer (`ExpressionNode.value`
and its `_parse` family), the masking scans (`BracketNode.mask`,
`AbsoluteNode.mask`, `BracketNode.findMatchingParen`), the structural
mutation operations (`insertAfter`, `childInsertAfter`, `childDelete`,
`DivisionNode.collectNumerator`), the token classifier
(`MathNode.buildFromCharacter` / `buildFromName`), and the cursor
navigation engine (`nodeLeft` / `nodeRight` / `nodeUp` / `nodeDown` and
the per-class `childLeft` / `childRight` / `childUp` / `childDown`
overrides).

JavaScript strings are modelled as `List Char` (every character that
occurs in a precis is a BMP scalar value, where UTF-16 code units and
Unicode code points agree).  Functions that can throw return `Except`.
The serializer's recursion is indexed by explicit fuel; each recursive
call consumes one unit, so a result other than `MErr.fuelOut` is exactly
the result of the JavaScript code.  `AbsoluteNode.mask` contains a
reachable infinite loop (see `absMask` below); its iteration is capped by
a fuel of `length + 1`, which is provably enough for every terminating
run (every productive iteration removes at least one pipe), so the
`MErr.maskLoop` outcome marks exactly the inputs on which the JavaScript
loop never terminates.
-/

namespace MathInput

/-! ## Character classes

The character ranges of the regular expressions in `math-node.js`.
JavaScript character-class ranges compare UTF-16 code units; all ranges
used here lie in the BMP, so comparing Lean `Char` scalar values is
equivalent. -/

/-- `[0-9]` -/
def isDigitChar (c : Char) : Bool := '0' ≤ c && c ≤ '9'

/-- `[a-z]` -/
def isLatinLower (c : Char) : Bool := 'a' ≤ c && c ≤ 'z'

/-- `[A-Z]` -/
def isLatinUpper (c : Char) : Bool := 'A' ≤ c && c ≤ 'Z'

/-- `[α-ω]` (U+03B1 to U+03C9) -/
def isGreekLower (c : Char) : Bool := 'α' ≤ c && c ≤ 'ω'

/-- `[Α-Ω]` (U+0391 to U+03A9) -/
def isGreekUpper (c : Char) : Bool := 'Α' ≤ c && c ≤ 'Ω'

/-- `[a-zA-Zα-ωΑ-Ω]`, the letter class of `_parse`'s identifier rule and
of `buildFromCharacter`'s atom rule. -/
def isLetterChar (c : Char) : Bool :=
  isLatinLower c || isLatinUpper c || isGreekLower c || isGreekUpper c

/-- `[a-zA-Zα-ωΑ-Ω0-9.+\-*]`, the atom class of `buildFromCharacter`. -/
def isAtomChar (c : Char) : Bool :=
  isLetterChar c || isDigitChar c || c = '.' || c = '+' || c = '-' || c = '*'

/-- `[a-zA-Zα-ωΑ-Ω0-9%^]`, the class used by
`DivisionNode.collectNumerator` to match the run pulled into a new
fraction's numerator. -/
def isCollectChar (c : Char) : Bool :=
  isLetterChar c || isDigitChar c || c = '%' || c = '^'

/-- `[+\-]`, a binary plus or minus. -/
def isPM (c : Char) : Bool := c = '+' || c = '-'

/-! ## The node tree

`UnitNode` mirrors the concrete `UnitNode` subclasses of `math-node.js`.
An `ExpressionNode` is its ordered list of children, here a plain
`List UnitNode` (the source's `_nodes` array, whose first element is
always the `StartNode`). -/

inductive UnitNode : Type where
  | startNode : UnitNode
  | atomNode (char : Char) : UnitNode
  | divisionNode (numerator denominator : List UnitNode) : UnitNode
  | bracketNode (char : Char) : UnitNode
  | absoluteNode : UnitNode
  | exponentNode (exponent : List UnitNode) : UnitNode
  | squareRootNode (radicand : List UnitNode) : UnitNode
  deriving Repr

open UnitNode

mutual

/-- Structural equality test for `UnitNode` (the derive handler does not
support nested inductives, so it is written out). -/
def beqUnit : UnitNode → UnitNode → Bool
  | startNode, startNode => true
  | atomNode c, atomNode c' => c = c'
  | divisionNode n d, divisionNode n' d' => beqUnitList n n' && beqUnitList d d'
  | bracketNode c, bracketNode c' => c = c'
  | absoluteNode, absoluteNode => true
  | exponentNode e, exponentNode e' => beqUnitList e e'
  | squareRootNode r, squareRootNode r' => beqUnitList r r'
  | _, _ => false

/-- Structural equality test for node lists. -/
def beqUnitList : List UnitNode → List UnitNode → Bool
  | [], [] => true
  | a :: as, b :: bs => beqUnit a b && beqUnitList as bs
  | _, _ => false

end

mutual

theorem beqUnit_iff : ∀ a b : UnitNode, beqUnit a b = true ↔ a = b
  | startNode, b => by cases b <;> simp [beqUnit]
  | atomNode c, b => by cases b <;> simp [beqUnit]
  | divisionNode n d, b => by
    cases b <;> simp [beqUnit, beqUnitList_iff n _, beqUnitList_iff d _]
  | bracketNode c, b => by cases b <;> simp [beqUnit]
  | absoluteNode, b => by cases b <;> simp [beqUnit]
  | exponentNode e, b => by cases b <;> simp [beqUnit, beqUnitList_iff e _]
  | squareRootNode r, b => by cases b <;> simp [beqUnit, beqUnitList_iff r _]

theorem beqUnitList_iff : ∀ a b : List UnitNode, beqUnitList a b = true ↔ a = b
  | [], b => by cases b <;> simp [beqUnitList]
  | a :: as, b => by
    cases b with
    | nil => simp [beqUnitList]
    | cons b bs => simp [beqUnitList, beqUnit_iff a b, beqUnitList_iff as bs]

end

instance : DecidableEq UnitNode := fun a b =>
  decidable_of_iff (beqUnit a b = true) (beqUnit_iff a b)

/-- `UnitNode.get precis` of each subclass: `StartNode` is `_`, an atom is
its character, Division and SquareRoot are the opaque `%`, a bracket is
its character, a pipe is `|`, an exponent is `^`. -/
def precisChar : UnitNode → Char
  | startNode => '_'
  | atomNode c => c
  | divisionNode _ _ => '%'
  | bracketNode c => c
  | absoluteNode => '|'
  | exponentNode _ => '^'
  | squareRootNode _ => '%'

/-- `ExpressionNode.get precis`: the concatenation of the children's
precis characters (each child contributes exactly one character). -/
def precisOf (nodes : List UnitNode) : List Char :=
  nodes.map precisChar

/-! ## Errors

One error type for everything the serializer and the mutation engine can
throw.  `fuelOut` and `maskLoop` are artifacts of the fuel-indexed
embedding: `fuelOut` means the chosen recursion fuel ran out, and
`maskLoop` marks a run of `AbsoluteNode.mask`'s `while` loop that makes
no progress, i.e. an input on which the JavaScript code loops forever. -/

inductive MErr : Type where
  | fuelOut          -- embedding artifact: recursion fuel exhausted
  | maskLoop         -- AbsoluteNode.mask loops forever on this input
  | rangeError       -- RangeError from the JS expression '#'.repeat(n) with n < 0
  | unrecognisedParen -- throw new Error('Unrecognised parenthesis')
  | unmatchedParen   -- throw new Error('Unmatched parenthesis.')
  | unmatchedPipe    -- throw new Error('Unmatched pipe.')
  | cannotParse      -- throw new Error('Cannot parse input.')
  | undefinedValue   -- JS: reading .value on a node class with no value getter
  | typeError        -- JS: indexing nodes[offset] out of range, then .value
  | noParent         -- throw new Error('Cursor node has no parent.')
  | nodeNotFound     -- throw new Error('Node not found.')
  | notImplemented   -- throw new Error('Not yet implemented: ...')
  deriving Repr, DecidableEq

instance {ε α : Type} [DecidableEq ε] [DecidableEq α] : DecidableEq (Except ε α)
  | .ok a, .ok b =>
    if h : a = b then isTrue (by rw [h]) else isFalse (by simp [h])
  | .error e, .error f =>
    if h : e = f then isTrue (by rw [h]) else isFalse (by simp [h])
  | .ok _, .error _ => isFalse (by simp)
  | .error _, .ok _ => isFalse (by simp)

/-! ## String scanning helpers -/

/-- `str.indexOf(ch, from)` on a character: index of the first occurrence
at position `from` or later, `none` when there is none (JS returns -1). -/
def indexOfFrom (s : List Char) (ch : Char) (start : Nat) : Option Nat :=
  match (s.drop start).findIdx? (· = ch) with
  | some k => some (start + k)
  | none => none

/-- `str.indexOf(ch)`. -/
def indexOfCh (s : List Char) (ch : Char) : Option Nat := indexOfFrom s ch 0

/-- The forward scan of `BracketNode.findMatchingParen` when
`str[start] == '('`: walk right with a depth counter and return the
index of the `)` that brings the depth to zero.  `cs` is the remaining
suffix and `i` its absolute position. -/
def fmpGo : List Char → Nat → Nat → Option Nat
  | [], _, _ => none
  | c :: rest, i, depth =>
    if c = ')' then
      if depth = 1 then some i else fmpGo rest (i + 1) (depth - 1)
    else if c = '(' then fmpGo rest (i + 1) (depth + 1)
    else fmpGo rest (i + 1) depth

/-- The forward scan starting at absolute position `i` of `s`. -/
def fmpForward (s : List Char) (i : Nat) (depth : Nat) : Option Nat :=
  fmpGo (s.drop i) i depth

/-- The backward scan of `BracketNode.findMatchingParen` when
`str[start] == ')'`: walk left from `start - 1`.  `i` is the scan
position plus one, so `i = 0` means the scan ran past the left end. -/
def fmpBackward (s : List Char) : Nat → Nat → Option Nat
  | 0, _ => none
  | i + 1, depth =>
    match s[i]? with
    | none => none
    | some c =>
      if c = '(' then
        if depth = 1 then some i else fmpBackward s i (depth - 1)
      else if c = ')' then fmpBackward s i (depth + 1)
      else fmpBackward s i depth

/-- `BracketNode.findMatchingParen(str, start)`: the position of the
parenthesis matching the one at `start`; `none` when there is no match;
`MErr.unrecognisedParen` when `str[start]` is not a parenthesis. -/
def findMatchingParen (s : List Char) (start : Nat) : Except MErr (Option Nat) :=
  match s[start]? with
  | some '(' => .ok (fmpForward s (start + 1) 1)
  | some ')' => .ok (fmpBackward s start 1)
  | _ => .error .unrecognisedParen

/-- One pass of the body of `BracketNode.mask`'s `while` loop, given the
original string `str` (used for the `end = str.length - 1` fallback) and
the current `masked`.  Returns `none` when no `(` is left. -/
def bracketMaskStep (strLen : Nat) (masked : List Char) :
    Except MErr (Option (List Char)) :=
  match indexOfCh masked '(' with
  | none => .ok none
  | some start => do
    let endPos? ← findMatchingParen masked start
    -- if(end === null) end = str.length - 1;
    let endPos := endPos?.getD (strLen - 1)
    let len := endPos + 1 - start
    .ok (some (masked.take start ++ List.replicate len '#' ++ masked.drop (endPos + 1)))

/-- The `while` loop of `BracketNode.mask`, with an iteration cap.  Every
iteration replaces the leftmost `(` (and possibly more) by `#`, so
`length + 1` iterations always suffice; `maskLoop` is unreachable here
and exists only to make the recursion structural. -/
def bracketMaskGo (strLen : Nat) : Nat → List Char → Except MErr (List Char)
  | 0, _ => .error .maskLoop
  | fuel + 1, masked => do
    match ← bracketMaskStep strLen masked with
    | none => .ok masked
    | some masked' => bracketMaskGo strLen fuel masked'

/-- `BracketNode.mask(str)`: replace every bracketed span (including an
unterminated one, which runs to the end of the string) with `#`s. -/
def bracketMask (s : List Char) : Except MErr (List Char) :=
  bracketMaskGo s.length (s.length + 1) s

/-- One pass of the body of `AbsoluteNode.mask`'s `while` loop.  The
source compares `masked.indexOf('|', start + 1)` — which yields `-1` when
absent — against `null`, so the fallback branch is dead and `end` stays
`-1`; `'#'.repeat(end - start + 1)` then throws a `RangeError` whenever
`start > 0`, and for `start = 0` the string is rebuilt unchanged and the
loop never terminates. -/
def absMaskStep (masked : List Char) : Except MErr (Option (List Char)) :=
  match indexOfCh masked '|' with
  | none => .ok none
  | some start =>
    let endPos : Int :=
      match indexOfFrom masked '|' (start + 1) with
      | some e => (e : Int)
      | none => -1
    -- let end = masked.indexOf('|', start + 1); if(end === null) ... is dead code
    let len : Int := endPos - start + 1
    if len < 0 then .error .rangeError
    else
      .ok (some (masked.take start ++ List.replicate len.toNat '#' ++
        masked.drop (endPos + 1).toNat))

/-- The `while` loop of `AbsoluteNode.mask`, capped at `fuel` iterations. -/
def absMaskGo : Nat → List Char → Except MErr (List Char)
  | 0, _ => .error .maskLoop
  | fuel + 1, masked => do
    match ← absMaskStep masked with
    | none => .ok masked
    | some masked' => absMaskGo fuel masked'

/-- `AbsoluteNode.mask(str)`: pair pipes from the left and replace each
span with `#`s.  Every productive iteration removes at least one pipe, so
`length + 1` iterations cover every terminating run and `maskLoop`
identifies exactly the inputs on which the JavaScript loop spins
forever (a lone `|` at position 0). -/
def absMask (s : List Char) : Except MErr (List Char) :=
  absMaskGo (s.length + 1) s

/-- The last (rightmost) binary `+`/`-`, the JS regex
`/([+\-])(?!.*[+\-])/` applied to the masked precis. -/
def lastPMIdx (s : List Char) : Option Nat :=
  match s.reverse.findIdx? isPM with
  | some k => some (s.length - 1 - k)
  | none => none

/-- The first `*`, the JS regex `/\*/`. -/
def firstStarIdx (s : List Char) : Option Nat := s.findIdx? (· = '*')

/-- The leading numeric literal, the JS regex `/^[0-9]+(\.[0-9]+)?/`
applied to a string known to start with a digit: maximal digits, then
optionally a dot followed by at least one digit (maximal). -/
def numberToken (s : List Char) : List Char :=
  let intPart := s.takeWhile isDigitChar
  let rest := s.drop intPart.length
  match rest with
  | '.' :: afterDot =>
    let fracPart := afterDot.takeWhile isDigitChar
    if fracPart = [] then intPart else intPart ++ '.' :: fracPart
  | _ => intPart

/-! ## The serializer

`ExpressionNode._parse`, `_parseTerm`, `_parsePostModifiers`,
`_parsePreModifiers`, `_parseOperator` and the `value` getters of
`ExpressionNode`, `DivisionNode`, `ExponentNode` and `SquareRootNode`.

`preModifiers` is a stack with its top at the head (the source pushes to
and pops from the end of an array; `applyPreModifiers` below applies the
head first, which is the source's pop order). -/

/-- `_parsePreModifiers`: pop each pending modifier and wrap the MathML. -/
def applyPreModifiers : List String → String → String
  | [], mathml => mathml
  | m :: rest, mathml =>
    let mathml' :=
      if m = "sin" || m = "cos" || m = "tan" || m = "ln" then
        "<apply><" ++ m ++ "/>" ++ mathml ++ "</apply>"
      else if m = "negative" then
        "<apply><minus/>" ++ mathml ++ "</apply>"
      else mathml
    applyPreModifiers rest mathml'

mutual

/-- `ExpressionNode._parse(precis, offset, preModifiers)`.  `nodes` is the
`_nodes` array of the expression whose (sliced) precis is being parsed;
`offset` maps position 0 of `precis` to its index in `nodes`. -/
def parseP (fuel : Nat) (nodes : List UnitNode) (precis : List Char)
    (offset : Nat) (preMods : List String) : Except MErr String :=
  match fuel with
  | 0 => .error .fuelOut
  | fuel + 1 => do
    let maskedB ← bracketMask precis
    let masked ← absMask maskedB
    -- if it starts with an _ i.e. a StartNode, get rid of it
    match precis with
    | '_' :: precisTail => parseP fuel nodes precisTail (offset + 1) []
    | _ =>
      -- matches last +/-; can't be the first character (unary sign)
      match lastPMIdx masked with
      | some i =>
        if i ≠ 0 then parseOperator fuel nodes precis offset i
        else parseNoPM fuel nodes precis offset preMods masked
      | none => parseNoPM fuel nodes precis offset preMods masked
termination_by structural fuel

/-- `_parse` after the binary `+`/`-` rule has failed to fire. -/
def parseNoPM (fuel : Nat) (nodes : List UnitNode) (precis : List Char)
    (offset : Nat) (preMods : List String) (masked : List Char) :
    Except MErr String :=
  match fuel with
  | 0 => .error .fuelOut
  | fuel + 1 => do
    -- match a times symbol
    match firstStarIdx masked with
    | some i => parseOperator fuel nodes precis offset i
    | none =>
      match precis with
      -- if it starts with a unary negative
      | '-' :: precisTail =>
        parseP fuel nodes precisTail (offset + 1) ("negative" :: preMods)
      | _ =>
        if (precis.head?.map isDigitChar).getD false then
          -- if it starts with a number
          let term := numberToken precis
          let mathml := "<cn>" ++ String.mk term ++ "</cn>"
          parseTerm fuel nodes term mathml precis offset preMods
        else if precis.take 3 = ['s', 'i', 'n'] then
          parseP fuel nodes (precis.drop 3) (offset + 3) ("sin" :: preMods)
        else if precis.take 3 = ['c', 'o', 's'] then
          parseP fuel nodes (precis.drop 3) (offset + 3) ("cos" :: preMods)
        else if precis.take 3 = ['t', 'a', 'n'] then
          parseP fuel nodes (precis.drop 3) (offset + 3) ("tan" :: preMods)
        else if precis.take 2 = ['l', 'n'] then
          parseP fuel nodes (precis.drop 2) (offset + 2) ("ln" :: preMods)
        else if precis.take 2 = ['p', 'i'] then
          -- if it starts with pi (the text form)
          parseTerm fuel nodes ['p', 'i'] "<pi/>" precis offset preMods
        else if precis.head? = some 'π' then
          parseTerm fuel nodes ['π'] "<pi/>" precis offset preMods
        else if precis.head? = some '∞' then
          -- if it starts with infinity
          parseTerm fuel nodes ['∞'] "<infinity/>" precis offset preMods
        else if precis.head? = some 'e' then
          -- if it is the letter 'e', parse as Euler's number
          parseTerm fuel nodes ['e'] "<exponentiale/>" precis offset preMods
        else if (precis.head?.map isLetterChar).getD false then
          -- if it starts with a letter
          let c := precis.headI
          let mathml := "<ci>" ++ String.mk [c] ++ "</ci>"
          parseTerm fuel nodes [c] mathml precis offset preMods
        else if precis.head? = some '%' then
          -- a non-Atom, non-Exponent UnitNode provides its own value
          match nodes[offset]? with
          | none => .error .typeError
          | some u => do
            let mathml ← nodeValue fuel u
            parseTerm fuel nodes ['%'] mathml precis offset preMods
        else if precis.head? = some '(' then
          -- if it starts with a parenthesis
          match ← findMatchingParen precis 0 with
          | none => .error .unmatchedParen
          | some endPos => do
            let term := precis.take (endPos + 1)
            let inner := (precis.take endPos).drop 1
            let mathml ← parseP fuel nodes inner (offset + 1) []
            parseTerm fuel nodes term mathml precis offset preMods
        else if precis.head? = some '|' then
          -- if it starts with a pipe
          match indexOfFrom precis '|' 1 with
          | none => .error .unmatchedPipe
          | some endPos => do
            let term := precis.take (endPos + 1)
            let inner := (precis.take endPos).drop 1
            let innerMathml ← parseP fuel nodes inner (offset + 1) []
            let mathml := "<apply><abs/>" ++ innerMathml ++ "</apply>"
            parseTerm fuel nodes term mathml precis offset preMods
        else
          .error .cannotParse
termination_by structural fuel

/-- `_parseTerm` (with `_parsePostModifiers` inlined as its first step):
apply a trailing `^` exponent, apply the pending preModifiers, then
either finish or multiply with the parse of the remainder. -/
def parseTerm (fuel : Nat) (nodes : List UnitNode) (term : List Char)
    (mathml : String) (precis : List Char) (offset : Nat)
    (preMods : List String) : Except MErr String :=
  match fuel with
  | 0 => .error .fuelOut
  | fuel + 1 => do
    -- _parsePostModifiers: if(precis[term.length] === '^') ...
    let postStep : Except MErr (List Char × String) :=
      if precis[term.length]? = some '^' then
        match nodes[offset + term.length]? with
        | none => .error .typeError
        | some u => do
          let exponentMathml ← nodeValue fuel u
          .ok (term ++ ['^'],
            "<apply><power/>" ++ mathml ++ exponentMathml ++ "</apply>")
      else .ok (term, mathml)
    let (term, mathml) ← postStep
    -- _parsePreModifiers (the JS guard `preModifiers !== []` is always true)
    let mathml := applyPreModifiers preMods mathml
    if term.length = precis.length then
      .ok mathml
    else do
      let rest ← parseP fuel nodes (precis.drop term.length)
        (offset + term.length) []
      .ok ("<apply><times/>" ++ mathml ++ rest ++ "</apply>")
termination_by structural fuel

/-- `_parseOperator`: split the precis at the operator and combine. -/
def parseOperator (fuel : Nat) (nodes : List UnitNode) (precis : List Char)
    (offset : Nat) (operatorPos : Nat) : Except MErr String :=
  match fuel with
  | 0 => .error .fuelOut
  | fuel + 1 => do
    let op := precis[operatorPos]?.getD ' '
    let lhs ← parseP fuel nodes (precis.take operatorPos) offset []
    let rhs ← parseP fuel nodes (precis.drop (operatorPos + 1))
      (offset + operatorPos + 1) []
    let opTag := if op = '+' then "<plus/>"
      else if op = '-' then "<minus/>" else "<times/>"
    .ok ("<apply>" ++ opTag ++ lhs ++ rhs ++ "</apply>")
termination_by structural fuel

/-- The `value` getter of a `UnitNode`.  `DivisionNode`, `ExponentNode`
and `SquareRootNode` define one; reading `.value` on any other subclass
yields `undefined` in JavaScript, modelled as `MErr.undefinedValue`. -/
def nodeValue (fuel : Nat) (u : UnitNode) : Except MErr String :=
  match fuel with
  | 0 => .error .fuelOut
  | fuel + 1 =>
    match u with
    | divisionNode numer denom => do
      let nv ← exprValue fuel numer
      let dv ← exprValue fuel denom
      .ok ("<apply><divide/>" ++ nv ++ dv ++ "</apply>")
    | exponentNode e => exprValue fuel e
    | squareRootNode r => do
      let rv ← exprValue fuel r
      .ok ("<apply><root/><degree><cn>2</cn></degree>" ++ rv ++ "</apply>")
    | _ => .error .undefinedValue
termination_by structural fuel

/-- `ExpressionNode.get value`: parse the expression's precis. -/
def exprValue (fuel : Nat) (nodes : List UnitNode) : Except MErr String :=
  match fuel with
  | 0 => .error .fuelOut
  | fuel + 1 => parseP fuel nodes (precisOf nodes) 0 []
termination_by structural fuel

end

/-! ## Structural mutation

`ExpressionNode.childInsertAfter`, `childDelete`, `indexOf` and
`MathNode.insertAfter`.  JavaScript locates nodes by object identity
(`findIndex((el) => el == node)`); in a well-formed tree every node
object occurs exactly once, so identity is modelled by a type `α` with
decidable equality whose elements occur at most once per sequence. -/

section Mutation

variable {α : Type} [DecidableEq α]

/-- `ExpressionNode.indexOf(node)`: the position of the first element
equal to `node` (`findIndex((el) => el == node)`), or the
`Node not found.` error. -/
def indexOfNode (nodes : List α) (node : α) : Except MErr Nat :=
  match nodes with
  | [] => .error .nodeNotFound
  | a :: rest =>
    if a = node then .ok 0
    else
      match indexOfNode rest node with
      | .ok i => .ok (i + 1)
      | .error e => .error e

/-- `ExpressionNode.childInsertAfter(child, newNode)`: splice `newNode`
in immediately after `child` (`this._nodes.splice(index+1, 0, newNode)`). -/
def childInsertAfter (nodes : List α) (child newNode : α) :
    Except MErr (List α) := do
  let i ← indexOfNode nodes child
  .ok (nodes.take (i + 1) ++ newNode :: nodes.drop (i + 1))

/-- `ExpressionNode.childDelete(node)`: splice `node` out
(`this._nodes.splice(index, 1)`). -/
def childDelete (nodes : List α) (node : α) : Except MErr (List α) := do
  let i ← indexOfNode nodes node
  .ok (nodes.take i ++ nodes.drop (i + 1))

/-- The expression owning a node: in a forest of expressions (each node
occurring at most once overall), the index of the first sequence
containing it.  `none` models a `null` parent pointer. -/
def exprContaining (world : List (List α)) (node : α) : Option Nat :=
  match world with
  | [] => none
  | l :: rest =>
    if node ∈ l then some 0
    else (exprContaining rest node).map (· + 1)

/-- `MathNode.insertAfter(node)` called on `anchor` with argument
`newNode`, over a forest `world` of expression sequences: throw
`Cursor node has no parent.` when `anchor` is detached; otherwise first
unlink `newNode` from its parent if it has one (`node.delete()`), then
`this.parent.childInsertAfter(this, node)`. -/
def insertAfter (world : List (List α)) (anchor newNode : α) :
    Except MErr (List (List α)) := do
  match exprContaining world anchor with
  | none => .error .noParent
  | some ai =>
    -- if the node has a parent, unlink it from its parent node
    let world' ←
      match exprContaining world newNode with
      | none => .ok world
      | some ni =>
        match world[ni]? with
        | none => .error .nodeNotFound
        | some l => do
          let l' ← childDelete l newNode
          .ok (world.set ni l')
    match world'[ai]? with
    | none => .error .nodeNotFound
    | some la => do
      let la' ← childInsertAfter la anchor newNode
      .ok (world'.set ai la')

end Mutation

/-! ## The token classifier -/

/-- `MathNode.buildFromCharacter(char)`.  A fresh `DivisionNode` owns two
fresh `ExpressionNode`s and a fresh `ExponentNode` owns one; each fresh
expression contains exactly its `StartNode`. -/
def buildFromCharacter (char : Char) : Except MErr UnitNode :=
  if isAtomChar char then .ok (atomNode char)
  else if char = '/' then .ok (divisionNode [startNode] [startNode])
  else if char = '(' || char = ')' then .ok (bracketNode char)
  else if char = '|' then .ok absoluteNode
  else if char = '^' then .ok (exponentNode [startNode])
  else .error .notImplemented

/-- `MathNode.buildFromName(name)`. -/
def buildFromName (name : String) : Except MErr UnitNode :=
  if name = "sqrt" then .ok (squareRootNode [startNode])
  else if name = "pi" then .ok (atomNode 'π')
  else if name = "infty" then .ok (atomNode '∞')
  else .error .notImplemented

/-- Build a root expression by classifying each character and inserting
it at the end (`expression.endNode.insertAfter(node)`), as the test
helper `expr` and the host's keystroke path do. -/
def buildExpr (chars : List Char) : Except MErr (List UnitNode) :=
  chars.foldlM (fun nodes c => do
    let u ← buildFromCharacter c
    pure (nodes ++ [u])) [startNode]

/-! ## `DivisionNode.collectNumerator`

The division sits in its parent expression with the sequence `before` in
front of it; its numerator holds `numer` (for a freshly inserted
division, `[startNode]`).  The backward `previousSibling` walk
concatenates exactly the precis of `before`; each loop iteration moves
the division's current previous sibling (the last element of `before`)
to position 1 of the numerator (`numerator.startNode.insertAfter`). -/

/-- `k` iterations of
`this.numerator.startNode.insertAfter(this.previousSibling)`. -/
def collectMove : Nat → List UnitNode → List UnitNode →
    (List UnitNode × List UnitNode)
  | 0, before, numer => (before, numer)
  | k + 1, before, numer =>
    match before.getLast? with
    | none => (before, numer)  -- unreachable: the matched run fits in `before`
    | some x => collectMove k before.dropLast (numer.take 1 ++ x :: numer.drop 1)

/-- `DivisionNode.collectNumerator()`.  Returns the parent-prefix and
numerator after the move, plus the boolean result.  An empty `before`
(the division as first child, which cannot happen below a `StartNode`)
would crash the JS `do`/`while` on a `null` sibling, modelled as
`typeError`. -/
def collectNumerator (before numer : List UnitNode) :
    Except MErr (List UnitNode × List UnitNode × Bool) :=
  if before = [] then .error .typeError
  else
    let precis := precisOf before
    -- match everything that should move to numerator, fairly arbitrary
    let run := (precis.reverse.takeWhile isCollectChar).length
    if run ≠ 0 then
      let (before', numer') := collectMove run before numer
      .ok (before', numer', true)
    else if precis.getLast? = some ')' then do
      let start? ← findMatchingParen precis (precis.length - 1)
      let start := start?.getD 0
      let count := precis.length - start
      let (before', numer') := collectMove count before numer
      .ok (before', numer', true)
    else
      .ok (before, numer, false)

/-- The cursor placement of `MathInput.insertNodeByCharacter` after
inserting a `/`: the denominator's `startNode` (`denominator.nodes[0]`)
when `collectNumerator` returned `true`, else the numerator's `endNode`
(its last element). -/
def divisionCursor (collected : Bool) (numer denom : List UnitNode) :
    Option UnitNode :=
  if collected then denom.head? else numer.getLast?

/-! ## The navigation engine

A node is identified by its position: `EAddr` addresses an expression
(`[]` is the root; `(i, s) :: ea` is sub-expression `s` of the unit at
index `i` of the expression at `ea`), and a `UAddr` pairs an expression
address with an index.  JavaScript resolves `indexOf` by object
identity, which for a well-formed tree (each node object in exactly one
place) is the node's position, so the per-class `childLeft`/`childRight`/
`childUp`/`childDown` dispatch translates directly to address
arithmetic.  `none` marks states where the JavaScript code would throw
(`Node not found.`) or dereference `undefined`. -/

inductive Sel : Type where
  | numer : Sel
  | denom : Sel
  | expo : Sel
  | rad : Sel
  deriving Repr, DecidableEq

/-- Address of an expression within the root expression. -/
abbrev EAddr := List (Nat × Sel)

/-- Address of a unit node: owning expression plus index. -/
abbrev UAddr := EAddr × Nat

/-- The child expression of a composite unit selected by `s`. -/
def subExpr : UnitNode → Sel → Option (List UnitNode)
  | divisionNode n _, .numer => some n
  | divisionNode _ d, .denom => some d
  | exponentNode e, .expo => some e
  | squareRootNode r, .rad => some r
  | _, _ => none

/-- Resolve an expression address. -/
def exprAt (root : List UnitNode) : EAddr → Option (List UnitNode)
  | [] => some root
  | (i, s) :: ea => do
    let e ← exprAt root ea
    let u ← e[i]?
    subExpr u s

/-- Resolve a unit address. -/
def unitAt (root : List UnitNode) (p : UAddr) : Option UnitNode := do
  let e ← exprAt root p.1
  e[p.2]?

/-- `cursorNodeFromLeft`: a Division redirects to its numerator's
`startNode`, an Exponent to its exponent's `startNode`, a SquareRoot to
its radicand's `startNode`; every other unit returns itself. -/
def cursorNodeFromLeft (root : List UnitNode) (p : UAddr) : Option UAddr := do
  let u ← unitAt root p
  match u with
  | divisionNode _ _ => some ((p.2, Sel.numer) :: p.1, 0)
  | exponentNode _ => some ((p.2, Sel.expo) :: p.1, 0)
  | squareRootNode _ => some ((p.2, Sel.rad) :: p.1, 0)
  | _ => some p

/-- `ExpressionNode.childRight(node, defaultNode)` for the expression at
`ea`, where `node` is its child at index `i`: the next sibling's
`cursorNodeFromLeft` if one exists, else the owning composite's
`childRight` (Division, Exponent and SquareRoot all return themselves),
else — at the root — the default. -/
def childRightE (root : List UnitNode) (ea : EAddr) (i : Nat) (d : UAddr) :
    Option UAddr := do
  let e ← exprAt root ea
  if e.length ≤ i then none  -- JS: indexOf(node) fails, 'Node not found.'
  else if i + 1 < e.length then
    cursorNodeFromLeft root (ea, i + 1)
  else
    match ea with
    | [] => some d
    | (j, _) :: ea' => do
      let u ← unitAt root (ea', j)
      match u with
      | divisionNode _ _ => some (ea', j)
      | exponentNode _ => some (ea', j)
      | squareRootNode _ => some (ea', j)
      | _ => none

/-- `ExpressionNode.childLeft(node, defaultNode)`: the previous sibling's
`cursorNodeFromRight` (which is the sibling itself for every subclass)
if `i ≠ 0`, else bubble: the owning Division/Exponent/SquareRoot all
forward to their own parent expression's `childLeft`; at the root,
return the default. -/
def childLeftE (root : List UnitNode) : EAddr → Nat → UAddr → Option UAddr
  | ea, i, d => do
    let e ← exprAt root ea
    if e.length ≤ i then none  -- JS: indexOf(node) fails, 'Node not found.'
    else if i ≠ 0 then
      some (ea, i - 1)
    else
      match ea with
      | [] => some d
      | (j, _) :: ea' => do
        let u ← unitAt root (ea', j)
        match u with
        | divisionNode _ _ => childLeftE root ea' j d
        | exponentNode _ => childLeftE root ea' j d
        | squareRootNode _ => childLeftE root ea' j d
        | _ => none

/-- `ExpressionNode.childUp` for the expression at the given address
(the expression ignores which child asked and bubbles): at the root,
the default; otherwise the owning unit's `childUp`, where a Division
answers the denominator with its numerator's `startNode`
(`cursorNodeFromBelow` of a `StartNode` is itself) and everything else
bubbles to its own parent expression. -/
def childUpE (root : List UnitNode) : EAddr → UAddr → Option UAddr
  | [], d => some d
  | (j, s) :: ea', d => do
    let u ← unitAt root (ea', j)
    match u with
    | divisionNode _ _ =>
      if s = Sel.denom then some ((j, Sel.numer) :: ea', 0)
      else childUpE root ea' d
    | exponentNode _ => childUpE root ea' d
    | squareRootNode _ => childUpE root ea' d
    | _ => none

/-- `ExpressionNode.childDown`, mirror image of `childUpE`: a Division
answers the numerator with its denominator's `startNode`. -/
def childDownE (root : List UnitNode) : EAddr → UAddr → Option UAddr
  | [], d => some d
  | (j, s) :: ea', d => do
    let u ← unitAt root (ea', j)
    match u with
    | divisionNode _ _ =>
      if s = Sel.numer then some ((j, Sel.denom) :: ea', 0)
      else childDownE root ea' d
    | exponentNode _ => childDownE root ea' d
    | squareRootNode _ => childDownE root ea' d
    | _ => none

/-- `UnitNode.nodeRight()` with its default argument (the node itself):
`this.parent.childRight(this, this)`.  No subclass overrides
`nodeRight`. -/
def nodeRight (root : List UnitNode) (p : UAddr) : Option UAddr :=
  childRightE root p.1 p.2 p

/-- `nodeLeft()` with its default argument: Division, Exponent and
SquareRoot override it to enter their own rightmost interior position
(`numerator.endNode`, `exponent.endNode`, `radicand.endNode`); every
other unit calls `this.parent.childLeft(this, this)`. -/
def nodeLeft (root : List UnitNode) (p : UAddr) : Option UAddr := do
  let u ← unitAt root p
  match u with
  | divisionNode n _ => some ((p.2, Sel.numer) :: p.1, n.length - 1)
  | exponentNode e => some ((p.2, Sel.expo) :: p.1, e.length - 1)
  | squareRootNode r => some ((p.2, Sel.rad) :: p.1, r.length - 1)
  | _ => childLeftE root p.1 p.2 p

/-- `UnitNode.nodeUp()` with its default argument:
`this.parent.childUp(this, this)` (the expression ignores the child). -/
def nodeUp (root : List UnitNode) (p : UAddr) : Option UAddr :=
  childUpE root p.1 p

/-- `UnitNode.nodeDown()` with its default argument. -/
def nodeDown (root : List UnitNode) (p : UAddr) : Option UAddr :=
  childDownE root p.1 p

/-! ## Well-formed trees

Every expression's first child is its `StartNode`, a `StartNode` occurs
nowhere else, and every sub-expression is again well-formed. -/

mutual

/-- A unit is well-formed when all of its child expressions are. -/
def wfUnit : UnitNode → Bool
  | divisionNode n d => wfExprNodes n && wfExprNodes d
  | exponentNode e => wfExprNodes e
  | squareRootNode r => wfExprNodes r
  | _ => true

/-- The tail of an expression: no `StartNode`, members well-formed. -/
def wfTail : List UnitNode → Bool
  | [] => true
  | startNode :: _ => false
  | u :: rest => wfUnit u && wfTail rest

/-- An expression's node list: a `StartNode` then a well-formed tail. -/
def wfExprNodes : List UnitNode → Bool
  | startNode :: rest => wfTail rest
  | _ => false

end

/-! ## Claim C1 -/

/-- C1: the root expression built from the tokens `1`,`-`,`x`,`+`,`1`
serializes to `plus(minus(1,x),1)` and the one built from
`1`,`-`,`(`,`x`,`+`,`1`,`)` serializes to `minus(1,plus(x,1))`; the
serializer splits at the rightmost unmasked `+`/`-` that is not at
position 0 (here index 3 of `1-x+1`, its `+`), so `+`/`-` chains are
left-associative.  The fuel argument only bounds recursion depth: any
value of `k` gives the same result. -/
theorem c1_left_associative_serialization :
    ∀ k : Nat,
      (do
        let ns ← buildExpr ['1', '-', 'x', '+', '1']
        exprValue (k + 16) ns) =
        .ok "<apply><plus/><apply><minus/><cn>1</cn><ci>x</ci></apply><cn>1</cn></apply>" ∧
      (do
        let ns ← buildExpr ['1', '-', '(', 'x', '+', '1', ')']
        exprValue (k + 16) ns) =
        .ok "<apply><minus/><cn>1</cn><apply><plus/><ci>x</ci><cn>1</cn></apply></apply>" ∧
      lastPMIdx ['1', '-', 'x', '+', '1'] = some 3 := by
  intro k
  exact ⟨rfl, rfl, rfl⟩

/-! ## Claim C6 -/

/-- C6: an atom `1` followed by an `ExponentNode` holding `x` serializes
to `power(cn(1), ci(x))` (the `^` postmodifier wraps the preceding term),
and two adjacent atoms `1`,`x` serialize to the implicit product
`times(cn(1), ci(x))`. -/
theorem c6_exponent_and_implicit_times :
    ∀ k : Nat,
      exprValue (k + 16)
          [startNode, atomNode '1', exponentNode [startNode, atomNode 'x']] =
        .ok "<apply><power/><cn>1</cn><ci>x</ci></apply>" ∧
      exprValue (k + 16) [startNode, atomNode '1', atomNode 'x'] =
        .ok "<apply><times/><cn>1</cn><ci>x</ci></apply>" := by
  intro k
  exact ⟨rfl, rfl⟩

/-! ## Claim C10 -/

/-- C10: the value getter on a freshly constructed root expression (only
its `StartNode`) always fails with the `Cannot parse input.` error — it
never produces a value, in particular not the empty string. -/
theorem c10_empty_expression_cannot_parse :
    ∀ k : Nat, exprValue (k + 4) [startNode] = .error .cannotParse := by
  intro k
  exact rfl

/-! ## Claim C4 -/

/-- C4 (code bug): on a precis with an unmatched pipe the serializer does
not report the `Unmatched pipe.` failure.  `AbsoluteNode.mask` compares
`masked.indexOf('|', start + 1)` — which is `-1` when absent — against
`null`, so for a lone `AbsoluteNode` (`precis "_|"`, pipe at index 1) it
evaluates `'#'.repeat(-1)`, which throws `RangeError`; and when the lone
pipe sits at index 0 of a recursively parsed slice (precis `"_(|)"`,
inner slice `"|"`) the loop rebuilds the string unchanged forever
(`maskLoop` marks the non-terminating run; the iteration cap of
`length + 1` is sound because every productive iteration removes a
pipe).  The `throw new Error('Unmatched pipe.')` in `_parse` is
unreachable from `value`, because `AbsoluteNode.mask` runs first on the
same slice. -/
theorem c4_unmatched_pipe_crashes :
    ∀ k : Nat,
      exprValue (k + 8) [startNode, absoluteNode] = .error .rangeError ∧
      exprValue (k + 8) [startNode, bracketNode '(', absoluteNode, bracketNode ')'] =
        .error .maskLoop := by
  intro k
  exact ⟨rfl, rfl⟩

/-! ## Claim C8 -/

/-- The character classification as the claim enumerates it: an atom for
every digit, Latin or Greek letter (the Greek alphabet here being the
ranges α–ω and Α–Ω of the component's fixed symbol set), `.`, `+`, `-`,
`*`; a division for `/`; a bracket for `(` and `)`; an absolute-value
node for `|`; an exponent for `^`; the unrecognised-input failure
otherwise. -/
def classifyCharacterSpec (c : Char) : Except MErr UnitNode :=
  if isDigitChar c || (isLatinLower c || isLatinUpper c) ||
      (isGreekLower c || isGreekUpper c) ||
      c = '.' || c = '+' || c = '-' || c = '*' then .ok (atomNode c)
  else if c = '/' then .ok (divisionNode [startNode] [startNode])
  else if c = '(' || c = ')' then .ok (bracketNode c)
  else if c = '|' then .ok absoluteNode
  else if c = '^' then .ok (exponentNode [startNode])
  else .error .notImplemented

/-- The name classification as the claim enumerates it. -/
def classifyNameSpec (name : String) : Except MErr UnitNode :=
  if name = "sqrt" then .ok (squareRootNode [startNode])
  else if name = "pi" then .ok (atomNode 'π')
  else if name = "infty" then .ok (atomNode '∞')
  else .error .notImplemented

/-- C8: `buildFromCharacter` and `buildFromName` implement exactly the
classification the claim describes — an `AtomNode` for digits, Latin and
Greek letters, `.`, `+`, `-`, `*`; `DivisionNode` for `/`;
`BracketNode` for `(`/`)`; `AbsoluteNode` for `|`; `ExponentNode` for
`^`; failure for every other character; and `sqrt`/`pi`/`infty` by name
with failure for every other name.  (Both functions are pure: they only
construct the returned node.) -/
theorem c8_classifier :
    (∀ c : Char, buildFromCharacter c = classifyCharacterSpec c) ∧
    (∀ name : String, buildFromName name = classifyNameSpec name) := by
  constructor
  · intro c
    have hclass : isAtomChar c =
        (isDigitChar c || (isLatinLower c || isLatinUpper c) ||
          (isGreekLower c || isGreekUpper c) ||
          c = '.' || c = '+' || c = '-' || c = '*') := by
      simp only [isAtomChar, isLetterChar]
      cases h1 : isLatinLower c <;> cases h2 : isLatinUpper c <;>
        cases h3 : isGreekLower c <;> cases h4 : isGreekUpper c <;>
        cases h5 : isDigitChar c <;> simp
    simp only [buildFromCharacter, classifyCharacterSpec, hclass]
  · intro name
    rfl

/-! ## Claim C5 -/

/-- `takeWhile` passes over a block that satisfies the predicate. -/
theorem takeWhile_append_of_all {α : Type} {p : α → Bool} (l1 l2 : List α)
    (h : ∀ x ∈ l1, p x = true) :
    (l1 ++ l2).takeWhile p = l1 ++ l2.takeWhile p := by
  induction l1 with
  | nil => simp
  | cons a l ih =>
    have ha : p a = true := h a (by simp)
    simp only [List.cons_append, List.takeWhile_cons, ha, if_true]
    rw [ih fun x hx => h x (by simp [hx])]

/-- Moving the last `rn.length` nodes in front of a division into its
numerator (one `insertAfter` on the numerator's `startNode` per node)
drops them from the parent prefix and lands them after the numerator's
first node in their original order. -/
theorem collectMove_append (b0 rn : List UnitNode) (n0 : UnitNode)
    (nt : List UnitNode) :
    collectMove rn.length (b0 ++ rn) (n0 :: nt) = (b0, n0 :: (rn ++ nt)) := by
  induction rn using List.reverseRecOn generalizing nt with
  | nil => simp [collectMove]
  | append_singleton rs x ih =>
    have hlen : (rs ++ [x]).length = rs.length + 1 := by simp
    rw [hlen, ← List.append_assoc]
    show collectMove (rs.length + 1) ((b0 ++ rs) ++ [x]) (n0 :: nt) = _
    rw [collectMove, List.getLast?_concat, List.dropLast_concat]
    simpa using ih (x :: nt)

/-- C5 (counterexample to the claim as stated): with preceding siblings
`StartNode`, `DivisionNode`, `Atom '1'` (precis `_%1`), the maximal run
of *alphanumeric* characters at the tail is just `1`, so the claim
predicts that exactly the atom `1` moves; but `collectNumerator`'s
character class also contains `%` and `^`, so the division node moves
too. -/
theorem c5_counterexample :
    collectNumerator
        [startNode, divisionNode [startNode] [startNode], atomNode '1']
        [startNode] =
      .ok ([startNode],
        [startNode, divisionNode [startNode] [startNode], atomNode '1'],
        true) ∧
    collectNumerator
        [startNode, divisionNode [startNode] [startNode], atomNode '1']
        [startNode] ≠
      .ok ([startNode, divisionNode [startNode] [startNode]],
        [startNode, atomNode '1'], true) := by
  exact ⟨rfl, by decide⟩

/-- C5 (amended): `collectNumerator` on a division whose preceding
siblings are `b0 ++ rn`, where `rn` is a non-empty run of nodes whose
precis characters lie in the class alphanumeric-or-`%`-or-`^` (the class
also admitting the opaque precis of Division/SquareRoot nodes and the
`^` of Exponent nodes) and where `b0` does not end in such a character,
moves exactly the nodes of `rn` into the numerator — in their original
order, right after the numerator's first node — and returns `true`.  In
particular for atoms `1`,`2` and a fresh division the numerator ends up
with precis `_12`, the function returns `true`, and the
`insertNodeByCharacter` cursor rule then places the cursor on the
denominator's start node. -/
theorem c5_amended :
    (∀ (b0 rn nt : List UnitNode) (n0 : UnitNode),
      rn ≠ [] →
      (∀ u ∈ rn, isCollectChar (precisChar u) = true) →
      (∀ u, b0.getLast? = some u → isCollectChar (precisChar u) = false) →
      collectNumerator (b0 ++ rn) (n0 :: nt) =
        .ok (b0, n0 :: (rn ++ nt), true)) ∧
    collectNumerator [startNode, atomNode '1', atomNode '2'] [startNode] =
      .ok ([startNode], [startNode, atomNode '1', atomNode '2'], true) ∧
    precisOf [startNode, atomNode '1', atomNode '2'] = ['_', '1', '2'] ∧
    divisionCursor true [startNode, atomNode '1', atomNode '2'] [startNode] =
      some startNode := by
  refine ⟨?_, rfl, rfl, rfl⟩
  intro b0 rn nt n0 hne hall hstop
  have hbefore : b0 ++ rn ≠ [] := by
    intro h
    exact hne (List.append_eq_nil.mp h).2
  have hrun : ((precisOf (b0 ++ rn)).reverse.takeWhile isCollectChar).length =
      rn.length := by
    have hmap : precisOf (b0 ++ rn) = precisOf b0 ++ precisOf rn := by
      simp [precisOf]
    rw [hmap, List.reverse_append]
    rw [takeWhile_append_of_all _ _ (by
      intro x hx
      rw [List.mem_reverse] at hx
      obtain ⟨u, hu, rfl⟩ := List.mem_map.mp hx
      exact hall u hu)]
    have hb0 : ((precisOf b0).reverse.takeWhile isCollectChar) = [] := by
      rcases List.eq_nil_or_concat b0 with rfl | ⟨L, b, rfl⟩
      · simp [precisOf]
      · simp only [List.concat_eq_append] at hstop ⊢
        have hpre : precisOf (L ++ [b]) = precisOf L ++ [precisChar b] := by
          simp [precisOf]
        -- the reverse starts with `precisChar b`, which fails the class test
        rw [hpre, List.reverse_concat, List.takeWhile_cons,
          hstop b (List.getLast?_concat L)]
        simp
    rw [hb0]
    simp [precisOf]
  have hb : ¬ (b0 ++ rn = []) := hbefore
  have hlen : rn.length ≠ 0 := by simpa using hne
  simp only [collectNumerator, if_neg hb, hrun, ne_eq, hlen, not_false_eq_true,
    if_true, collectMove_append]

/-- Witness for `c5_amended` at a concrete input: a single atom `x`
preceded only by the `StartNode` is collected into the numerator. -/
theorem c5_amended_witness :
    collectNumerator [startNode, atomNode 'x'] [startNode] =
      .ok ([startNode], [startNode, atomNode 'x'], true) := by
  have h := c5_amended.1 [startNode] [atomNode 'x'] [] startNode
    (by decide)
    (by intro u hu; rw [List.mem_singleton] at hu; subst hu; decide)
    (by
      intro u hu
      have : u = startNode := by simpa using hu.symm
      subst this; decide)
  simpa using h

/-! ## Claim C7 -/

section InsertAfterLemmas

variable {α : Type} [DecidableEq α]

/-- `removeFirst l x` drops the first occurrence of `x` from `l` (what
`childDelete` computes when `x` is present). -/
def removeFirst : List α → α → List α
  | [], _ => []
  | a :: t, x => if a = x then t else a :: removeFirst t x

theorem indexOfNode_spec {l : List α} {x : α} (h : x ∈ l) :
    ∃ l1 l2, l = l1 ++ x :: l2 ∧ x ∉ l1 ∧
      indexOfNode l x = .ok l1.length := by
  induction l with
  | nil => cases h
  | cons a t ih =>
    by_cases hax : a = x
    · subst hax
      exact ⟨[], t, rfl, by simp, by simp [indexOfNode]⟩
    · have hxt : x ∈ t := by
        rcases List.mem_cons.mp h with h' | h'
        · exact absurd h'.symm hax
        · exact h'
      obtain ⟨l1, l2, rfl, hnx, hidx⟩ := ih hxt
      refine ⟨a :: l1, l2, rfl, ?_, by simp [indexOfNode, hax, hidx]⟩
      intro hmem
      rcases List.mem_cons.mp hmem with rfl | h'
      · exact hax rfl
      · exact hnx h'

theorem indexOfNode_cases (l : List α) (x : α) :
    indexOfNode l x = .error .nodeNotFound ∨ ∃ i, indexOfNode l x = .ok i := by
  induction l with
  | nil => exact .inl rfl
  | cons a t ih =>
    by_cases hax : a = x
    · exact .inr ⟨0, by simp [indexOfNode, hax]⟩
    · rcases ih with h | ⟨i, h⟩
      · exact .inl (by simp [indexOfNode, hax, h])
      · exact .inr ⟨i + 1, by simp [indexOfNode, hax, h]⟩

theorem childInsertAfter_spec {l : List α} {a : α} (n : α) (h : a ∈ l) :
    ∃ l1 l2, l = l1 ++ a :: l2 ∧ a ∉ l1 ∧
      childInsertAfter l a n = .ok (l1 ++ a :: n :: l2) := by
  obtain ⟨l1, l2, rfl, hna, hidx⟩ := indexOfNode_spec h
  refine ⟨l1, l2, rfl, hna, ?_⟩
  rw [childInsertAfter, hidx]
  show Except.ok _ = _
  congr 1
  have htake : (l1 ++ a :: l2).take (l1.length + 1) = l1 ++ [a] := by
    rw [show l1 ++ a :: l2 = (l1 ++ [a]) ++ l2 by simp,
      List.take_append_of_le_length (by simp)]
    simp
  have hdrop : (l1 ++ a :: l2).drop (l1.length + 1) = l2 := by
    rw [show l1 ++ a :: l2 = (l1 ++ [a]) ++ l2 by simp,
      List.drop_append_of_le_length (by simp)]
    simp
  rw [htake, hdrop]
  simp

theorem childInsertAfter_no_noParent (l : List α) (a n : α) :
    childInsertAfter l a n ≠ .error .noParent := by
  rcases indexOfNode_cases l a with h | ⟨i, h⟩ <;>
    simp [childInsertAfter, h, bind, Except.bind]

theorem childDelete_no_noParent (l : List α) (x : α) :
    childDelete l x ≠ .error .noParent := by
  rcases indexOfNode_cases l x with h | ⟨i, h⟩ <;>
    simp [childDelete, h, bind, Except.bind]

theorem removeFirst_append_of_not_mem {l1 : List α} {x : α}
    (h : x ∉ l1) (l2 : List α) :
    removeFirst (l1 ++ x :: l2) x = l1 ++ l2 := by
  induction l1 with
  | nil => simp [removeFirst]
  | cons a t ih =>
    have hax : a ≠ x := by
      intro h'; exact h (by simp [h'])
    show removeFirst (a :: (t ++ x :: l2)) x = a :: (t ++ l2)
    rw [removeFirst, if_neg hax]
    exact congrArg (List.cons a) (ih (fun h' => h (by simp [h'])))

theorem childDelete_of_mem {l : List α} {x : α} (h : x ∈ l) :
    childDelete l x = .ok (removeFirst l x) := by
  obtain ⟨l1, l2, rfl, hnx, hidx⟩ := indexOfNode_spec h
  rw [childDelete, hidx, removeFirst_append_of_not_mem hnx]
  show Except.ok _ = _
  congr 1
  have htake : (l1 ++ x :: l2).take l1.length = l1 := by
    rw [List.take_append_of_le_length (by simp)]
    simp
  have hdrop : (l1 ++ x :: l2).drop (l1.length + 1) = l2 := by
    rw [show l1 ++ x :: l2 = (l1 ++ [x]) ++ l2 by simp,
      List.drop_append_of_le_length (by simp)]
    simp
  rw [htake, hdrop]

theorem removeFirst_of_not_mem {l : List α} {x : α} (h : x ∉ l) :
    removeFirst l x = l := by
  induction l with
  | nil => rfl
  | cons a t ih =>
    have hax : a ≠ x := fun h' => h (by simp [h'])
    simp only [removeFirst, if_neg hax]
    rw [ih (fun h' => h (by simp [h']))]

theorem mem_removeFirst_of_ne {l : List α} {x y : α} (hxy : x ≠ y) :
    x ∈ removeFirst l y ↔ x ∈ l := by
  induction l with
  | nil => simp [removeFirst]
  | cons a t ih =>
    by_cases hay : a = y
    · subst hay
      simp only [removeFirst, if_pos rfl, List.mem_cons]
      exact ⟨fun h => .inr h, fun h => h.resolve_left hxy⟩
    · simp only [removeFirst, if_neg hay, List.mem_cons, ih]

theorem not_mem_removeFirst_self {l : List α} (hnd : l.Nodup) (x : α) :
    x ∉ removeFirst l x := by
  induction l with
  | nil => simp [removeFirst]
  | cons a t ih =>
    rcases List.nodup_cons.mp hnd with ⟨hat, hndt⟩
    by_cases hax : a = x
    · subst hax
      simp only [removeFirst, if_pos rfl]
      exact hat
    · simp only [removeFirst, if_neg hax, List.mem_cons]
      rintro (rfl | h)
      · exact hax rfl
      · exact ih hndt h

theorem exprContaining_eq_none_iff (world : List (List α)) (x : α) :
    exprContaining world x = none ↔ ∀ l ∈ world, x ∉ l := by
  induction world with
  | nil => simp [exprContaining]
  | cons l rest ih =>
    by_cases hx : x ∈ l
    · simp [exprContaining, hx]
    · rw [exprContaining, if_neg hx]
      constructor
      · intro h l' hl'
        rcases List.mem_cons.mp hl' with rfl | hl'
        · exact hx
        · have hnone : exprContaining rest x = none := by
            cases hrec : exprContaining rest x
            · rfl
            · rw [hrec] at h; cases h
          exact (ih.mp hnone) l' hl'
      · intro h
        have hnone : exprContaining rest x = none :=
          ih.mpr fun l' hl' => h l' (List.mem_cons_of_mem _ hl')
        rw [hnone]; rfl

theorem exprContaining_eq_some {world : List (List α)} {x : α} {i : Nat}
    (h : exprContaining world x = some i) :
    ∃ l, world[i]? = some l ∧ x ∈ l := by
  induction world generalizing i with
  | nil => cases h
  | cons l rest ih =>
    by_cases hx : x ∈ l
    · rw [exprContaining, if_pos hx] at h
      cases h
      exact ⟨l, by simp, hx⟩
    · rw [exprContaining, if_neg hx] at h
      rcases Option.map_eq_some'.mp h with ⟨j, hj, rfl⟩
      obtain ⟨l', hl', hx'⟩ := ih hj
      exact ⟨l', by simpa using hl', hx'⟩

theorem insertAfter_some_ne_noParent {world : List (List α)}
    {anchor newNode : α} {ai : Nat}
    (h0 : exprContaining world anchor = some ai) :
    insertAfter world anchor newNode ≠ .error .noParent := by
  simp only [insertAfter, h0]
  rcases h1 : exprContaining world newNode with _ | ni
  · simp only [bind, Except.bind]
    rcases h2 : world[ai]? with _ | la
    · simp
    · rcases hci : childInsertAfter la anchor newNode with e | v
      · simp only [hci, bind, Except.bind, ne_eq, Except.error.injEq]
        intro he
        rw [he] at hci
        exact childInsertAfter_no_noParent la anchor newNode hci
      · simp [hci, bind, Except.bind]
  · rcases h2 : world[ni]? with _ | l
    · simp [h2, bind, Except.bind]
    · rcases hcd : childDelete l newNode with e | l'
      · simp only [h2, hcd, bind, Except.bind, ne_eq, Except.error.injEq]
        intro he
        rw [he] at hcd
        exact childDelete_no_noParent l newNode hcd
      · simp only [h2, hcd, bind, Except.bind]
        rcases h3 : (world.set ni l')[ai]? with _ | la
        · simp [h3]
        · simp only [h3]
          rcases hci : childInsertAfter la anchor newNode with e | v
          · simp only [hci, bind, Except.bind, ne_eq, Except.error.injEq]
            intro he
            rw [he] at hci
            exact childInsertAfter_no_noParent la anchor newNode hci
          · simp [hci, bind, Except.bind]

end InsertAfterLemmas

/-- C7 (counterexample to the claim as stated): inserting a node after
itself.  The anchor `1` has a parent (the single expression `[0, 1]`),
so the claim promises that afterwards `newNode` sits exactly once
immediately after the anchor; but the detach step removes the node and
`childInsertAfter` then cannot find it, so the whole operation throws
`Node not found.` instead. -/
theorem c7_counterexample :
    exprContaining [[(0 : Nat), 1]] 1 = some 0 ∧
    insertAfter [[(0 : Nat), 1]] 1 1 = .error .nodeNotFound := by
  exact ⟨rfl, by decide⟩

/-- C7 (amended): `insertAfter(anchor, newNode)` fails with the
no-parent error iff `anchor` has no parent; otherwise, *provided
`newNode ≠ anchor`*, if `newNode` is already attached to some expression
it is first removed from that expression (re-parented, not copied), and
afterwards `newNode` occurs exactly once in `anchor`'s parent's node
sequence, immediately after `anchor`, with all other nodes in their
original relative order.  (For `newNode = anchor` the detach step
removes the anchor itself and the operation throws `Node not found.`,
see the counterexample.)  The result world is: every expression with
the first occurrence of `newNode` removed, and `anchor`'s expression
additionally split as `l1 ++ anchor :: newNode :: l2`. -/
theorem c7_amended {α : Type} [DecidableEq α] :
    (∀ (world : List (List α)) (anchor newNode : α),
      insertAfter world anchor newNode = .error .noParent ↔
        exprContaining world anchor = none) ∧
    (∀ (world : List (List α)) (anchor newNode : α) (ai : Nat)
        (la : List α),
      world.flatten.Nodup →
      exprContaining world anchor = some ai →
      world[ai]? = some la →
      newNode ≠ anchor →
      ∃ l1 l2,
        removeFirst la newNode = l1 ++ anchor :: l2 ∧
        anchor ∉ l1 ∧ newNode ∉ l1 ∧ newNode ∉ l2 ∧
        insertAfter world anchor newNode =
          .ok ((world.map (fun l => removeFirst l newNode)).set ai
            (l1 ++ anchor :: newNode :: l2))) := by
  constructor
  · intro world anchor newNode
    rcases h0 : exprContaining world anchor with _ | ai
    · simp [insertAfter, h0]
    · have hne := @insertAfter_some_ne_noParent _ _ _ _ newNode _ h0
      simp [hne, h0]
  · intro world anchor newNode ai la hnd hca hla hne
    obtain ⟨la', hla', hmemla'⟩ := exprContaining_eq_some hca
    rw [hla] at hla'
    injection hla' with hlaeq
    subst hlaeq
    have hmemL : anchor ∈ removeFirst la newNode :=
      (mem_removeFirst_of_ne (fun h => hne h.symm)).mpr hmemla'
    obtain ⟨l1, l2, hsplit, hanl1, hcia⟩ := childInsertAfter_spec newNode hmemL
    have hlaNodup : la.Nodup :=
      (List.nodup_flatten.mp hnd).1 la (List.getElem?_mem hla)
    have hnnL : newNode ∉ removeFirst la newNode := by
      by_cases hmemn : newNode ∈ la
      · exact not_mem_removeFirst_self hlaNodup newNode
      · rw [removeFirst_of_not_mem hmemn]; exact hmemn
    have hnn1 : newNode ∉ l1 := fun h => hnnL (by rw [hsplit]; simp [h])
    have hnn2 : newNode ∉ l2 := fun h => hnnL (by rw [hsplit]; simp [h])
    refine ⟨l1, l2, hsplit, hanl1, hnn1, hnn2, ?_⟩
    rcases h1 : exprContaining world newNode with _ | ni
    · -- newNode is detached: the removal pass touches nothing
      have hfid : world.map (fun l => removeFirst l newNode) = world := by
        have hall : ∀ l' ∈ world, removeFirst l' newNode = l' := fun l' hl' =>
          removeFirst_of_not_mem
            ((exprContaining_eq_none_iff world newNode).mp h1 l' hl')
        calc world.map (fun l => removeFirst l newNode)
            = world.map id := List.map_congr_left hall
          _ = world := List.map_id world
      have hLla : removeFirst la newNode = la :=
        removeFirst_of_not_mem fun hm =>
          (exprContaining_eq_none_iff world newNode).mp h1 la
            (List.getElem?_mem hla) hm
      rw [hLla] at hcia
      simp only [insertAfter, hca, h1, bind, Except.bind, hla, hcia, hfid]
    · -- newNode is attached at expression ni: it is deleted there first
      obtain ⟨lni, hlni, hmemni⟩ := exprContaining_eq_some h1
      have hnilt : ni < world.length := (List.getElem?_eq_some_iff.mp hlni).1
      have hdisj : ∀ (k : Nat) (lk : List α), k ≠ ni → world[k]? = some lk →
          newNode ∉ lk := by
        intro k lk hkni hwk
        have hklt : k < world.length := (List.getElem?_eq_some_iff.mp hwk).1
        have hgetk : world[k] = lk := by
          have := (List.getElem?_eq_some_iff.mp hwk).2
          exact this
        have hgetn : world[ni] = lni := by
          have := (List.getElem?_eq_some_iff.mp hlni).2
          exact this
        have hpair := (List.nodup_flatten.mp hnd).2
        rcases Nat.lt_or_ge k ni with hlt | hge
        · have hd := List.pairwise_iff_getElem.mp hpair k ni hklt hnilt hlt
          rw [hgetk, hgetn] at hd
          exact fun hm => hd hm hmemni
        · have hlt' : ni < k := Nat.lt_of_le_of_ne hge (fun h => hkni h.symm)
          have hd := List.pairwise_iff_getElem.mp hpair ni k hnilt hklt hlt'
          rw [hgetk, hgetn] at hd
          exact fun hm => hd hmemni hm
      have hmapset : world.map (fun l => removeFirst l newNode) =
          world.set ni (removeFirst lni newNode) := by
        apply List.ext_getElem?
        intro k
        by_cases hk : k = ni
        · subst hk
          have hgetk : world[k] = lni := (List.getElem?_eq_some_iff.mp hlni).2
          simp [List.getElem?_set, hnilt, hlni, hgetk]
        · rw [List.getElem?_map,
            List.getElem?_set_ne (fun h => hk h.symm)]
          cases hwk : world[k]? with
          | none => rfl
          | some lk =>
            simp [removeFirst_of_not_mem (hdisj k lk hk hwk)]
      have hmapai : (world.map (fun l => removeFirst l newNode))[ai]? =
          some (removeFirst la newNode) := by
        rw [List.getElem?_map, hla]
        rfl
      simp only [insertAfter, hca, h1, hlni, childDelete_of_mem hmemni,
        bind, Except.bind, ← hmapset, hmapai, hcia]

/-- Witness for `c7_amended` at a concrete input: inserting the detached
node `9` after anchor `0` in the single expression `[0, 1]`. -/
theorem c7_amended_witness :
    (insertAfter [[(0 : Nat), 1]] 0 9 = .error .noParent ↔
      exprContaining [[(0 : Nat), 1]] 0 = none) ∧
    (∃ l1 l2, removeFirst [(0 : Nat), 1] 9 = l1 ++ 0 :: l2 ∧
      0 ∉ l1 ∧ 9 ∉ l1 ∧ 9 ∉ l2 ∧
      insertAfter [[(0 : Nat), 1]] 0 9 =
        .ok (([[(0 : Nat), 1]].map (fun l => removeFirst l 9)).set 0
          (l1 ++ 0 :: 9 :: l2))) :=
  ⟨(@c7_amended Nat _).1 [[0, 1]] 0 9,
    (@c7_amended Nat _).2 [[0, 1]] 0 9 0 [0, 1]
      (by decide) (by decide) (by decide) (by decide)⟩

/-! ## Claims C2 and C3: navigation lemmas -/

theorem unitAt_eq_some_iff {root : List UnitNode} {ea : EAddr} {i : Nat}
    {u : UnitNode} :
    unitAt root (ea, i) = some u ↔
      ∃ e, exprAt root ea = some e ∧ e[i]? = some u := by
  simp [unitAt, Option.bind_eq_some]

theorem exprAt_cons_iff {root : List UnitNode} {ea : EAddr} {i : Nat}
    {s : Sel} {e : List UnitNode} :
    exprAt root ((i, s) :: ea) = some e ↔
      ∃ e' u, exprAt root ea = some e' ∧ e'[i]? = some u ∧
        subExpr u s = some e := by
  simp [exprAt, Option.bind_eq_some]

theorem wfTail_mem {l : List UnitNode} {u : UnitNode}
    (hwf : wfTail l = true) (h : u ∈ l) : wfUnit u = true := by
  induction l with
  | nil => cases h
  | cons a t ih =>
    have hcons : wfUnit a = true ∧ wfTail t = true := by
      cases a <;> simp_all [wfTail]
    rcases List.mem_cons.mp h with rfl | h'
    · exact hcons.1
    · exact ih hcons.2 h'

theorem wfExpr_head {l : List UnitNode} (hwf : wfExprNodes l = true) :
    l[0]? = some startNode := by
  cases l with
  | nil => simp [wfExprNodes] at hwf
  | cons a t => cases a <;> simp_all [wfExprNodes]

theorem wfExpr_ne_nil {l : List UnitNode} (hwf : wfExprNodes l = true) :
    l ≠ [] := by
  intro h
  subst h
  simp [wfExprNodes] at hwf

theorem wfExpr_mem {l : List UnitNode} {u : UnitNode}
    (hwf : wfExprNodes l = true) (h : u ∈ l) : wfUnit u = true := by
  cases l with
  | nil => cases h
  | cons a t =>
    have ha : a = startNode := by
      cases a <;> simp_all [wfExprNodes]
    subst ha
    have hwt : wfTail t = true := by simpa [wfExprNodes] using hwf
    rcases List.mem_cons.mp h with rfl | h'
    · simp [wfUnit]
    · exact wfTail_mem hwt h'

theorem wfUnit_subExpr {u : UnitNode} {s : Sel} {e : List UnitNode}
    (hwf : wfUnit u = true) (hs : subExpr u s = some e) :
    wfExprNodes e = true := by
  cases u <;> cases s <;> simp_all [subExpr, wfUnit]

theorem wfAt {root : List UnitNode} (hroot : wfExprNodes root = true) :
    ∀ {ea : EAddr} {e : List UnitNode},
      exprAt root ea = some e → wfExprNodes e = true := by
  intro ea
  induction ea with
  | nil =>
    intro e h
    rw [exprAt] at h
    cases h
    exact hroot
  | cons step ea ih =>
    intro e h
    obtain ⟨i, s⟩ := step
    obtain ⟨e', u, he', hu, hs⟩ := exprAt_cons_iff.mp h
    exact wfUnit_subExpr (wfExpr_mem (ih he') (List.getElem?_mem hu)) hs

/-- A sub-expression lookup through a unit address. -/
theorem exprAt_cons_of_unitAt {root : List UnitNode} {ea : EAddr} {i : Nat}
    {u : UnitNode} {s : Sel} {e : List UnitNode}
    (hu : unitAt root (ea, i) = some u) (hs : subExpr u s = some e) :
    exprAt root ((i, s) :: ea) = some e := by
  obtain ⟨e', he', hi⟩ := unitAt_eq_some_iff.mp hu
  exact exprAt_cons_iff.mpr ⟨e', u, he', hi, hs⟩

/-- The entry address produced by `cursorNodeFromLeft` is always a node
of the tree. -/
theorem cursorNodeFromLeft_valid {root : List UnitNode}
    (hroot : wfExprNodes root = true) {p : UAddr} {u : UnitNode}
    (hu : unitAt root p = some u) :
    ∃ q, cursorNodeFromLeft root p = some q ∧
      ∃ v, unitAt root q = some v := by
  obtain ⟨ea, i⟩ := p
  have hwfu : wfUnit u = true := by
    obtain ⟨e, he, hi⟩ := unitAt_eq_some_iff.mp hu
    exact wfExpr_mem (wfAt hroot he) (List.getElem?_mem hi)
  cases u with
  | divisionNode n d =>
    refine ⟨((i, Sel.numer) :: ea, 0), by simp [cursorNodeFromLeft, hu], ?_⟩
    have hn : exprAt root ((i, Sel.numer) :: ea) = some n :=
      exprAt_cons_of_unitAt hu rfl
    have hwfn : wfExprNodes n = true := by
      simp [wfUnit] at hwfu
      exact hwfu.1
    exact ⟨startNode, unitAt_eq_some_iff.mpr ⟨n, hn, wfExpr_head hwfn⟩⟩
  | exponentNode ex =>
    refine ⟨((i, Sel.expo) :: ea, 0), by simp [cursorNodeFromLeft, hu], ?_⟩
    have hn : exprAt root ((i, Sel.expo) :: ea) = some ex :=
      exprAt_cons_of_unitAt hu rfl
    have hwfn : wfExprNodes ex = true := by simpa [wfUnit] using hwfu
    exact ⟨startNode, unitAt_eq_some_iff.mpr ⟨ex, hn, wfExpr_head hwfn⟩⟩
  | squareRootNode r =>
    refine ⟨((i, Sel.rad) :: ea, 0), by simp [cursorNodeFromLeft, hu], ?_⟩
    have hn : exprAt root ((i, Sel.rad) :: ea) = some r :=
      exprAt_cons_of_unitAt hu rfl
    have hwfn : wfExprNodes r = true := by simpa [wfUnit] using hwfu
    exact ⟨startNode, unitAt_eq_some_iff.mpr ⟨r, hn, wfExpr_head hwfn⟩⟩
  | startNode =>
    exact ⟨(ea, i), by simp [cursorNodeFromLeft, hu], startNode, hu⟩
  | atomNode c =>
    exact ⟨(ea, i), by simp [cursorNodeFromLeft, hu], atomNode c, hu⟩
  | bracketNode c =>
    exact ⟨(ea, i), by simp [cursorNodeFromLeft, hu], bracketNode c, hu⟩
  | absoluteNode =>
    exact ⟨(ea, i), by simp [cursorNodeFromLeft, hu], absoluteNode, hu⟩

/-- `childRight` (from a valid child position, with a valid default)
always produces a node of the tree. -/
theorem childRightE_valid {root : List UnitNode}
    (hroot : wfExprNodes root = true) {ea : EAddr} {i : Nat} {u : UnitNode}
    (hu : unitAt root (ea, i) = some u) {d : UAddr} {w : UnitNode}
    (hd : unitAt root d = some w) :
    ∃ q, childRightE root ea i d = some q ∧ ∃ v, unitAt root q = some v := by
  obtain ⟨e, he, hi⟩ := unitAt_eq_some_iff.mp hu
  have hilt : i < e.length := (List.getElem?_eq_some_iff.mp hi).1
  by_cases hnext : i + 1 < e.length
  · obtain ⟨u', hu'⟩ : ∃ u', e[i + 1]? = some u' :=
      ⟨e[i + 1], List.getElem?_eq_some_iff.mpr ⟨hnext, rfl⟩⟩
    obtain ⟨q, hq, hv⟩ := cursorNodeFromLeft_valid hroot
      (unitAt_eq_some_iff.mpr ⟨e, he, hu'⟩)
    exact ⟨q, by
      simp [childRightE, he, Nat.not_le.mpr hilt, hnext, hq, bind], hv⟩
  · cases ea with
    | nil =>
      refine ⟨d, ?_, w, hd⟩
      simp [childRightE, he, Nat.not_le.mpr hilt, hnext, bind]
    | cons step ea' =>
      obtain ⟨j, s⟩ := step
      obtain ⟨e0, u0, he0, hj, hs⟩ := exprAt_cons_iff.mp he
      have hu0 : unitAt root (ea', j) = some u0 :=
        unitAt_eq_some_iff.mpr ⟨e0, he0, hj⟩
      refine ⟨(ea', j), ?_, u0, hu0⟩
      cases u0 <;> simp [subExpr] at hs <;>
        simp [childRightE, he, Nat.not_le.mpr hilt, hnext, hu0, bind]

/-- `childLeft` always produces a node of the tree. -/
theorem childLeftE_valid {root : List UnitNode}
    (hroot : wfExprNodes root = true) :
    ∀ (ea : EAddr) (i : Nat) (d : UAddr) (u w : UnitNode),
      unitAt root (ea, i) = some u → unitAt root d = some w →
      ∃ q, childLeftE root ea i d = some q ∧ ∃ v, unitAt root q = some v := by
  intro ea
  induction ea with
  | nil =>
    intro i d u w hu hd
    obtain ⟨e, he, hi⟩ := unitAt_eq_some_iff.mp hu
    have hilt : i < e.length := (List.getElem?_eq_some_iff.mp hi).1
    by_cases hi0 : i = 0
    · subst hi0
      have hene : e ≠ [] := List.length_pos.mp hilt
      exact ⟨d, by simp [childLeftE, he, hene, bind], w, hd⟩
    · obtain ⟨u', hu'⟩ : ∃ u', e[i - 1]? = some u' :=
      ⟨e[i - 1], List.getElem?_eq_some_iff.mpr ⟨by omega, rfl⟩⟩
      refine ⟨([], i - 1), ?_, u', unitAt_eq_some_iff.mpr ⟨e, he, hu'⟩⟩
      simp [childLeftE, he, Nat.not_le.mpr hilt, hi0, bind]
  | cons step ea' ih =>
    intro i d u w hu hd
    obtain ⟨j, s⟩ := step
    obtain ⟨e, he, hi⟩ := unitAt_eq_some_iff.mp hu
    have hilt : i < e.length := (List.getElem?_eq_some_iff.mp hi).1
    by_cases hi0 : i = 0
    · subst hi0
      obtain ⟨e0, u0, he0, hj, hs⟩ := exprAt_cons_iff.mp he
      have hu0 : unitAt root (ea', j) = some u0 :=
        unitAt_eq_some_iff.mpr ⟨e0, he0, hj⟩
      obtain ⟨q, hq, hv⟩ := ih j d u0 w hu0 hd
      refine ⟨q, ?_, hv⟩
      have hene : e ≠ [] := List.length_pos.mp hilt
      cases u0 with
      | startNode => simp [subExpr] at hs
      | atomNode c => simp [subExpr] at hs
      | bracketNode c => simp [subExpr] at hs
      | absoluteNode => simp [subExpr] at hs
      | divisionNode n dd => simp [childLeftE, he, hene, hu0, hq, bind]
      | exponentNode ex => simp [childLeftE, he, hene, hu0, hq, bind]
      | squareRootNode r => simp [childLeftE, he, hene, hu0, hq, bind]
    · obtain ⟨u', hu'⟩ : ∃ u', e[i - 1]? = some u' :=
      ⟨e[i - 1], List.getElem?_eq_some_iff.mpr ⟨by omega, rfl⟩⟩
      refine ⟨((j, s) :: ea', i - 1), ?_,
        u', unitAt_eq_some_iff.mpr ⟨e, he, hu'⟩⟩
      simp [childLeftE, he, Nat.not_le.mpr hilt, hi0, bind]

/-- `childUp` always produces a node of the tree. -/
theorem childUpE_valid {root : List UnitNode}
    (hroot : wfExprNodes root = true) :
    ∀ (ea : EAddr) (e : List UnitNode) (d : UAddr) (w : UnitNode),
      exprAt root ea = some e → unitAt root d = some w →
      ∃ q, childUpE root ea d = some q ∧ ∃ v, unitAt root q = some v := by
  intro ea
  induction ea with
  | nil =>
    intro e d w he hd
    exact ⟨d, by simp [childUpE], w, hd⟩
  | cons step ea' ih =>
    intro e d w he hd
    obtain ⟨j, s⟩ := step
    obtain ⟨e0, u0, he0, hj, hs⟩ := exprAt_cons_iff.mp he
    have hu0 : unitAt root (ea', j) = some u0 :=
      unitAt_eq_some_iff.mpr ⟨e0, he0, hj⟩
    have hwfu0 : wfUnit u0 = true :=
      wfExpr_mem (wfAt hroot he0) (List.getElem?_mem hj)
    cases u0 with
    | divisionNode n dd =>
      by_cases hden : s = Sel.denom
      · subst hden
        have hn : exprAt root ((j, Sel.numer) :: ea') = some n :=
          exprAt_cons_of_unitAt hu0 rfl
        have hwfn : wfExprNodes n = true := by
          simp [wfUnit] at hwfu0
          exact hwfu0.1
        refine ⟨((j, Sel.numer) :: ea', 0), ?_,
          startNode, unitAt_eq_some_iff.mpr ⟨n, hn, wfExpr_head hwfn⟩⟩
        simp [childUpE, hu0, bind]
      · obtain ⟨q, hq, hv⟩ := ih e0 d w he0 hd
        exact ⟨q, by simp [childUpE, hu0, hden, hq, bind], hv⟩
    | exponentNode ex =>
      obtain ⟨q, hq, hv⟩ := ih e0 d w he0 hd
      exact ⟨q, by simp [childUpE, hu0, hq, bind], hv⟩
    | squareRootNode r =>
      obtain ⟨q, hq, hv⟩ := ih e0 d w he0 hd
      exact ⟨q, by simp [childUpE, hu0, hq, bind], hv⟩
    | startNode => simp [subExpr] at hs
    | atomNode c => simp [subExpr] at hs
    | bracketNode c => simp [subExpr] at hs
    | absoluteNode => simp [subExpr] at hs

/-- `childDown` always produces a node of the tree. -/
theorem childDownE_valid {root : List UnitNode}
    (hroot : wfExprNodes root = true) :
    ∀ (ea : EAddr) (e : List UnitNode) (d : UAddr) (w : UnitNode),
      exprAt root ea = some e → unitAt root d = some w →
      ∃ q, childDownE root ea d = some q ∧ ∃ v, unitAt root q = some v := by
  intro ea
  induction ea with
  | nil =>
    intro e d w he hd
    exact ⟨d, by simp [childDownE], w, hd⟩
  | cons step ea' ih =>
    intro e d w he hd
    obtain ⟨j, s⟩ := step
    obtain ⟨e0, u0, he0, hj, hs⟩ := exprAt_cons_iff.mp he
    have hu0 : unitAt root (ea', j) = some u0 :=
      unitAt_eq_some_iff.mpr ⟨e0, he0, hj⟩
    have hwfu0 : wfUnit u0 = true :=
      wfExpr_mem (wfAt hroot he0) (List.getElem?_mem hj)
    cases u0 with
    | divisionNode n dd =>
      by_cases hnum : s = Sel.numer
      · subst hnum
        have hdd : exprAt root ((j, Sel.denom) :: ea') = some dd :=
          exprAt_cons_of_unitAt hu0 rfl
        have hwfd : wfExprNodes dd = true := by
          simp [wfUnit] at hwfu0
          exact hwfu0.2
        refine ⟨((j, Sel.denom) :: ea', 0), ?_,
          startNode, unitAt_eq_some_iff.mpr ⟨dd, hdd, wfExpr_head hwfd⟩⟩
        simp [childDownE, hu0, bind]
      · obtain ⟨q, hq, hv⟩ := ih e0 d w he0 hd
        exact ⟨q, by simp [childDownE, hu0, hnum, hq, bind], hv⟩
    | exponentNode ex =>
      obtain ⟨q, hq, hv⟩ := ih e0 d w he0 hd
      exact ⟨q, by simp [childDownE, hu0, hq, bind], hv⟩
    | squareRootNode r =>
      obtain ⟨q, hq, hv⟩ := ih e0 d w he0 hd
      exact ⟨q, by simp [childDownE, hu0, hq, bind], hv⟩
    | startNode => simp [subExpr] at hs
    | atomNode c => simp [subExpr] at hs
    | bracketNode c => simp [subExpr] at hs
    | absoluteNode => simp [subExpr] at hs

/-! ## Claim C3 -/

/-- C3: on a well-formed tree, each of the four navigation functions
(called with its default argument, the node itself) returns `some`
address of a node attached to the same tree — never `none` (a JS throw
or undefined dereference) — and where no move exists the result is the
original node: right from the root's last node, left from the root's
`StartNode`, and up/down from any node of the root expression all return
the node unchanged. -/
theorem c3_navigation_total :
    ∀ (root : List UnitNode), wfExprNodes root = true →
    ∀ (p : UAddr) (u : UnitNode), unitAt root p = some u →
      (∃ q, nodeRight root p = some q ∧ ∃ v, unitAt root q = some v) ∧
      (∃ q, nodeLeft root p = some q ∧ ∃ v, unitAt root q = some v) ∧
      (∃ q, nodeUp root p = some q ∧ ∃ v, unitAt root q = some v) ∧
      (∃ q, nodeDown root p = some q ∧ ∃ v, unitAt root q = some v) ∧
      (p.1 = [] → p.2 + 1 = root.length → nodeRight root p = some p) ∧
      (p.1 = [] → p.2 = 0 → nodeLeft root p = some p) ∧
      (p.1 = [] → nodeUp root p = some p ∧ nodeDown root p = some p) := by
  intro root hroot p u hu
  obtain ⟨ea, i⟩ := p
  obtain ⟨e, he, hi⟩ := unitAt_eq_some_iff.mp hu
  have hilt : i < e.length := (List.getElem?_eq_some_iff.mp hi).1
  have hwfu : wfUnit u = true :=
    wfExpr_mem (wfAt hroot he) (List.getElem?_mem hi)
  refine ⟨?_, ?_, ?_, ?_, ?_, ?_, ?_⟩
  · exact childRightE_valid hroot hu hu
  · -- nodeLeft
    cases u with
    | divisionNode n dd =>
      have hn : exprAt root ((i, Sel.numer) :: ea) = some n :=
        exprAt_cons_of_unitAt hu rfl
      have hwfn : wfExprNodes n = true := by
        simp [wfUnit] at hwfu
        exact hwfu.1
      have hlt : n.length - 1 < n.length := by
        have := List.length_pos.mpr (wfExpr_ne_nil hwfn)
        omega
      refine ⟨((i, Sel.numer) :: ea, n.length - 1),
        by simp [nodeLeft, hu, bind],
        n[n.length - 1],
        unitAt_eq_some_iff.mpr ⟨n, hn, List.getElem?_eq_some_iff.mpr ⟨hlt, rfl⟩⟩⟩
    | exponentNode ex =>
      have hn : exprAt root ((i, Sel.expo) :: ea) = some ex :=
        exprAt_cons_of_unitAt hu rfl
      have hwfn : wfExprNodes ex = true := by simpa [wfUnit] using hwfu
      have hlt : ex.length - 1 < ex.length := by
        have := List.length_pos.mpr (wfExpr_ne_nil hwfn)
        omega
      refine ⟨((i, Sel.expo) :: ea, ex.length - 1),
        by simp [nodeLeft, hu, bind],
        ex[ex.length - 1],
        unitAt_eq_some_iff.mpr ⟨ex, hn, List.getElem?_eq_some_iff.mpr ⟨hlt, rfl⟩⟩⟩
    | squareRootNode r =>
      have hn : exprAt root ((i, Sel.rad) :: ea) = some r :=
        exprAt_cons_of_unitAt hu rfl
      have hwfn : wfExprNodes r = true := by simpa [wfUnit] using hwfu
      have hlt : r.length - 1 < r.length := by
        have := List.length_pos.mpr (wfExpr_ne_nil hwfn)
        omega
      refine ⟨((i, Sel.rad) :: ea, r.length - 1),
        by simp [nodeLeft, hu, bind],
        r[r.length - 1],
        unitAt_eq_some_iff.mpr ⟨r, hn, List.getElem?_eq_some_iff.mpr ⟨hlt, rfl⟩⟩⟩
    | startNode =>
      obtain ⟨q, hq, hv⟩ := childLeftE_valid hroot ea i ((ea, i)) startNode
        startNode hu hu
      exact ⟨q, by simp [nodeLeft, hu, hq, bind], hv⟩
    | atomNode c =>
      obtain ⟨q, hq, hv⟩ := childLeftE_valid hroot ea i ((ea, i)) (atomNode c)
        (atomNode c) hu hu
      exact ⟨q, by simp [nodeLeft, hu, hq, bind], hv⟩
    | bracketNode c =>
      obtain ⟨q, hq, hv⟩ := childLeftE_valid hroot ea i ((ea, i))
        (bracketNode c) (bracketNode c) hu hu
      exact ⟨q, by simp [nodeLeft, hu, hq, bind], hv⟩
    | absoluteNode =>
      obtain ⟨q, hq, hv⟩ := childLeftE_valid hroot ea i ((ea, i)) absoluteNode
        absoluteNode hu hu
      exact ⟨q, by simp [nodeLeft, hu, hq, bind], hv⟩
  · obtain ⟨q, hq, hv⟩ := childUpE_valid hroot ea e (ea, i) u he hu
    exact ⟨q, by simp [nodeUp, hq], hv⟩
  · obtain ⟨q, hq, hv⟩ := childDownE_valid hroot ea e (ea, i) u he hu
    exact ⟨q, by simp [nodeDown, hq], hv⟩
  · -- right from the root's last node returns the default
    intro hea hlast
    simp only at hea hlast
    subst hea
    have heroot : e = root := by
      rw [exprAt] at he
      exact (Option.some.inj he).symm
    subst heroot
    have h1 : ¬ e.length ≤ i := by omega
    have h2 : ¬ (i + 1 < e.length) := by omega
    simp [nodeRight, childRightE, exprAt, h1, h2, bind]
  · -- left from the root's StartNode returns the default
    intro hea hi0
    simp only at hea hi0
    subst hea
    subst hi0
    have heroot : e = root := by
      rw [exprAt] at he
      exact (Option.some.inj he).symm
    subst heroot
    have hustart : u = startNode := by
      have hh := wfExpr_head hroot
      rw [hi] at hh
      exact Option.some.inj hh
    subst hustart
    have hne : e ≠ [] := wfExpr_ne_nil hroot
    simp [nodeLeft, hu, childLeftE, exprAt, hne, bind]
  · -- up and down bubble to the root and return the default
    intro hea
    simp only at hea
    subst hea
    constructor
    · simp [nodeUp, childUpE]
    · simp [nodeDown, childDownE]

/-- Witness for `c3_navigation_total` at a concrete input: from the
`StartNode` of the root `[StartNode, Atom 1]`, a right move exists and
stays in the tree. -/
theorem c3_navigation_total_witness :
    ∃ q, nodeRight [startNode, atomNode '1'] ([], 0) = some q ∧
      ∃ v, unitAt [startNode, atomNode '1'] q = some v :=
  (c3_navigation_total [startNode, atomNode '1'] (by decide)
    ([], 0) startNode rfl).1

/-! ## Claim C2 -/

/-- C2 (counterexample to the claim as stated): in the tree
`[StartNode, Division([StartNode],[StartNode])]`, take N = the
denominator's `StartNode` — not the tree's last position.  Moving right
exits to the Division node itself, but `DivisionNode.nodeLeft` then
enters the *numerator's* end, not the denominator, so right-then-left
does not return N. -/
theorem c2_counterexample :
    nodeRight [startNode, divisionNode [startNode] [startNode]]
        ([(1, Sel.denom)], 0) = some ([], 1) ∧
    nodeLeft [startNode, divisionNode [startNode] [startNode]] ([], 1) =
      some ([(1, Sel.numer)], 0) ∧
    (([(1, Sel.numer)], 0) : UAddr) ≠ (([(1, Sel.denom)], 0) : UAddr) ∧
    (([(1, Sel.denom)], 0) : UAddr).1 ≠ [] := by
  refine ⟨rfl, rfl, by decide, by decide⟩

/-- C2 (amended): on a well-formed tree, navigating right and then left
returns the original node N, unless N is the tree's last position (then
`nodeRight` already returns N unchanged), or N is the last position of a
Division's *denominator*: there `nodeRight` exits to the Division node
and `nodeLeft` re-enters at the *numerator's* last node, which is a
different node. -/
theorem c2_amended :
    ∀ (root : List UnitNode), wfExprNodes root = true →
    ∀ (p : UAddr) (u : UnitNode), unitAt root p = some u →
      (p.1 = [] → p.2 + 1 = root.length → nodeRight root p = some p) ∧
      (∀ e j ea', exprAt root p.1 = some e → p.2 + 1 = e.length →
        p.1 = (j, Sel.denom) :: ea' →
        nodeRight root p = some (ea', j) ∧
        ∃ n d, unitAt root (ea', j) = some (divisionNode n d) ∧
          nodeLeft root (ea', j) =
            some ((j, Sel.numer) :: ea', n.length - 1) ∧
          ((j, Sel.numer) :: ea', n.length - 1) ≠ p) ∧
      (¬ (p.1 = [] ∧ p.2 + 1 = root.length) →
        ¬ (∃ e j ea', exprAt root p.1 = some e ∧ p.2 + 1 = e.length ∧
            p.1 = (j, Sel.denom) :: ea') →
        ∃ q, nodeRight root p = some q ∧ nodeLeft root q = some p) := by
  intro root hroot p u hu
  obtain ⟨ea, i⟩ := p
  obtain ⟨e, he, hi⟩ := unitAt_eq_some_iff.mp hu
  have hilt : i < e.length := (List.getElem?_eq_some_iff.mp hi).1
  refine ⟨?_, ?_, ?_⟩
  · -- the tree's last position
    intro hea hlast
    simp only at hea hlast
    subst hea
    have heroot : e = root := by
      rw [exprAt] at he
      exact (Option.some.inj he).symm
    subst heroot
    have h1 : ¬ e.length ≤ i := by omega
    have h2 : ¬ (i + 1 < e.length) := by omega
    simp [nodeRight, childRightE, exprAt, h1, h2, bind]
  · -- the last position of a denominator
    intro e' j ea' he' hend hsel
    simp only at he' hend hsel
    subst hsel
    rw [he] at he'
    have he'e : e = e' := Option.some.inj he'
    subst he'e
    obtain ⟨e0, u0, he0, hj, hs⟩ := exprAt_cons_iff.mp he
    have hu0 : unitAt root (ea', j) = some u0 :=
      unitAt_eq_some_iff.mpr ⟨e0, he0, hj⟩
    cases u0 with
    | startNode => simp [subExpr] at hs
    | atomNode c => simp [subExpr] at hs
    | bracketNode c => simp [subExpr] at hs
    | absoluteNode => simp [subExpr] at hs
    | exponentNode ex => simp [subExpr] at hs
    | squareRootNode r => simp [subExpr] at hs
    | divisionNode n dd =>
      have h1 : ¬ e.length ≤ i := by omega
      have h2 : ¬ (i + 1 < e.length) := by omega
      refine ⟨by simp [nodeRight, childRightE, he, h1, h2, hu0, bind], n, dd,
        hu0, by simp [nodeLeft, hu0, bind], by simp⟩
  · -- everywhere else the round trip returns N
    intro hnotEnd hnotDenom
    by_cases hnext : i + 1 < e.length
    · -- a next sibling exists: enter it from the left, then step back
      obtain ⟨u', hu'⟩ : ∃ u', e[i + 1]? = some u' :=
        ⟨e[i + 1], List.getElem?_eq_some_iff.mpr ⟨hnext, rfl⟩⟩
      have hu'at : unitAt root (ea, i + 1) = some u' :=
        unitAt_eq_some_iff.mpr ⟨e, he, hu'⟩
      have hwfu' : wfUnit u' = true :=
        wfExpr_mem (wfAt hroot he) (List.getElem?_mem hu')
      have h1 : ¬ e.length ≤ i := by omega
      have hR : nodeRight root (ea, i) =
          cursorNodeFromLeft root (ea, i + 1) := by
        simp [nodeRight, childRightE, he, h1, hnext, bind]
      cases u' with
      | divisionNode n dd =>
        have hn : exprAt root ((i + 1, Sel.numer) :: ea) = some n :=
          exprAt_cons_of_unitAt hu'at rfl
        have hwfn : wfExprNodes n = true := by
          simp [wfUnit] at hwfu'
          exact hwfu'.1
        have hstart : n[0]? = some startNode := wfExpr_head hwfn
        have hnne : n ≠ [] := wfExpr_ne_nil hwfn
        refine ⟨((i + 1, Sel.numer) :: ea, 0), ?_, ?_⟩
        · rw [hR]
          simp [cursorNodeFromLeft, hu'at]
        · have hstartAt : unitAt root ((i + 1, Sel.numer) :: ea, 0) =
              some startNode := unitAt_eq_some_iff.mpr ⟨n, hn, hstart⟩
          simp [nodeLeft, hstartAt, childLeftE, hn, hnne, he,
            Nat.not_le.mpr hilt, h1, hu'at, bind]
          rw [childLeftE.eq_def]
          simp [he, Nat.not_le.mpr hnext, bind]
      | exponentNode ex =>
        have hn : exprAt root ((i + 1, Sel.expo) :: ea) = some ex :=
          exprAt_cons_of_unitAt hu'at rfl
        have hwfn : wfExprNodes ex = true := by simpa [wfUnit] using hwfu'
        have hstart : ex[0]? = some startNode := wfExpr_head hwfn
        have hnne : ex ≠ [] := wfExpr_ne_nil hwfn
        refine ⟨((i + 1, Sel.expo) :: ea, 0), ?_, ?_⟩
        · rw [hR]
          simp [cursorNodeFromLeft, hu'at]
        · have hstartAt : unitAt root ((i + 1, Sel.expo) :: ea, 0) =
              some startNode := unitAt_eq_some_iff.mpr ⟨ex, hn, hstart⟩
          simp [nodeLeft, hstartAt, childLeftE, hn, hnne, he,
            Nat.not_le.mpr hilt, h1, hu'at, bind]
          rw [childLeftE.eq_def]
          simp [he, Nat.not_le.mpr hnext, bind]
      | squareRootNode r =>
        have hn : exprAt root ((i + 1, Sel.rad) :: ea) = some r :=
          exprAt_cons_of_unitAt hu'at rfl
        have hwfn : wfExprNodes r = true := by simpa [wfUnit] using hwfu'
        have hstart : r[0]? = some startNode := wfExpr_head hwfn
        have hnne : r ≠ [] := wfExpr_ne_nil hwfn
        refine ⟨((i + 1, Sel.rad) :: ea, 0), ?_, ?_⟩
        · rw [hR]
          simp [cursorNodeFromLeft, hu'at]
        · have hstartAt : unitAt root ((i + 1, Sel.rad) :: ea, 0) =
              some startNode := unitAt_eq_some_iff.mpr ⟨r, hn, hstart⟩
          simp [nodeLeft, hstartAt, childLeftE, hn, hnne, he,
            Nat.not_le.mpr hilt, h1, hu'at, bind]
          rw [childLeftE.eq_def]
          simp [he, Nat.not_le.mpr hnext, bind]
      | startNode =>
        refine ⟨(ea, i + 1), ?_, ?_⟩
        · rw [hR]
          simp [cursorNodeFromLeft, hu'at]
        · simp only [nodeLeft, hu'at, bind, Except.bind, Option.bind_eq_bind,
            Option.some_bind]
          rw [childLeftE.eq_def]
          simp [he, Nat.not_le.mpr hnext, bind]
      | atomNode c =>
        refine ⟨(ea, i + 1), ?_, ?_⟩
        · rw [hR]
          simp [cursorNodeFromLeft, hu'at]
        · simp only [nodeLeft, hu'at, bind, Except.bind, Option.bind_eq_bind,
            Option.some_bind]
          rw [childLeftE.eq_def]
          simp [he, Nat.not_le.mpr hnext, bind]
      | bracketNode c =>
        refine ⟨(ea, i + 1), ?_, ?_⟩
        · rw [hR]
          simp [cursorNodeFromLeft, hu'at]
        · simp only [nodeLeft, hu'at, bind, Except.bind, Option.bind_eq_bind,
            Option.some_bind]
          rw [childLeftE.eq_def]
          simp [he, Nat.not_le.mpr hnext, bind]
      | absoluteNode =>
        refine ⟨(ea, i + 1), ?_, ?_⟩
        · rw [hR]
          simp [cursorNodeFromLeft, hu'at]
        · simp only [nodeLeft, hu'at, bind, Except.bind, Option.bind_eq_bind,
            Option.some_bind]
          rw [childLeftE.eq_def]
          simp [he, Nat.not_le.mpr hnext, bind]
    · -- N is the last node of its expression: exit to the owner
      have hend : i + 1 = e.length := by omega
      cases ea with
      | nil =>
        exfalso
        apply hnotEnd
        have heroot : e = root := by
          rw [exprAt] at he
          exact (Option.some.inj he).symm
        subst heroot
        exact ⟨rfl, hend⟩
      | cons step ea' =>
        obtain ⟨j, s⟩ := step
        obtain ⟨e0, u0, he0, hj, hs⟩ := exprAt_cons_iff.mp he
        have hu0 : unitAt root (ea', j) = some u0 :=
          unitAt_eq_some_iff.mpr ⟨e0, he0, hj⟩
        have h1 : ¬ e.length ≤ i := by omega
        have hR : nodeRight root ((j, s) :: ea', i) = some (ea', j) := by
          cases u0 with
          | startNode => simp [subExpr] at hs
          | atomNode c => simp [subExpr] at hs
          | bracketNode c => simp [subExpr] at hs
          | absoluteNode => simp [subExpr] at hs
          | divisionNode n dd =>
            simp [nodeRight, childRightE, he, h1, hnext, hu0, bind]
          | exponentNode ex =>
            simp [nodeRight, childRightE, he, h1, hnext, hu0, bind]
          | squareRootNode r =>
            simp [nodeRight, childRightE, he, h1, hnext, hu0, bind]
        refine ⟨(ea', j), hR, ?_⟩
        cases u0 with
        | startNode => simp [subExpr] at hs
        | atomNode c => simp [subExpr] at hs
        | bracketNode c => simp [subExpr] at hs
        | absoluteNode => simp [subExpr] at hs
        | divisionNode n dd =>
          cases s with
          | numer =>
            have hne : n = e := by simpa [subExpr] using hs
            subst hne
            have hieq : i = n.length - 1 := by omega
            subst hieq
            simp [nodeLeft, hu0, bind]
          | denom =>
            exfalso
            exact hnotDenom ⟨e, j, ea', he, hend, rfl⟩
          | expo => simp [subExpr] at hs
          | rad => simp [subExpr] at hs
        | exponentNode ex =>
          have hsx : ex = e ∧ s = Sel.expo := by
            cases s <;> simp_all [subExpr]
          obtain ⟨hhe, rfl⟩ := hsx
          subst hhe
          have hieq : i = ex.length - 1 := by omega
          subst hieq
          simp [nodeLeft, hu0, bind]
        | squareRootNode r =>
          have hsx : r = e ∧ s = Sel.rad := by
            cases s <;> simp_all [subExpr]
          obtain ⟨hhe, rfl⟩ := hsx
          subst hhe
          have hieq : i = r.length - 1 := by omega
          subst hieq
          simp [nodeLeft, hu0, bind]

/-- Witness for `c2_amended` at a concrete input: from the `StartNode`
of `[StartNode, Atom 1]` (neither the last position nor a denominator
end), right-then-left comes back. -/
theorem c2_amended_witness :
    ∃ q, nodeRight [startNode, atomNode '1'] ([], 0) = some q ∧
      nodeLeft [startNode, atomNode '1'] q = some ([], 0) :=
  (c2_amended [startNode, atomNode '1'] (by decide)
      ([], 0) startNode rfl).2.2
    (by decide)
    (by
      rintro ⟨e, j, ea', -, -, hcons⟩
      exact List.cons_ne_nil _ _ hcons.symm)

/-! ## Claim C9: the deserializer

`MathInput.insertNodesByMathML` calls `MathNode.buildNodesetFromMathML`,
which is not part of the sources here (only its caller and its tests
are), so the deserializer is modelled from the spec.  The semantic-form
language below is the exact tag vocabulary of §6 (`plus`, `minus`,
`times`, `divide`, `power`, `root`, `abs`, `sin`, `cos`, `tan`, `ln`,
`pi`, `exponentiale`, `infinity`, `cn`, `ci` and the `apply` nesting
convention), which is also precisely the set of forms the serializer
above emits. -/

/-- The named functions of the semantic form. -/
inductive FnName : Type where
  | sinF : FnName
  | cosF : FnName
  | tanF : FnName
  | lnF : FnName
  deriving Repr, DecidableEq

/-- The tag of a named function. -/
def fnTag : FnName → String
  | .sinF => "sin"
  | .cosF => "cos"
  | .tanF => "tan"
  | .lnF => "ln"

/-- The precis characters of a named function. -/
def fnChars : FnName → List Char
  | .sinF => ['s', 'i', 'n']
  | .cosF => ['c', 'o', 's']
  | .tanF => ['t', 'a', 'n']
  | .lnF => ['l', 'n']

/-- The abstract syntax of the semantic MathML form: the operator tags
and nesting convention of §6.  `rootNoDegA` is a root element lacking
an explicit degree, which the deserializer accepts but the serializer
never emits. -/
inductive MathAST : Type where
  | cn (intPart : List Char) (fracPart : Option (List Char)) : MathAST
  | ci (c : Char) : MathAST
  | piC : MathAST
  | eulerC : MathAST
  | inftyC : MathAST
  | plusA (a b : MathAST) : MathAST
  | minusA (a b : MathAST) : MathAST
  | timesA (a b : MathAST) : MathAST
  | negA (a : MathAST) : MathAST
  | fnA (f : FnName) (a : MathAST) : MathAST
  | absA (a : MathAST) : MathAST
  | powerA (base ex : MathAST) : MathAST
  | divideA (n d : MathAST) : MathAST
  | rootA (r : MathAST) : MathAST
  | rootNoDegA (r : MathAST) : MathAST
  deriving Repr, DecidableEq

open MathAST

/-- The semantic MathML string of an AST. -/
def astString : MathAST → String
  | cn ip fp =>
    "<cn>" ++ String.mk (ip ++ (match fp with
      | none => []
      | some f => '.' :: f)) ++ "</cn>"
  | ci c => "<ci>" ++ String.mk [c] ++ "</ci>"
  | piC => "<pi/>"
  | eulerC => "<exponentiale/>"
  | inftyC => "<infinity/>"
  | plusA a b => "<apply><plus/>" ++ astString a ++ astString b ++ "</apply>"
  | minusA a b => "<apply><minus/>" ++ astString a ++ astString b ++ "</apply>"
  | timesA a b => "<apply><times/>" ++ astString a ++ astString b ++ "</apply>"
  | negA a => "<apply><minus/>" ++ astString a ++ "</apply>"
  | fnA f a => "<apply><" ++ fnTag f ++ "/>" ++ astString a ++ "</apply>"
  | absA a => "<apply><abs/>" ++ astString a ++ "</apply>"
  | powerA b e => "<apply><power/>" ++ astString b ++ astString e ++ "</apply>"
  | divideA n d => "<apply><divide/>" ++ astString n ++ astString d ++ "</apply>"
  | rootA r =>
    "<apply><root/><degree><cn>2</cn></degree>" ++ astString r ++ "</apply>"
  | rootNoDegA r => "<apply><root/>" ++ astString r ++ "</apply>"

/-- Replace every degree-less root by the canonical explicit degree-2
root (what re-serialization produces: the documented asymmetry). -/
def canonAST : MathAST → MathAST
  | cn ip fp => cn ip fp
  | ci c => ci c
  | piC => piC
  | eulerC => eulerC
  | inftyC => inftyC
  | plusA a b => plusA (canonAST a) (canonAST b)
  | minusA a b => minusA (canonAST a) (canonAST b)
  | timesA a b => timesA (canonAST a) (canonAST b)
  | negA a => negA (canonAST a)
  | fnA f a => fnA f (canonAST a)
  | absA a => absA (canonAST a)
  | powerA b e => powerA (canonAST b) (canonAST e)
  | divideA n d => divideA (canonAST n) (canonAST d)
  | rootA r => rootA (canonAST r)
  | rootNoDegA r => rootA (canonAST r)

/-- Does the deserialization of `t` put a `|` into the *current* precis
level?  Only Division/SquareRoot numerators, denominators and radicands
and Exponent interiors live in their own sub-expressions; brackets do
not hide pipes from the serializer's flat `indexOf` scan, so an
absolute value anywhere else contributes pipes to the current level. -/
def pipeFree : MathAST → Bool
  | cn _ _ => true
  | ci _ => true
  | piC => true
  | eulerC => true
  | inftyC => true
  | plusA a b => pipeFree a && pipeFree b
  | minusA a b => pipeFree a && pipeFree b
  | timesA a b => pipeFree a && pipeFree b
  | negA a => pipeFree a
  | fnA _ a => pipeFree a
  | absA _ => false
  | powerA b _ => pipeFree b
  | divideA _ _ => true
  | rootA _ => true
  | rootNoDegA _ => true

/-- The semantic strings the serializer can actually produce: numeric
literals are non-empty digit runs (with a non-empty fraction part when
present), identifiers are single letters other than `e` (which prints
as `exponentiale`) and `π` (which prints as `pi`), the operand of an
absolute value carries no pipes of its own level (nested pipes defeat
the serializer's flat pipe scan, so such forms are unproducible), and a
degree-less root is never emitted. -/
def WFA : MathAST → Bool
  | cn ip fp =>
    !ip.isEmpty && ip.all isDigitChar &&
      (match fp with
        | none => true
        | some f => !f.isEmpty && f.all isDigitChar)
  | ci c => isLetterChar c && !(c = 'e') && !(c = 'π')
  | piC => true
  | eulerC => true
  | inftyC => true
  | plusA a b => WFA a && WFA b
  | minusA a b => WFA a && WFA b
  | timesA a b => WFA a && WFA b
  | negA a => WFA a
  | fnA _ a => WFA a
  | absA a => WFA a && pipeFree a
  | powerA b e => WFA b && WFA e
  | divideA n d => WFA n && WFA d
  | rootA r => WFA r
  | rootNoDegA r => WFA r

/-- Wrap a node sequence in an explicit bracket pair. -/
def brN (l : List UnitNode) : List UnitNode :=
  bracketNode '(' :: l ++ [bracketNode ')']

/-- Modelled from the spec: `MathNode.buildNodesetFromMathML`, the
deserializer invoked by `MathInput.insertNodesByMathML`, which is not
among the sources (only its caller and tests are).  Following §4.6 it
reconstructs, for a semantic form, the sequence of UnitNodes to insert
left-to-right at the cursor: literal/identifier/constant atoms, unary
minus, binary plus/minus/times, named functions as parenthesized-call
sugar, power as an explicit Exponent unit right after its base, divide
as a Division unit with recursively deserialized numerator and
denominator, and root (with or without an explicit degree of 2) as a
SquareRoot unit.  Every composite operand is wrapped in an explicit
bracket pair, which re-serializes to the same semantic string (brackets
only group). -/
def deserialize : MathAST → List UnitNode
  | cn ip fp =>
    ip.map atomNode ++ (match fp with
      | none => []
      | some f => atomNode '.' :: f.map atomNode)
  | ci c => [atomNode c]
  | piC => [atomNode 'π']
  | eulerC => [atomNode 'e']
  | inftyC => [atomNode '∞']
  | plusA a b => brN (deserialize a) ++ atomNode '+' :: brN (deserialize b)
  | minusA a b => brN (deserialize a) ++ atomNode '-' :: brN (deserialize b)
  | timesA a b => brN (deserialize a) ++ atomNode '*' :: brN (deserialize b)
  | negA a => atomNode '-' :: brN (deserialize a)
  | fnA f a => (fnChars f).map atomNode ++ brN (deserialize a)
  | absA a => absoluteNode :: brN (deserialize a) ++ [absoluteNode]
  | powerA b e =>
    brN (deserialize b) ++ [exponentNode (startNode :: deserialize e)]
  | divideA n d =>
    [divisionNode (startNode :: deserialize n) (startNode :: deserialize d)]
  | rootA r => [squareRootNode (startNode :: deserialize r)]
  | rootNoDegA r => [squareRootNode (startNode :: deserialize r)]

/-! ### Bracket- and pipe-shape lemmas

Characterizations of the scanning helpers on the bracketed shapes the
deserializer produces, used for the round-trip proof. -/

/-- One step of the paren-depth counter. -/
def stepD (c : Char) (d : Nat) : Nat :=
  if c = ')' then d - 1 else if c = '(' then d + 1 else d

/-- The forward paren scan crosses all of `s` from depth `d` without
terminating: every `)` in `s` is met at depth at least 2. -/
def crossOk : List Char → Nat → Bool
  | [], _ => true
  | c :: cs, d => (if c = ')' then decide (2 ≤ d) else true) && crossOk cs (stepD c d)

/-- The depth after the forward paren scan crosses `s` from depth `d`. -/
def crossNet : List Char → Nat → Nat
  | [], d => d
  | c :: cs, d => crossNet cs (stepD c d)

/-- A balanced bracket interior: crossing from depth 1 neither
terminates the scan nor changes the depth. -/
def innerBal (s : List Char) : Bool :=
  crossOk s 1 && decide (crossNet s 1 = 1)

theorem crossOk_cons (c : Char) (cs : List Char) (d : Nat) :
    crossOk (c :: cs) d =
      ((if c = ')' then decide (2 ≤ d) else true) && crossOk cs (stepD c d)) := rfl

theorem crossNet_cons (c : Char) (cs : List Char) (d : Nat) :
    crossNet (c :: cs) d = crossNet cs (stepD c d) := rfl

theorem crossNet_append (a : List Char) : ∀ (b : List Char) (d : Nat),
    crossNet (a ++ b) d = crossNet b (crossNet a d) := by
  induction a with
  | nil => intro b d; rfl
  | cons c cs ih =>
    intro b d
    rw [List.cons_append, crossNet_cons, crossNet_cons, ih]

theorem crossOk_append (a : List Char) : ∀ (b : List Char) (d : Nat),
    crossOk (a ++ b) d = (crossOk a d && crossOk b (crossNet a d)) := by
  induction a with
  | nil => intro b d; rfl
  | cons c cs ih =>
    intro b d
    rw [List.cons_append, crossOk_cons, crossOk_cons, crossNet_cons, ih,
      Bool.and_assoc]

theorem crossOk_mono (s : List Char) : ∀ (d e : Nat), crossOk s d = true → d ≤ e →
    crossOk s e = true ∧ crossNet s e + d = crossNet s d + e := by
  induction s with
  | nil =>
    intro d e _ _
    exact ⟨rfl, by show e + d = d + e; omega⟩
  | cons c cs ih =>
    intro d e h hde
    rw [crossOk_cons, Bool.and_eq_true] at h
    obtain ⟨h1, h2⟩ := h
    have hstep : stepD c d ≤ stepD c e ∧ stepD c e + d = stepD c d + e := by
      by_cases hc : c = ')'
      · have hd2 : 2 ≤ d := by
          have := h1
          rw [if_pos hc, decide_eq_true_eq] at this
          exact this
        simp only [stepD, if_pos hc]
        omega
      · by_cases hc2 : c = '('
        · simp only [stepD, if_neg hc, if_pos hc2]; omega
        · simp only [stepD, if_neg hc, if_neg hc2]; omega
    obtain ⟨hs1, hs2⟩ := hstep
    obtain ⟨ih1, ih2⟩ := ih (stepD c d) (stepD c e) h2 hs1
    constructor
    · rw [crossOk_cons, Bool.and_eq_true]
      refine ⟨?_, ih1⟩
      by_cases hc : c = ')'
      · have hd2 : 2 ≤ d := by
          have := h1
          rw [if_pos hc, decide_eq_true_eq] at this
          exact this
        rw [if_pos hc, decide_eq_true_eq]
        omega
      · rw [if_neg hc]
    · rw [crossNet_cons, crossNet_cons]
      omega

/-- Characters that are not parens leave the depth scan untouched. -/
theorem crossOk_of_no_paren {s : List Char}
    (h : ∀ c ∈ s, c ≠ '(' ∧ c ≠ ')') (d : Nat) :
    crossOk s d = true ∧ crossNet s d = d := by
  induction s with
  | nil => exact ⟨rfl, rfl⟩
  | cons c cs ih =>
    obtain ⟨hc1, hc2⟩ := h c (by simp)
    have hrest : ∀ c ∈ cs, c ≠ '(' ∧ c ≠ ')' := fun x hx => h x (by simp [hx])
    obtain ⟨ih1, ih2⟩ := ih hrest
    have hstep : stepD c d = d := by simp only [stepD, if_neg hc2, if_neg hc1]
    constructor
    · rw [crossOk_cons, hstep, if_neg hc2, ih1, Bool.true_and]
    · rw [crossNet_cons, hstep, ih2]

/-- A bracketed balanced interior crosses from any positive depth. -/
theorem crossOk_br {s : List Char} (h : innerBal s = true) {d : Nat} (hd : 1 ≤ d) :
    crossOk ('(' :: s ++ [')']) d = true ∧ crossNet ('(' :: s ++ [')']) d = d := by
  rw [innerBal, Bool.and_eq_true, decide_eq_true_eq] at h
  obtain ⟨h1, h2⟩ := h
  obtain ⟨hm1, hm2⟩ := crossOk_mono s 1 (d + 1) h1 (by omega)
  have hnet : crossNet s (d + 1) = d + 1 := by omega
  have hstep : stepD '(' d = d + 1 := by simp [stepD]
  constructor
  · rw [List.cons_append, crossOk_cons, hstep,
      if_neg (by decide : ¬ ('(' = ')')), Bool.true_and, crossOk_append, hnet,
      Bool.and_eq_true]
    refine ⟨hm1, ?_⟩
    rw [crossOk_cons, if_pos rfl, Bool.and_eq_true, decide_eq_true_eq]
    exact ⟨by omega, rfl⟩
  · rw [List.cons_append, crossNet_cons, hstep, crossNet_append, hnet,
      crossNet_cons]
    show stepD ')' (d + 1) = d
    simp [stepD]

theorem innerBal_append {a b : List Char} (ha : innerBal a = true)
    (hb : innerBal b = true) : innerBal (a ++ b) = true := by
  rw [innerBal, Bool.and_eq_true, decide_eq_true_eq] at ha hb
  obtain ⟨ha1, ha2⟩ := ha
  obtain ⟨hb1, hb2⟩ := hb
  rw [innerBal, Bool.and_eq_true, decide_eq_true_eq, crossOk_append,
    crossNet_append, ha2, Bool.and_eq_true]
  exact ⟨⟨ha1, hb1⟩, hb2⟩

theorem innerBal_of_no_paren {s : List Char}
    (h : ∀ c ∈ s, c ≠ '(' ∧ c ≠ ')') : innerBal s = true := by
  obtain ⟨h1, h2⟩ := crossOk_of_no_paren h 1
  rw [innerBal, Bool.and_eq_true, decide_eq_true_eq]
  exact ⟨h1, h2⟩

theorem innerBal_br {s : List Char} (h : innerBal s = true) :
    innerBal ('(' :: s ++ [')']) = true := by
  obtain ⟨h1, h2⟩ := crossOk_br h (le_refl 1)
  rw [innerBal, Bool.and_eq_true, decide_eq_true_eq]
  exact ⟨h1, h2⟩

/-- The forward scan steps across a crossable block. -/
theorem fmpGo_cross (s : List Char) : ∀ (rest : List Char) (i d : Nat),
    crossOk s d = true →
    fmpGo (s ++ rest) i d = fmpGo rest (i + s.length) (crossNet s d) := by
  induction s with
  | nil => intro rest i d _; simp [crossNet]
  | cons c cs ih =>
    intro rest i d h
    rw [crossOk_cons, Bool.and_eq_true] at h
    obtain ⟨h1, h2⟩ := h
    have harr : i + 1 + cs.length = i + (c :: cs).length := by
      simp only [List.length_cons]; omega
    rw [List.cons_append, crossNet_cons]
    by_cases hc : c = ')'
    · subst hc
      have hd : 2 ≤ d := by
        have := h1; rw [if_pos rfl, decide_eq_true_eq] at this; exact this
      have hne : ¬ d = 1 := by omega
      have hstep : stepD ')' d = d - 1 := by simp [stepD]
      rw [show fmpGo (')' :: (cs ++ rest)) i d =
          fmpGo (cs ++ rest) (i + 1) (d - 1) by
        simp [fmpGo, hne]]
      rw [hstep] at h2
      rw [ih rest (i + 1) (d - 1) h2, harr, hstep]
    · by_cases hc2 : c = '('
      · subst hc2
        have hstep : stepD '(' d = d + 1 := by simp [stepD]
        rw [show fmpGo ('(' :: (cs ++ rest)) i d =
            fmpGo (cs ++ rest) (i + 1) (d + 1) by
          simp [fmpGo]]
        rw [hstep] at h2
        rw [ih rest (i + 1) (d + 1) h2, harr, hstep]
      · have hstep : stepD c d = d := by simp only [stepD, if_neg hc, if_neg hc2]
        rw [show fmpGo (c :: (cs ++ rest)) i d =
            fmpGo (cs ++ rest) (i + 1) d by
          simp only [fmpGo, if_neg hc, if_neg hc2]]
        rw [hstep] at h2
        rw [ih rest (i + 1) d h2, harr, hstep]

/-- `findMatchingParen` on a bracketed balanced span after any prefix. -/
theorem findMatchingParen_span (pre s r : List Char) (hs : innerBal s = true) :
    findMatchingParen (pre ++ ('(' :: (s ++ (')' :: r)))) pre.length =
      .ok (some (pre.length + s.length + 1)) := by
  have hidx : (pre ++ ('(' :: (s ++ (')' :: r))))[pre.length]? = some '(' := by
    rw [List.getElem?_append_right (le_refl pre.length)]
    simp
  have hdrop : (pre ++ ('(' :: (s ++ (')' :: r)))).drop (pre.length + 1) =
      s ++ (')' :: r) := by
    rw [List.append_cons pre '(' (s ++ (')' :: r))]
    have hl : pre.length + 1 = (pre ++ ['(']).length := by simp
    rw [hl, List.drop_left]
  rw [innerBal, Bool.and_eq_true, decide_eq_true_eq] at hs
  obtain ⟨hs1, hs2⟩ := hs
  rw [findMatchingParen, hidx]
  show Except.ok (fmpForward (pre ++ ('(' :: (s ++ (')' :: r)))) (pre.length + 1) 1) = _
  rw [fmpForward, hdrop, fmpGo_cross s (')' :: r) (pre.length + 1) 1 hs1, hs2]
  rw [show fmpGo (')' :: r) (pre.length + 1 + s.length) 1 =
      some (pre.length + 1 + s.length) by simp [fmpGo]]
  rw [show pre.length + 1 + s.length = pre.length + s.length + 1 by omega]
/-! ### Mask characterizations on generated shapes -/

theorem ebind_ok {ε α β : Type} (a : α) (f : α → Except ε β) :
    (Except.ok a : Except ε α) >>= f = f a := rfl

theorem ebind_error {ε α β : Type} (e : ε) (f : α → Except ε β) :
    (Except.error e : Except ε α) >>= f = Except.error e := rfl

theorem findIdx?_all_false {α : Type} {p : α → Bool} {s : List α}
    (h : ∀ c ∈ s, p c = false) : s.findIdx? p = none :=
  List.findIdx?_eq_none_iff.mpr h

theorem indexOfCh_none {s : List Char} {ch : Char} (h : ch ∉ s) :
    indexOfCh s ch = none := by
  have hf : s.findIdx? (· = ch) = none := by
    apply findIdx?_all_false
    intro x hx
    simp only [decide_eq_false_iff_not]
    rintro rfl
    exact h hx
  simp only [indexOfCh, indexOfFrom, List.drop_zero, hf]

theorem indexOfCh_at {x : List Char} (r : List Char) {ch : Char} (h : ch ∉ x) :
    indexOfCh (x ++ (ch :: r)) ch = some x.length := by
  have hx : x.findIdx? (· = ch) = none := by
    apply findIdx?_all_false
    intro c hc
    simp only [decide_eq_false_iff_not]
    rintro rfl
    exact h hc
  have hf : (x ++ (ch :: r)).findIdx? (· = ch) = some x.length := by
    rw [List.findIdx?_append, hx, Option.none_or, List.findIdx?_cons]
    simp [Nat.zero_add]
  simp only [indexOfCh, indexOfFrom, List.drop_zero, hf, Nat.zero_add]

theorem indexOfFrom_at {s x : List Char} (r : List Char) {ch : Char} {start : Nat}
    (hdrop : s.drop start = x ++ (ch :: r)) (h : ch ∉ x) :
    indexOfFrom s ch start = some (start + x.length) := by
  have hx : x.findIdx? (· = ch) = none := by
    apply findIdx?_all_false
    intro c hc
    simp only [decide_eq_false_iff_not]
    rintro rfl
    exact h hc
  have hf : (x ++ (ch :: r)).findIdx? (· = ch) = some x.length := by
    rw [List.findIdx?_append, hx, Option.none_or, List.findIdx?_cons]
    simp [Nat.zero_add]
  rw [indexOfFrom, hdrop, hf]

/-- Splitting off a `pre ++ [c]` group from the left of a cons. -/
theorem drop_after {pre : List Char} {c : Char} (rest : List Char) :
    (pre ++ (c :: rest)).drop (pre.length + 1) = rest := by
  rw [List.append_cons pre c rest]
  have hl : pre.length + 1 = (pre ++ [c]).length := by simp
  rw [hl, List.drop_left]

theorem bracketMaskStep_none {x : List Char} (h : '(' ∉ x) (strLen : Nat) :
    bracketMaskStep strLen x = .ok none := by
  rw [bracketMaskStep, indexOfCh_none h]

theorem bracketMaskGo_none {x : List Char} (h : '(' ∉ x) (strLen f : Nat) :
    bracketMaskGo strLen (f + 1) x = .ok x := by
  simp only [bracketMaskGo]
  rw [bracketMaskStep_none h, ebind_ok]

theorem bracketMaskStep_span {pre s : List Char} (r : List Char) (strLen : Nat)
    (hpre : '(' ∉ pre) (hs : innerBal s = true) :
    bracketMaskStep strLen (pre ++ ('(' :: (s ++ (')' :: r)))) =
      .ok (some ((pre ++ List.replicate (s.length + 2) '#') ++ r)) := by
  have hfind := findMatchingParen_span pre s r hs
  have htake : (pre ++ ('(' :: (s ++ (')' :: r)))).take pre.length = pre :=
    List.take_left pre ('(' :: (s ++ (')' :: r)))
  have hsplit : pre ++ ('(' :: (s ++ (')' :: r))) =
      (pre ++ ('(' :: (s ++ [')']))) ++ r := by
    simp
  have hlen : pre.length + s.length + 1 + 1 =
      (pre ++ ('(' :: (s ++ [')']))).length := by
    simp
    omega
  have hdrop : (pre ++ ('(' :: (s ++ (')' :: r)))).drop
      (pre.length + s.length + 1 + 1) = r := by
    rw [hsplit, hlen, List.drop_left]
  have harith : pre.length + s.length + 1 + 1 - pre.length = s.length + 2 := by
    omega
  simp only [bracketMaskStep, indexOfCh_at (s ++ (')' :: r)) hpre, hfind,
    ebind_ok, Option.getD_some]
  rw [htake, harith, hdrop]

theorem bracketMaskGo_span {pre s : List Char} (r : List Char) (strLen f : Nat)
    (hpre : '(' ∉ pre) (hs : innerBal s = true) :
    bracketMaskGo strLen (f + 1) (pre ++ ('(' :: (s ++ (')' :: r)))) =
      bracketMaskGo strLen f ((pre ++ List.replicate (s.length + 2) '#') ++ r) := by
  simp only [bracketMaskGo]
  rw [bracketMaskStep_span r strLen hpre hs, ebind_ok]

theorem absMaskStep_none {x : List Char} (h : '|' ∉ x) : absMaskStep x = .ok none := by
  rw [absMaskStep, indexOfCh_none h]

theorem absMaskGo_none {x : List Char} (h : '|' ∉ x) (f : Nat) :
    absMaskGo (f + 1) x = .ok x := by
  simp only [absMaskGo]
  rw [absMaskStep_none h, ebind_ok]

theorem absMaskStep_span {pre mid : List Char} (post : List Char)
    (hpre : '|' ∉ pre) (hmid : '|' ∉ mid) :
    absMaskStep (pre ++ ('|' :: (mid ++ ('|' :: post)))) =
      .ok (some ((pre ++ List.replicate (mid.length + 2) '#') ++ post)) := by
  have hdrop1 : (pre ++ ('|' :: (mid ++ ('|' :: post)))).drop (pre.length + 1) =
      mid ++ ('|' :: post) := drop_after _
  have hneg : ¬ ((((pre.length + 1 + mid.length : Nat) : Int) -
      (pre.length : Nat) + 1) < 0) := by
    push_cast
    omega
  have htoNat1 : ((((pre.length + 1 + mid.length : Nat) : Int) -
      (pre.length : Nat) + 1)).toNat = mid.length + 2 := by
    omega
  have htoNat2 : ((((pre.length + 1 + mid.length : Nat) : Int) + 1)).toNat =
      pre.length + mid.length + 2 := by
    omega
  have htake : (pre ++ ('|' :: (mid ++ ('|' :: post)))).take pre.length = pre :=
    List.take_left pre ('|' :: (mid ++ ('|' :: post)))
  have hsplit : pre ++ ('|' :: (mid ++ ('|' :: post))) =
      (pre ++ ('|' :: (mid ++ ['|']))) ++ post := by
    simp
  have hlen : pre.length + mid.length + 2 =
      (pre ++ ('|' :: (mid ++ ['|']))).length := by
    simp
    omega
  have hdrop : (pre ++ ('|' :: (mid ++ ('|' :: post)))).drop
      (pre.length + mid.length + 2) = post := by
    rw [hsplit, hlen, List.drop_left]
  simp only [absMaskStep, indexOfCh_at (mid ++ ('|' :: post)) hpre,
    indexOfFrom_at post hdrop1 hmid]
  rw [if_neg hneg, htoNat1, htoNat2, htake, hdrop]

theorem absMaskGo_span {pre mid : List Char} (post : List Char) (f : Nat)
    (hpre : '|' ∉ pre) (hmid : '|' ∉ mid) :
    absMaskGo (f + 1) (pre ++ ('|' :: (mid ++ ('|' :: post)))) =
      absMaskGo f ((pre ++ List.replicate (mid.length + 2) '#') ++ post) := by
  simp only [absMaskGo]
  rw [absMaskStep_span post hpre hmid, ebind_ok]

theorem lastPMIdx_none {s : List Char} (h : ∀ c ∈ s, isPM c = false) :
    lastPMIdx s = none := by
  have hf : s.reverse.findIdx? isPM = none := by
    apply findIdx?_all_false
    intro x hx
    exact h x (List.mem_reverse.mp hx)
  rw [lastPMIdx, hf]

theorem lastPMIdx_at {x y : List Char} {c : Char} (hc : isPM c = true)
    (hy : ∀ d ∈ y, isPM d = false) : lastPMIdx (x ++ (c :: y)) = some x.length := by
  have hyr : y.reverse.findIdx? isPM = none := by
    apply findIdx?_all_false
    intro d hd
    exact hy d (List.mem_reverse.mp hd)
  have hrev : (x ++ (c :: y)).reverse = y.reverse ++ (c :: x.reverse) := by
    simp
  have hf : (x ++ (c :: y)).reverse.findIdx? isPM = some y.length := by
    rw [hrev, List.findIdx?_append, hyr, Option.none_or, List.findIdx?_cons,
      if_pos hc]
    simp
  have hl : (x ++ (c :: y)).length - 1 - y.length = x.length := by
    rw [List.length_append, List.length_cons]
    omega
  simp only [lastPMIdx, hf, hl]

theorem firstStarIdx_none {s : List Char} (h : '*' ∉ s) : firstStarIdx s = none := by
  apply findIdx?_all_false
  intro x hx
  simp only [decide_eq_false_iff_not]
  rintro rfl
  exact h hx

theorem firstStarIdx_at {x : List Char} (y : List Char) (hx : '*' ∉ x) :
    firstStarIdx (x ++ ('*' :: y)) = some x.length := by
  have hxn : x.findIdx? (· = '*') = none := by
    apply findIdx?_all_false
    intro c hc
    simp only [decide_eq_false_iff_not]
    rintro rfl
    exact hx hc
  rw [firstStarIdx, List.findIdx?_append, hxn, Option.none_or, List.findIdx?_cons]
  simp

/-! ### The precis of a deserialized tree -/

theorem WFA_neg (a : MathAST) : WFA (negA a) = WFA a := rfl

theorem WFA_fn (f : FnName) (a : MathAST) : WFA (fnA f a) = WFA a := rfl

theorem pipeFree_neg (a : MathAST) : pipeFree (negA a) = pipeFree a := rfl

theorem pipeFree_fn (f : FnName) (a : MathAST) :
    pipeFree (fnA f a) = pipeFree a := rfl

theorem map_precisChar_atom (l : List Char) :
    List.map (precisChar ∘ atomNode) l = l := by
  induction l with
  | nil => rfl
  | cons c cs ih =>
    show c :: List.map (precisChar ∘ atomNode) cs = c :: cs
    rw [ih]

/-- The precis characters contributed by an optional fraction part. -/
def fpChars : Option (List Char) → List Char
  | none => []
  | some f => '.' :: f

theorem WFA_cn (ip : List Char) (fp : Option (List Char)) :
    WFA (cn ip fp) = (!ip.isEmpty && ip.all isDigitChar &&
      (match fp with
        | none => true
        | some f => !f.isEmpty && f.all isDigitChar)) := rfl

theorem dP_cn (ip : List Char) (fp : Option (List Char)) :
    precisOf (deserialize (cn ip fp)) = ip ++ fpChars fp := by
  cases fp <;> simp [deserialize, precisOf, precisChar, map_precisChar_atom, fpChars]

theorem dP_ci (c : Char) : precisOf (deserialize (ci c)) = [c] := by
  simp [deserialize, precisOf, precisChar]

theorem dP_pi : precisOf (deserialize piC) = ['π'] := by
  simp [deserialize, precisOf, precisChar]

theorem dP_euler : precisOf (deserialize eulerC) = ['e'] := by
  simp [deserialize, precisOf, precisChar]

theorem dP_infty : precisOf (deserialize inftyC) = ['∞'] := by
  simp [deserialize, precisOf, precisChar]

theorem dP_plus (a b : MathAST) :
    precisOf (deserialize (plusA a b)) =
      '(' :: (precisOf (deserialize a) ++ (')' :: ('+' ::
        ('(' :: (precisOf (deserialize b) ++ [')']))))) := by
  simp [deserialize, precisOf, brN, precisChar]

theorem dP_minus (a b : MathAST) :
    precisOf (deserialize (minusA a b)) =
      '(' :: (precisOf (deserialize a) ++ (')' :: ('-' ::
        ('(' :: (precisOf (deserialize b) ++ [')']))))) := by
  simp [deserialize, precisOf, brN, precisChar]

theorem dP_times (a b : MathAST) :
    precisOf (deserialize (timesA a b)) =
      '(' :: (precisOf (deserialize a) ++ (')' :: ('*' ::
        ('(' :: (precisOf (deserialize b) ++ [')']))))) := by
  simp [deserialize, precisOf, brN, precisChar]

theorem dP_neg (a : MathAST) :
    precisOf (deserialize (negA a)) =
      '-' :: ('(' :: (precisOf (deserialize a) ++ [')'])) := by
  simp [deserialize, precisOf, brN, precisChar]

theorem dP_fn (f : FnName) (a : MathAST) :
    precisOf (deserialize (fnA f a)) =
      fnChars f ++ ('(' :: (precisOf (deserialize a) ++ [')'])) := by
  cases f <;> simp [deserialize, precisOf, brN, precisChar, fnChars]

theorem dP_abs (a : MathAST) :
    precisOf (deserialize (absA a)) =
      '|' :: ('(' :: (precisOf (deserialize a) ++ (')' :: ['|']))) := by
  simp [deserialize, precisOf, brN, precisChar]

theorem dP_power (b e : MathAST) :
    precisOf (deserialize (powerA b e)) =
      '(' :: (precisOf (deserialize b) ++ (')' :: ['^'])) := by
  simp [deserialize, precisOf, brN, precisChar]

theorem dP_divide (n d : MathAST) :
    precisOf (deserialize (divideA n d)) = ['%'] := by
  simp [deserialize, precisOf, precisChar]

theorem dP_root (r : MathAST) : precisOf (deserialize (rootA r)) = ['%'] := by
  simp [deserialize, precisOf, precisChar]

theorem dP_rootNoDeg (r : MathAST) :
    precisOf (deserialize (rootNoDegA r)) = ['%'] := by
  simp [deserialize, precisOf, precisChar]

/-! ### Character-class helpers -/

theorem not_mem_replicate {α : Type} {c d : α} (h : ¬ c = d) (n : Nat) :
    c ∉ List.replicate n d := fun hm => h (List.eq_of_mem_replicate hm)

theorem digit_safe {c : Char} (h : isDigitChar c = true) :
    c ≠ '(' ∧ c ≠ ')' ∧ c ≠ '|' ∧ c ≠ '+' ∧ c ≠ '-' ∧ c ≠ '*' ∧ c ≠ '_' := by
  refine ⟨?_, ?_, ?_, ?_, ?_, ?_, ?_⟩ <;> (rintro rfl; revert h; decide)

theorem letter_safe {c : Char} (h : isLetterChar c = true) :
    c ≠ '(' ∧ c ≠ ')' ∧ c ≠ '|' ∧ c ≠ '+' ∧ c ≠ '-' ∧ c ≠ '*' ∧ c ≠ '_' ∧
      c ≠ '∞' ∧ c ≠ '%' ∧ c ≠ '^' ∧ c ≠ '.' := by
  refine ⟨?_, ?_, ?_, ?_, ?_, ?_, ?_, ?_, ?_, ?_, ?_⟩ <;>
    (rintro rfl; revert h; decide)

theorem letter_not_digit {c : Char} (h : isLetterChar c = true) :
    isDigitChar c = false := by
  by_contra hd
  rw [Bool.not_eq_false] at hd
  rw [isDigitChar, Bool.and_eq_true, decide_eq_true_eq, decide_eq_true_eq] at hd
  obtain ⟨hd1, hd2⟩ := hd
  rw [isLetterChar, Bool.or_eq_true, Bool.or_eq_true, Bool.or_eq_true] at h
  rcases h with ((h | h) | h) | h <;>
    simp only [isLatinLower, isLatinUpper, isGreekLower, isGreekUpper,
      Bool.and_eq_true, decide_eq_true_eq] at h <;>
    exact absurd (le_trans h.1 hd2) (by decide)

theorem isPM_false_of_ne {c : Char} (h1 : c ≠ '+') (h2 : c ≠ '-') :
    isPM c = false := by
  simp [isPM, h1, h2]

/-! ### No parens and no pipes in deserialized slices -/

theorem innerBal_cons {c : Char} {s : List Char} (h1 : c ≠ '(') (h2 : c ≠ ')')
    (hs : innerBal s = true) : innerBal (c :: s) = true := by
  have hc : innerBal [c] = true :=
    innerBal_of_no_paren (by intro x hx; simp at hx; subst hx; exact ⟨h1, h2⟩)
  have := innerBal_append hc hs
  simpa using this

theorem innerBal_single {c : Char} (h1 : c ≠ '(') (h2 : c ≠ ')') :
    innerBal [c] = true :=
  innerBal_of_no_paren (by intro x hx; simp at hx; subst hx; exact ⟨h1, h2⟩)

/-- Deserialized well-formed trees have balanced bracket structure. -/
theorem innerBal_dP : ∀ {t : MathAST}, WFA t = true →
    innerBal (precisOf (deserialize t)) = true := by
  intro t
  induction t with
  | cn ip fp =>
    intro h
    rw [dP_cn]
    rw [WFA_cn, Bool.and_eq_true, Bool.and_eq_true] at h
    obtain ⟨⟨_, hdig⟩, hfp⟩ := h
    apply innerBal_of_no_paren
    intro c hc
    rcases List.mem_append.mp hc with hc | hc
    · have := digit_safe (by
        have := List.all_eq_true.mp hdig c hc
        exact this)
      exact ⟨this.1, this.2.1⟩
    · cases fp with
      | none => simp [fpChars] at hc
      | some f =>
        rw [Bool.and_eq_true] at hfp
        obtain ⟨_, hfd⟩ := hfp
        simp only [fpChars] at hc
        rcases List.mem_cons.mp hc with rfl | hc
        · exact ⟨by decide, by decide⟩
        · have := digit_safe (List.all_eq_true.mp hfd c hc)
          exact ⟨this.1, this.2.1⟩
  | ci c =>
    intro h
    rw [WFA, Bool.and_eq_true, Bool.and_eq_true] at h
    obtain ⟨⟨hl, _⟩, _⟩ := h
    rw [dP_ci]
    exact innerBal_single (letter_safe hl).1 (letter_safe hl).2.1
  | piC => intro _; rw [dP_pi]; decide
  | eulerC => intro _; rw [dP_euler]; decide
  | inftyC => intro _; rw [dP_infty]; decide
  | plusA a b iha ihb =>
    intro h
    rw [WFA, Bool.and_eq_true] at h
    rw [dP_plus]
    have hbr2 : innerBal ('(' :: (precisOf (deserialize b) ++ [')'])) = true := by
      have := innerBal_br (ihb h.2)
      simpa using this
    have hbr1 : innerBal ('(' :: (precisOf (deserialize a) ++ [')'])) = true := by
      have := innerBal_br (iha h.1)
      simpa using this
    have hmidtail : innerBal ('+' :: ('(' :: (precisOf (deserialize b) ++ [')']))) = true :=
      innerBal_cons (by decide) (by decide) hbr2
    have hgoal := innerBal_append hbr1 hmidtail
    have hshape : ('(' :: (precisOf (deserialize a) ++ [')'])) ++
        ('+' :: ('(' :: (precisOf (deserialize b) ++ [')']))) =
        '(' :: (precisOf (deserialize a) ++ (')' :: ('+' ::
          ('(' :: (precisOf (deserialize b) ++ [')']))))) := by
      simp
    rw [hshape] at hgoal
    exact hgoal
  | minusA a b iha ihb =>
    intro h
    rw [WFA, Bool.and_eq_true] at h
    rw [dP_minus]
    have hbr2 : innerBal ('(' :: (precisOf (deserialize b) ++ [')'])) = true := by
      have := innerBal_br (ihb h.2)
      simpa using this
    have hbr1 : innerBal ('(' :: (precisOf (deserialize a) ++ [')'])) = true := by
      have := innerBal_br (iha h.1)
      simpa using this
    have hmidtail : innerBal ('-' :: ('(' :: (precisOf (deserialize b) ++ [')']))) = true :=
      innerBal_cons (by decide) (by decide) hbr2
    have hgoal := innerBal_append hbr1 hmidtail
    have hshape : ('(' :: (precisOf (deserialize a) ++ [')'])) ++
        ('-' :: ('(' :: (precisOf (deserialize b) ++ [')']))) =
        '(' :: (precisOf (deserialize a) ++ (')' :: ('-' ::
          ('(' :: (precisOf (deserialize b) ++ [')']))))) := by
      simp
    rw [hshape] at hgoal
    exact hgoal
  | timesA a b iha ihb =>
    intro h
    rw [WFA, Bool.and_eq_true] at h
    rw [dP_times]
    have hbr2 : innerBal ('(' :: (precisOf (deserialize b) ++ [')'])) = true := by
      have := innerBal_br (ihb h.2)
      simpa using this
    have hbr1 : innerBal ('(' :: (precisOf (deserialize a) ++ [')'])) = true := by
      have := innerBal_br (iha h.1)
      simpa using this
    have hmidtail : innerBal ('*' :: ('(' :: (precisOf (deserialize b) ++ [')']))) = true :=
      innerBal_cons (by decide) (by decide) hbr2
    have hgoal := innerBal_append hbr1 hmidtail
    have hshape : ('(' :: (precisOf (deserialize a) ++ [')'])) ++
        ('*' :: ('(' :: (precisOf (deserialize b) ++ [')']))) =
        '(' :: (precisOf (deserialize a) ++ (')' :: ('*' ::
          ('(' :: (precisOf (deserialize b) ++ [')']))))) := by
      simp
    rw [hshape] at hgoal
    exact hgoal
  | negA a iha =>
    intro h
    rw [WFA_neg] at h
    rw [dP_neg]
    have hbr : innerBal ('(' :: (precisOf (deserialize a) ++ [')'])) = true := by
      have := innerBal_br (iha h)
      simpa using this
    exact innerBal_cons (by decide) (by decide) hbr
  | fnA f a iha =>
    intro h
    rw [WFA_fn] at h
    rw [dP_fn]
    have hbr : innerBal ('(' :: (precisOf (deserialize a) ++ [')'])) = true := by
      have := innerBal_br (iha h)
      simpa using this
    have hfn : innerBal (fnChars f) = true := by
      cases f <;> decide
    exact innerBal_append hfn hbr
  | absA a iha =>
    intro h
    rw [WFA, Bool.and_eq_true] at h
    rw [dP_abs]
    have hbr : innerBal ('(' :: (precisOf (deserialize a) ++ [')'])) = true := by
      have := innerBal_br (iha h.1)
      simpa using this
    have hpipe : innerBal ['|'] = true := by decide
    have h1 : innerBal (('(' :: (precisOf (deserialize a) ++ [')'])) ++ ['|']) = true :=
      innerBal_append hbr hpipe
    have hshape : ('(' :: (precisOf (deserialize a) ++ [')'])) ++ ['|'] =
        '(' :: (precisOf (deserialize a) ++ (')' :: ['|'])) := by
      simp
    rw [hshape] at h1
    exact innerBal_cons (by decide) (by decide) h1
  | powerA b e ihb ihe =>
    intro h
    rw [WFA, Bool.and_eq_true] at h
    rw [dP_power]
    have hbr : innerBal ('(' :: (precisOf (deserialize b) ++ [')'])) = true := by
      have := innerBal_br (ihb h.1)
      simpa using this
    have hhat : innerBal ['^'] = true := by decide
    have h1 := innerBal_append hbr hhat
    have hshape : ('(' :: (precisOf (deserialize b) ++ [')'])) ++ ['^'] =
        '(' :: (precisOf (deserialize b) ++ (')' :: ['^'])) := by
      simp
    rw [hshape] at h1
    exact h1
  | divideA n d _ _ => intro _; rw [dP_divide]; decide
  | rootA r _ => intro _; rw [dP_root]; decide
  | rootNoDegA r _ => intro _; rw [dP_rootNoDeg]; decide

/-- Pipe-free trees deserialize to pipe-free precis slices. -/
theorem noPipe_dP : ∀ {t : MathAST}, WFA t = true → pipeFree t = true →
    ('|' : Char) ∉ precisOf (deserialize t) := by
  intro t
  induction t with
  | cn ip fp =>
    intro h _
    rw [dP_cn]
    rw [WFA_cn, Bool.and_eq_true, Bool.and_eq_true] at h
    obtain ⟨⟨_, hdig⟩, hfp⟩ := h
    intro hc
    rcases List.mem_append.mp hc with hc | hc
    · exact (digit_safe (List.all_eq_true.mp hdig _ hc)).2.2.1 rfl
    · cases fp with
      | none => simp [fpChars] at hc
      | some f =>
        rw [Bool.and_eq_true] at hfp
        simp only [fpChars] at hc
        rcases List.mem_cons.mp hc with heq | hc
        · exact absurd heq (by decide)
        · exact (digit_safe (List.all_eq_true.mp hfp.2 _ hc)).2.2.1 rfl
  | ci c =>
    intro h _
    rw [WFA, Bool.and_eq_true, Bool.and_eq_true] at h
    rw [dP_ci]
    intro hc
    rcases List.mem_singleton.mp hc with rfl
    exact absurd h.1.1 (by decide)
  | piC => intro _ _; rw [dP_pi]; decide
  | eulerC => intro _ _; rw [dP_euler]; decide
  | inftyC => intro _ _; rw [dP_infty]; decide
  | plusA a b iha ihb =>
    intro h hp
    rw [WFA, Bool.and_eq_true] at h
    rw [pipeFree, Bool.and_eq_true] at hp
    rw [dP_plus]
    intro hc
    simp only [List.mem_cons, List.mem_append, List.mem_singleton] at hc
    rcases hc with hc | (hc | (hc | (hc | (hc | (hc | hc))))) <;>
      first
      | exact absurd hc (by decide)
      | exact iha h.1 hp.1 hc
      | exact ihb h.2 hp.2 hc
  | minusA a b iha ihb =>
    intro h hp
    rw [WFA, Bool.and_eq_true] at h
    rw [pipeFree, Bool.and_eq_true] at hp
    rw [dP_minus]
    intro hc
    simp only [List.mem_cons, List.mem_append, List.mem_singleton] at hc
    rcases hc with hc | (hc | (hc | (hc | (hc | (hc | hc))))) <;>
      first
      | exact absurd hc (by decide)
      | exact iha h.1 hp.1 hc
      | exact ihb h.2 hp.2 hc
  | timesA a b iha ihb =>
    intro h hp
    rw [WFA, Bool.and_eq_true] at h
    rw [pipeFree, Bool.and_eq_true] at hp
    rw [dP_times]
    intro hc
    simp only [List.mem_cons, List.mem_append, List.mem_singleton] at hc
    rcases hc with hc | (hc | (hc | (hc | (hc | (hc | hc))))) <;>
      first
      | exact absurd hc (by decide)
      | exact iha h.1 hp.1 hc
      | exact ihb h.2 hp.2 hc
  | negA a iha =>
    intro h hp
    rw [WFA_neg] at h
    rw [pipeFree_neg] at hp
    rw [dP_neg]
    intro hc
    simp only [List.mem_cons, List.mem_append, List.mem_singleton] at hc
    rcases hc with hc | (hc | (hc | hc)) <;>
      first
      | exact absurd hc (by decide)
      | exact iha h hp hc
  | fnA f a iha =>
    intro h hp
    rw [WFA_fn] at h
    rw [pipeFree_fn] at hp
    rw [dP_fn]
    intro hc
    simp only [List.mem_cons, List.mem_append, List.mem_singleton] at hc
    rcases hc with hc | (hc | (hc | hc))
    · cases f <;> simp [fnChars] at hc
    · exact absurd hc (by decide)
    · exact iha h hp hc
    · exact absurd hc (by decide)
  | absA a iha =>
    intro _ hp
    rw [pipeFree] at hp
    exact absurd hp (by decide)
  | powerA b e ihb ihe =>
    intro h hp
    rw [WFA, Bool.and_eq_true] at h
    rw [pipeFree] at hp
    rw [dP_power]
    intro hc
    simp only [List.mem_cons, List.mem_append, List.mem_singleton] at hc
    rcases hc with hc | (hc | (hc | hc)) <;>
      first
      | exact absurd hc (by decide)
      | exact ihb h.1 hp hc
  | divideA n d _ _ => intro _ _; rw [dP_divide]; decide
  | rootA r _ => intro _ _; rw [dP_root]; decide
  | rootNoDegA r _ => intro _ _; rw [dP_rootNoDeg]; decide

/-! ### Full-mask computations on the deserializer's shapes -/

theorem maskPair_id {s : List Char} (h1 : '(' ∉ s) (h2 : '|' ∉ s) :
    bracketMask s = .ok s ∧ absMask s = .ok s := by
  constructor
  · rw [bracketMask]
    exact bracketMaskGo_none h1 _ _
  · rw [absMask]
    exact absMaskGo_none h2 _

theorem maskPair_one {p P q : List Char} (hp1 : '(' ∉ p) (hp2 : '|' ∉ p)
    (hP : innerBal P = true) (hq1 : '(' ∉ q) (hq2 : '|' ∉ q) :
    bracketMask (p ++ ('(' :: (P ++ (')' :: q)))) =
      .ok ((p ++ List.replicate (P.length + 2) '#') ++ q) ∧
    absMask ((p ++ List.replicate (P.length + 2) '#') ++ q) =
      .ok ((p ++ List.replicate (P.length + 2) '#') ++ q) := by
  have hnop : '(' ∉ (p ++ List.replicate (P.length + 2) '#') ++ q := by
    intro hm
    rcases List.mem_append.mp hm with hm | hm
    · rcases List.mem_append.mp hm with hm | hm
      · exact hp1 hm
      · exact not_mem_replicate (by decide) _ hm
    · exact hq1 hm
  have hnopipe : '|' ∉ (p ++ List.replicate (P.length + 2) '#') ++ q := by
    intro hm
    rcases List.mem_append.mp hm with hm | hm
    · rcases List.mem_append.mp hm with hm | hm
      · exact hp2 hm
      · exact not_mem_replicate (by decide) _ hm
    · exact hq2 hm
  have hlen : (p ++ ('(' :: (P ++ (')' :: q)))).length =
      (p.length + P.length + q.length + 1) + 1 := by
    simp only [List.length_append, List.length_cons]
    omega
  constructor
  · rw [bracketMask, bracketMaskGo_span q _ _ hp1 hP, hlen]
    exact bracketMaskGo_none hnop _ _
  · rw [absMask]
    exact absMaskGo_none hnopipe _

theorem maskPair_two {p Pa Pb : List Char} {c : Char}
    (hp1 : '(' ∉ p) (hp2 : '|' ∉ p)
    (hPa : innerBal Pa = true) (hPb : innerBal Pb = true)
    (hc1 : c ≠ '(') (hc2 : c ≠ '|') :
    bracketMask (p ++ ('(' :: (Pa ++ (')' :: (c ::
        ('(' :: (Pb ++ [')']))))))) =
      .ok (((p ++ List.replicate (Pa.length + 2) '#') ++ [c]) ++
        List.replicate (Pb.length + 2) '#') ∧
    absMask (((p ++ List.replicate (Pa.length + 2) '#') ++ [c]) ++
        List.replicate (Pb.length + 2) '#') =
      .ok (((p ++ List.replicate (Pa.length + 2) '#') ++ [c]) ++
        List.replicate (Pb.length + 2) '#') := by
  have hnop : '(' ∉ ((p ++ List.replicate (Pa.length + 2) '#') ++ [c]) ++
      List.replicate (Pb.length + 2) '#' := by
    intro hm
    rcases List.mem_append.mp hm with hm | hm
    · rcases List.mem_append.mp hm with hm | hm
      · rcases List.mem_append.mp hm with hm | hm
        · exact hp1 hm
        · exact not_mem_replicate (by decide) _ hm
      · rcases List.mem_singleton.mp hm with rfl
        exact hc1 rfl
    · exact not_mem_replicate (by decide) _ hm
  have hnopipe : '|' ∉ ((p ++ List.replicate (Pa.length + 2) '#') ++ [c]) ++
      List.replicate (Pb.length + 2) '#' := by
    intro hm
    rcases List.mem_append.mp hm with hm | hm
    · rcases List.mem_append.mp hm with hm | hm
      · rcases List.mem_append.mp hm with hm | hm
        · exact hp2 hm
        · exact not_mem_replicate (by decide) _ hm
      · rcases List.mem_singleton.mp hm with rfl
        exact hc2 rfl
    · exact not_mem_replicate (by decide) _ hm
  have hlen : (p ++ ('(' :: (Pa ++ (')' :: (c ::
      ('(' :: (Pb ++ [')']))))))).length =
      (p.length + Pa.length + Pb.length + 4) + 1 := by
    simp only [List.length_append, List.length_cons, List.length_nil]
    omega
  have hre : (p ++ List.replicate (Pa.length + 2) '#') ++
      (c :: ('(' :: (Pb ++ [')']))) =
      ((p ++ List.replicate (Pa.length + 2) '#') ++ [c]) ++
        ('(' :: (Pb ++ (')' :: []))) := by
    simp
  have hp1' : '(' ∉ (p ++ List.replicate (Pa.length + 2) '#') ++ [c] := by
    intro hm
    rcases List.mem_append.mp hm with hm | hm
    · rcases List.mem_append.mp hm with hm | hm
      · exact hp1 hm
      · exact not_mem_replicate (by decide) _ hm
    · rcases List.mem_singleton.mp hm with rfl
      exact hc1 rfl
  constructor
  · rw [bracketMask, bracketMaskGo_span (c :: ('(' :: (Pb ++ [')']))) _ _ hp1 hPa,
      hlen, hre, bracketMaskGo_span [] _ _ hp1' hPb]
    rw [show p.length + Pa.length + Pb.length + 4 =
      (p.length + Pa.length + Pb.length + 3) + 1 from by omega]
    rw [List.append_nil]
    exact bracketMaskGo_none hnop _ _
  · rw [absMask]
    exact absMaskGo_none hnopipe _

theorem maskPair_abs {p Pa : List Char} (hp1 : '(' ∉ p) (hp2 : '|' ∉ p)
    (hPa : innerBal Pa = true) :
    bracketMask (p ++ ('|' :: ('(' :: (Pa ++ (')' :: ['|']))))) =
      .ok (((p ++ ['|']) ++ List.replicate (Pa.length + 2) '#') ++ ['|']) ∧
    absMask (((p ++ ['|']) ++ List.replicate (Pa.length + 2) '#') ++ ['|']) =
      .ok (p ++ List.replicate (Pa.length + 4) '#') := by
  have hre : p ++ ('|' :: ('(' :: (Pa ++ (')' :: ['|'])))) =
      (p ++ ['|']) ++ ('(' :: (Pa ++ (')' :: ['|']))) := by
    simp
  have hp1' : '(' ∉ p ++ ['|'] := by
    intro hm
    rcases List.mem_append.mp hm with hm | hm
    · exact hp1 hm
    · rcases List.mem_singleton.mp hm with h
      exact absurd h (by decide)
  have hnop : '(' ∉ ((p ++ ['|']) ++ List.replicate (Pa.length + 2) '#') ++ ['|'] := by
    intro hm
    rcases List.mem_append.mp hm with hm | hm
    · rcases List.mem_append.mp hm with hm | hm
      · exact hp1' hm
      · exact not_mem_replicate (by decide) _ hm
    · rcases List.mem_singleton.mp hm with h
      exact absurd h (by decide)
  have hlen : ((p ++ ['|']) ++ ('(' :: (Pa ++ (')' :: ['|'])))).length =
      p.length + Pa.length + 3 + 1 := by
    simp only [List.length_append, List.length_cons, List.length_nil]
    omega
  have habsre : ((p ++ ['|']) ++ List.replicate (Pa.length + 2) '#') ++ ['|'] =
      p ++ ('|' :: (List.replicate (Pa.length + 2) '#' ++ ('|' :: []))) := by
    simp
  have hmid : ('|' : Char) ∉ List.replicate (Pa.length + 2) '#' :=
    not_mem_replicate (by decide) _
  have hlen2 : (((p ++ ['|']) ++ List.replicate (Pa.length + 2) '#') ++ ['|']).length =
      (p.length + Pa.length + 3) + 1 := by
    simp only [List.length_append, List.length_cons, List.length_nil,
      List.length_replicate]
    omega
  have hnopipe2 : '|' ∉ (p ++ List.replicate ((List.replicate (Pa.length + 2) '#').length + 2) '#') ++ [] := by
    intro hm
    rcases List.mem_append.mp hm with hm | hm
    · rcases List.mem_append.mp hm with hm | hm
      · exact hp2 hm
      · exact not_mem_replicate (by decide) _ hm
    · simp at hm
  constructor
  · rw [bracketMask, hre, bracketMaskGo_span ['|'] _ _ hp1' hPa, hlen]
    exact bracketMaskGo_none hnop _ _
  · rw [absMask, hlen2, habsre, absMaskGo_span [] _ hp2 hmid]
    rw [absMaskGo_none hnopipe2 _]
    rw [show (p ++ List.replicate ((List.replicate (Pa.length + 2) '#').length + 2) '#') ++ [] =
      p ++ List.replicate (Pa.length + 4) '#' from by
        rw [List.append_nil, List.length_replicate,
          show Pa.length + 2 + 2 = Pa.length + 4 from by omega]]

/-! ### Step lemmas for the serializer on shaped inputs -/

theorem parseP_us {f : Nat} {nodes : List UnitNode} {tail : List Char}
    {off : Nat} {pms : List String} {mB mA : List Char}
    (hbm : bracketMask ('_' :: tail) = .ok mB) (ham : absMask mB = .ok mA) :
    parseP (f + 1) nodes ('_' :: tail) off pms =
      parseP f nodes tail (off + 1) [] := by
  simp only [parseP]
  rw [hbm, ebind_ok, ham, ebind_ok]

theorem parseP_nopm {f : Nat} {nodes : List UnitNode} {precis : List Char}
    {off : Nat} {pms : List String} {mB mA : List Char}
    (hbm : bracketMask precis = .ok mB) (ham : absMask mB = .ok mA)
    (hhd : ∀ tail, precis ≠ '_' :: tail) (hpm : lastPMIdx mA = none) :
    parseP (f + 1) nodes precis off pms =
      parseNoPM f nodes precis off pms mA := by
  simp only [parseP]
  rw [hbm, ebind_ok, ham, ebind_ok, hpm]

theorem parseP_op {f : Nat} {nodes : List UnitNode} {precis : List Char}
    {off : Nat} {pms : List String} {mB mA : List Char} {i : Nat}
    (hbm : bracketMask precis = .ok mB) (ham : absMask mB = .ok mA)
    (hhd : ∀ tail, precis ≠ '_' :: tail) (hpm : lastPMIdx mA = some i)
    (hi : ¬ i = 0) :
    parseP (f + 1) nodes precis off pms =
      parseOperator f nodes precis off i := by
  simp only [parseP]
  rw [hbm, ebind_ok, ham, ebind_ok, hpm]
  show (if i ≠ 0 then parseOperator f nodes precis off i
    else parseNoPM f nodes precis off pms mA) = _
  rw [if_pos hi]

theorem parseNoPM_star {f : Nat} {nodes : List UnitNode} {precis : List Char}
    {off : Nat} {pms : List String} {masked : List Char} {i : Nat}
    (hstar : firstStarIdx masked = some i) :
    parseNoPM (f + 1) nodes precis off pms masked =
      parseOperator f nodes precis off i := by
  simp only [parseNoPM]
  rw [hstar]

theorem parseNoPM_neg {f : Nat} {nodes : List UnitNode} {tail : List Char}
    {off : Nat} {pms : List String} {masked : List Char}
    (hstar : firstStarIdx masked = none) :
    parseNoPM (f + 1) nodes ('-' :: tail) off pms masked =
      parseP f nodes tail (off + 1) ("negative" :: pms) := by
  simp only [parseNoPM]
  rw [hstar]

theorem parseNoPM_num {f : Nat} {nodes : List UnitNode} {c : Char}
    {tail : List Char} {off : Nat} {pms : List String} {masked : List Char}
    (hstar : firstStarIdx masked = none) (hdig : isDigitChar c = true)
    (hm : ¬ c = '-') :
    parseNoPM (f + 1) nodes (c :: tail) off pms masked =
      parseTerm f nodes (numberToken (c :: tail))
        ("<cn>" ++ String.mk (numberToken (c :: tail)) ++ "</cn>")
        (c :: tail) off pms := by
  simp only [parseNoPM]
  rw [hstar]
  simp only []
  split
  · rename_i tail2 heq
    rw [List.cons.injEq] at heq
    exact absurd heq.1 hm
  · have hc : ((c :: tail).head?.map isDigitChar).getD false = true := by
      simp [hdig]
    rw [if_pos hc]

theorem parseNoPM_fn {f : Nat} {nodes : List UnitNode} {fn : FnName}
    {rest : List Char} {off : Nat} {pms : List String} {masked : List Char}
    (hstar : firstStarIdx masked = none) :
    parseNoPM (f + 1) nodes (fnChars fn ++ rest) off pms masked =
      parseP f nodes rest (off + (fnChars fn).length) (fnTag fn :: pms) := by
  cases fn <;>
    (simp only [parseNoPM, fnChars, fnTag, List.cons_append, List.nil_append]
     rw [hstar]
     rfl)

theorem parseNoPM_single {f : Nat} {nodes : List UnitNode} {c : Char}
    {off : Nat} {pms : List String} {masked : List Char}
    (hstar : firstStarIdx masked = none) (hlet : isLetterChar c = true)
    (hpi : ¬ c = 'π') (he : ¬ c = 'e') :
    parseNoPM (f + 1) nodes [c] off pms masked =
      parseTerm f nodes [c] ("<ci>" ++ String.mk [c] ++ "</ci>") [c] off pms := by
  have hsafe := letter_safe hlet
  simp only [parseNoPM]
  rw [hstar]
  simp only []
  split
  · rename_i tail2 heq
    rw [List.cons.injEq] at heq
    exact absurd heq.1 hsafe.2.2.2.2.1
  · rw [if_neg (by simp [letter_not_digit hlet]),
      if_neg (by simp),
      if_neg (by simp),
      if_neg (by simp),
      if_neg (by simp),
      if_neg (by simp),
      if_neg (by simp [hpi]),
      if_neg (by simp [hsafe.2.2.2.2.2.2.2.1]),
      if_neg (by simp [he]),
      if_pos (by simp [hlet])]
    rfl

theorem parseNoPM_pi {f : Nat} {nodes : List UnitNode}
    {off : Nat} {pms : List String} {masked : List Char}
    (hstar : firstStarIdx masked = none) :
    parseNoPM (f + 1) nodes ['π'] off pms masked =
      parseTerm f nodes ['π'] "<pi/>" ['π'] off pms := by
  simp only [parseNoPM]
  rw [hstar]
  rfl

theorem parseNoPM_inf {f : Nat} {nodes : List UnitNode}
    {off : Nat} {pms : List String} {masked : List Char}
    (hstar : firstStarIdx masked = none) :
    parseNoPM (f + 1) nodes ['∞'] off pms masked =
      parseTerm f nodes ['∞'] "<infinity/>" ['∞'] off pms := by
  simp only [parseNoPM]
  rw [hstar]
  rfl

theorem parseNoPM_e {f : Nat} {nodes : List UnitNode}
    {off : Nat} {pms : List String} {masked : List Char}
    (hstar : firstStarIdx masked = none) :
    parseNoPM (f + 1) nodes ['e'] off pms masked =
      parseTerm f nodes ['e'] "<exponentiale/>" ['e'] off pms := by
  simp only [parseNoPM]
  rw [hstar]
  rfl

theorem parseNoPM_pct {f : Nat} {nodes : List UnitNode}
    {off : Nat} {pms : List String} {masked : List Char} {u : UnitNode}
    {mv : String}
    (hstar : firstStarIdx masked = none) (hnode : nodes[off]? = some u)
    (hnv : nodeValue f u = .ok mv) :
    parseNoPM (f + 1) nodes ['%'] off pms masked =
      parseTerm f nodes ['%'] mv ['%'] off pms := by
  simp only [parseNoPM]
  rw [hstar]
  show (match nodes[off]? with
    | none => Except.error MErr.typeError
    | some u => do
      let mathml ← nodeValue f u
      parseTerm f nodes ['%'] mathml ['%'] off pms) = _
  rw [hnode]
  simp only []
  rw [hnv, ebind_ok]

theorem parseNoPM_paren {f : Nat} {nodes : List UnitNode} {tail : List Char}
    {off : Nat} {pms : List String} {masked : List Char} {e : Nat} {iv : String}
    (hstar : firstStarIdx masked = none)
    (hfmp : findMatchingParen ('(' :: tail) 0 = .ok (some e))
    (hiv : parseP f nodes ((('(' :: tail).take e).drop 1) (off + 1) [] = .ok iv) :
    parseNoPM (f + 1) nodes ('(' :: tail) off pms masked =
      parseTerm f nodes (('(' :: tail).take (e + 1)) iv ('(' :: tail) off pms := by
  simp only [parseNoPM]
  rw [hstar]
  show (do
    match ← findMatchingParen ('(' :: tail) 0 with
    | none => Except.error MErr.unmatchedParen
    | some endPos => do
      let mathml ← parseP f nodes ((('(' :: tail).take endPos).drop 1) (off + 1) []
      parseTerm f nodes (('(' :: tail).take (endPos + 1)) mathml ('(' :: tail) off pms) = _
  rw [hfmp, ebind_ok]
  simp only []
  rw [hiv, ebind_ok]

theorem parseNoPM_pipe {f : Nat} {nodes : List UnitNode} {tail : List Char}
    {off : Nat} {pms : List String} {masked : List Char} {e : Nat} {iv : String}
    (hstar : firstStarIdx masked = none)
    (hifo : indexOfFrom ('|' :: tail) '|' 1 = some e)
    (hiv : parseP f nodes ((('|' :: tail).take e).drop 1) (off + 1) [] = .ok iv) :
    parseNoPM (f + 1) nodes ('|' :: tail) off pms masked =
      parseTerm f nodes (('|' :: tail).take (e + 1))
        ("<apply><abs/>" ++ iv ++ "</apply>") ('|' :: tail) off pms := by
  simp only [parseNoPM]
  rw [hstar]
  show (match indexOfFrom ('|' :: tail) '|' 1 with
    | none => Except.error MErr.unmatchedPipe
    | some endPos => do
      let innerMathml ← parseP f nodes
        ((('|' :: tail).take endPos).drop 1) (off + 1) []
      parseTerm f nodes (('|' :: tail).take (endPos + 1))
        ("<apply><abs/>" ++ innerMathml ++ "</apply>") ('|' :: tail) off pms) = _
  rw [hifo]
  simp only []
  rw [hiv, ebind_ok]

theorem parseTerm_full {f : Nat} {nodes : List UnitNode} {term : List Char}
    {mathml : String} {precis : List Char} {off : Nat} {pms : List String}
    (hlen : term.length = precis.length) :
    parseTerm (f + 1) nodes term mathml precis off pms =
      .ok (applyPreModifiers pms mathml) := by
  have hnone : precis[term.length]? = none := by
    rw [hlen]
    exact List.getElem?_eq_none (le_refl _)
  have hc : ¬ (precis[term.length]? = some '^') := by
    rw [hnone]
    simp
  simp only [parseTerm]
  rw [if_neg hc, ebind_ok, if_pos hlen]

theorem parseTerm_hat_full {f : Nat} {nodes : List UnitNode} {term : List Char}
    {mathml : String} {precis : List Char} {off : Nat} {pms : List String}
    {u : UnitNode} {ev : String}
    (hpost : precis[term.length]? = some '^')
    (hnode : nodes[off + term.length]? = some u)
    (hnv : nodeValue f u = .ok ev)
    (hlen : term.length + 1 = precis.length) :
    parseTerm (f + 1) nodes term mathml precis off pms =
      .ok (applyPreModifiers pms
        ("<apply><power/>" ++ mathml ++ ev ++ "</apply>")) := by
  simp only [parseTerm]
  rw [if_pos hpost]
  show ((match nodes[off + term.length]? with
    | none => Except.error MErr.typeError
    | some u => do
      let exponentMathml ← nodeValue f u
      Except.ok (term ++ ['^'],
        "<apply><power/>" ++ mathml ++ exponentMathml ++ "</apply>")) >>= _) = _
  rw [hnode]
  simp only []
  rw [hnv, ebind_ok, ebind_ok]
  have hlen2 : (term ++ ['^']).length = precis.length := by
    simp only [List.length_append, List.length_cons, List.length_nil]
    omega
  simp only []
  rw [if_pos hlen2]

theorem parseOperator_ok {f : Nat} {nodes : List UnitNode} {precis : List Char}
    {off i : Nat} {c : Char} {lv rv : String}
    (hop : precis[i]? = some c)
    (hl : parseP f nodes (precis.take i) off [] = .ok lv)
    (hr : parseP f nodes (precis.drop (i + 1)) (off + i + 1) [] = .ok rv) :
    parseOperator (f + 1) nodes precis off i =
      .ok ("<apply>" ++
        (if c = '+' then "<plus/>"
         else if c = '-' then "<minus/>" else "<times/>") ++
        lv ++ rv ++ "</apply>") := by
  simp only [parseOperator]
  rw [hop, Option.getD_some, hl, ebind_ok, hr, ebind_ok]

theorem nodeValue_div {f : Nat} {numer denom : List UnitNode} {nv dv : String}
    (hn : exprValue f numer = .ok nv) (hd : exprValue f denom = .ok dv) :
    nodeValue (f + 1) (divisionNode numer denom) =
      .ok ("<apply><divide/>" ++ nv ++ dv ++ "</apply>") := by
  simp only [nodeValue]
  rw [hn, ebind_ok, hd, ebind_ok]

theorem nodeValue_exp {f : Nat} {e : List UnitNode} {ev : String}
    (he : exprValue f e = .ok ev) : nodeValue (f + 1) (exponentNode e) = .ok ev := by
  simp only [nodeValue]
  exact he

theorem nodeValue_sqrt {f : Nat} {r : List UnitNode} {rv : String}
    (hr : exprValue f r = .ok rv) :
    nodeValue (f + 1) (squareRootNode r) =
      .ok ("<apply><root/><degree><cn>2</cn></degree>" ++ rv ++ "</apply>") := by
  simp only [nodeValue]
  rw [hr, ebind_ok]

theorem exprValue_eq (f : Nat) (nodes : List UnitNode) :
    exprValue (f + 1) nodes = parseP f nodes (precisOf nodes) 0 [] := rfl

/-! ### The round-trip statement -/

/-- Fuel sufficient to re-serialize a deserialized tree. -/
def fuelB : MathAST → Nat
  | cn _ _ => 4
  | ci _ => 4
  | piC => 4
  | eulerC => 4
  | inftyC => 4
  | plusA a b => fuelB a + fuelB b + 8
  | minusA a b => fuelB a + fuelB b + 8
  | timesA a b => fuelB a + fuelB b + 8
  | negA a => fuelB a + 8
  | fnA _ a => fuelB a + 8
  | absA a => fuelB a + 8
  | powerA b e => fuelB b + fuelB e + 16
  | divideA n d => fuelB n + fuelB d + 16
  | rootA r => fuelB r + 16
  | rootNoDegA r => fuelB r + 16

/-- `_parse` re-serializes the deserialized slice of `t` wherever it sits
inside the node list. -/
def RTslice (t : MathAST) : Prop :=
  ∀ (nodes pre post : List UnitNode) (fuel : Nat),
    nodes = pre ++ (deserialize t ++ post) → fuelB t ≤ fuel →
    parseP fuel nodes (precisOf (deserialize t)) pre.length [] =
      .ok (astString (canonAST t))

/-- Parsing the explicitly bracketed slice of `t` applies the pending
pre-modifiers around its semantic string. -/
def RTbrSlice (t : MathAST) : Prop :=
  ∀ (nodes pre post : List UnitNode) (pms : List String) (fuel : Nat),
    nodes = pre ++ (brN (deserialize t) ++ post) → fuelB t + 4 ≤ fuel →
    parseP fuel nodes ('(' :: (precisOf (deserialize t) ++ [')']))
      pre.length pms =
      .ok (applyPreModifiers pms (astString (canonAST t)))

/-- The `value` getter on a fresh expression holding the deserialized
tree returns its (canonicalized) semantic string. -/
def RTEfull (t : MathAST) : Prop :=
  ∀ (fuel : Nat), fuelB t + 8 ≤ fuel →
    exprValue fuel (startNode :: deserialize t) =
      .ok (astString (canonAST t))

theorem length_dP (t : MathAST) :
    (precisOf (deserialize t)).length = (deserialize t).length :=
  List.length_map _ _

theorem rtbr_of_rt (t : MathAST) (hw : WFA t = true) (hrt : RTslice t) :
    RTbrSlice t := by
  intro nodes pre post pms fuel hnodes hfuel
  obtain ⟨g, rfl⟩ : ∃ g, fuel = g + 1 := ⟨fuel - 1, by omega⟩
  obtain ⟨f, rfl⟩ : ∃ f, g = f + 1 := ⟨g - 1, by omega⟩
  obtain ⟨f2, rfl⟩ : ∃ f2, f = f2 + 1 := ⟨f - 1, by omega⟩
  have hbal := innerBal_dP hw
  obtain ⟨hbm, ham⟩ := @maskPair_one [] (precisOf (deserialize t)) []
    (by simp) (by simp) hbal (by simp) (by simp)
  simp only [List.nil_append, List.append_nil] at hbm ham
  have hfmp := findMatchingParen_span [] (precisOf (deserialize t)) [] hbal
  simp only [List.nil_append, List.length_nil, Nat.zero_add] at hfmp
  have hpm : lastPMIdx
      (List.replicate ((precisOf (deserialize t)).length + 2) '#') = none :=
    lastPMIdx_none (fun c hc => by rw [List.eq_of_mem_replicate hc]; rfl)
  have hstar : firstStarIdx
      (List.replicate ((precisOf (deserialize t)).length + 2) '#') = none :=
    firstStarIdx_none (not_mem_replicate (by decide) _)
  rw [parseP_nopm hbm ham (by intro tail h; simp at h) hpm]
  have hinner : parseP (f2 + 1) nodes
      ((('(' :: (precisOf (deserialize t) ++ [')'])).take
        ((precisOf (deserialize t)).length + 1)).drop 1)
      (pre.length + 1) [] = .ok (astString (canonAST t)) := by
    have htake : ('(' :: (precisOf (deserialize t) ++ [')'])).take
        ((precisOf (deserialize t)).length + 1) =
        '(' :: precisOf (deserialize t) := by
      rw [List.take_succ_cons]
      congr 1
      exact List.take_left _ _
    rw [htake, List.drop_succ_cons, List.drop_zero]
    have := hrt nodes (pre ++ [bracketNode '(']) (bracketNode ')' :: post)
      (f2 + 1) (by rw [hnodes]; simp [brN]) (by omega)
    simpa using this
  rw [parseNoPM_paren hstar hfmp hinner]
  have hfull : ('(' :: (precisOf (deserialize t) ++ [')'])).take
      ((precisOf (deserialize t)).length + 1 + 1) =
      '(' :: (precisOf (deserialize t) ++ [')']) :=
    List.take_of_length_le (by simp)
  rw [hfull, parseTerm_full rfl]

theorem num_char_safe {c : Char} (h : isDigitChar c = true ∨ c = '.') :
    c ≠ '(' ∧ c ≠ ')' ∧ c ≠ '|' ∧ c ≠ '+' ∧ c ≠ '-' ∧ c ≠ '*' ∧ c ≠ '_' := by
  rcases h with h | rfl
  · exact digit_safe h
  · refine ⟨?_, ?_, ?_, ?_, ?_, ?_, ?_⟩ <;> decide

theorem cn_chars {ip : List Char} {fp : Option (List Char)}
    (h : WFA (cn ip fp) = true) :
    ∀ c ∈ precisOf (deserialize (cn ip fp)), isDigitChar c = true ∨ c = '.' := by
  rw [WFA_cn, Bool.and_eq_true, Bool.and_eq_true] at h
  obtain ⟨⟨_, hdig⟩, hfp⟩ := h
  rw [dP_cn]
  intro c hc
  rcases List.mem_append.mp hc with hc | hc
  · exact Or.inl (List.all_eq_true.mp hdig c hc)
  · cases fp with
    | none => simp [fpChars] at hc
    | some f =>
      simp only [fpChars] at hc
      rcases List.mem_cons.mp hc with rfl | hc
      · exact Or.inr rfl
      · rw [Bool.and_eq_true] at hfp
        exact Or.inl (List.all_eq_true.mp hfp.2 c hc)

/-- Both masks succeed on the full precis (with its leading `_`) of a
deserialized well-formed tree. -/
theorem masks_us (t : MathAST) (hw : WFA t = true) :
    ∃ m1 m2, bracketMask ('_' :: precisOf (deserialize t)) = .ok m1 ∧
      absMask m1 = .ok m2 := by
  cases t with
  | cn ip fp =>
    have hch := cn_chars hw
    have h1 : '(' ∉ '_' :: precisOf (deserialize (cn ip fp)) := by
      intro hm
      rcases List.mem_cons.mp hm with h | h
      · exact absurd h (by decide)
      · exact (num_char_safe (hch _ h)).1 rfl
    have h2 : '|' ∉ '_' :: precisOf (deserialize (cn ip fp)) := by
      intro hm
      rcases List.mem_cons.mp hm with h | h
      · exact absurd h (by decide)
      · exact (num_char_safe (hch _ h)).2.2.1 rfl
    obtain ⟨ha, hb⟩ := maskPair_id h1 h2
    exact ⟨_, _, ha, hb⟩
  | ci c =>
    rw [WFA, Bool.and_eq_true, Bool.and_eq_true] at hw
    have hsafe := letter_safe hw.1.1
    rw [dP_ci]
    have h1 : '(' ∉ ['_', c] := by
      intro hm
      rcases List.mem_cons.mp hm with h | h
      · exact absurd h (by decide)
      · rcases List.mem_singleton.mp h with h
        exact hsafe.1 h.symm
    have h2 : '|' ∉ ['_', c] := by
      intro hm
      rcases List.mem_cons.mp hm with h | h
      · exact absurd h (by decide)
      · rcases List.mem_singleton.mp h with h
        exact hsafe.2.2.1 h.symm
    obtain ⟨ha, hb⟩ := maskPair_id h1 h2
    exact ⟨_, _, ha, hb⟩
  | piC =>
    rw [dP_pi]
    obtain ⟨ha, hb⟩ := @maskPair_id ['_', 'π'] (by decide) (by decide)
    exact ⟨_, _, ha, hb⟩
  | eulerC =>
    rw [dP_euler]
    obtain ⟨ha, hb⟩ := @maskPair_id ['_', 'e'] (by decide) (by decide)
    exact ⟨_, _, ha, hb⟩
  | inftyC =>
    rw [dP_infty]
    obtain ⟨ha, hb⟩ := @maskPair_id ['_', '∞'] (by decide) (by decide)
    exact ⟨_, _, ha, hb⟩
  | plusA a b =>
    rw [WFA, Bool.and_eq_true] at hw
    rw [dP_plus]
    obtain ⟨hbm, ham⟩ := @maskPair_two ['_'] (precisOf (deserialize a))
      (precisOf (deserialize b)) '+' (by decide) (by decide)
      (innerBal_dP hw.1) (innerBal_dP hw.2) (by decide) (by decide)
    simp only [List.cons_append, List.nil_append] at hbm ham
    exact ⟨_, _, hbm, ham⟩
  | minusA a b =>
    rw [WFA, Bool.and_eq_true] at hw
    rw [dP_minus]
    obtain ⟨hbm, ham⟩ := @maskPair_two ['_'] (precisOf (deserialize a))
      (precisOf (deserialize b)) '-' (by decide) (by decide)
      (innerBal_dP hw.1) (innerBal_dP hw.2) (by decide) (by decide)
    simp only [List.cons_append, List.nil_append] at hbm ham
    exact ⟨_, _, hbm, ham⟩
  | timesA a b =>
    rw [WFA, Bool.and_eq_true] at hw
    rw [dP_times]
    obtain ⟨hbm, ham⟩ := @maskPair_two ['_'] (precisOf (deserialize a))
      (precisOf (deserialize b)) '*' (by decide) (by decide)
      (innerBal_dP hw.1) (innerBal_dP hw.2) (by decide) (by decide)
    simp only [List.cons_append, List.nil_append] at hbm ham
    exact ⟨_, _, hbm, ham⟩
  | negA a =>
    rw [WFA_neg] at hw
    rw [dP_neg]
    obtain ⟨hbm, ham⟩ := @maskPair_one ['_', '-'] (precisOf (deserialize a)) []
      (by decide) (by decide) (innerBal_dP hw) (by simp) (by simp)
    simp only [List.cons_append, List.nil_append, List.append_nil] at hbm ham
    exact ⟨_, _, hbm, ham⟩
  | fnA fn a =>
    rw [WFA_fn] at hw
    rw [dP_fn]
    obtain ⟨hbm, ham⟩ := @maskPair_one ('_' :: fnChars fn)
      (precisOf (deserialize a)) []
      (by cases fn <;> decide) (by cases fn <;> decide)
      (innerBal_dP hw) (by simp) (by simp)
    simp only [List.cons_append, List.nil_append, List.append_nil] at hbm ham
    exact ⟨_, _, hbm, ham⟩
  | absA a =>
    rw [WFA, Bool.and_eq_true] at hw
    rw [dP_abs]
    obtain ⟨hbm, ham⟩ := @maskPair_abs ['_'] (precisOf (deserialize a))
      (by decide) (by decide) (innerBal_dP hw.1)
    simp only [List.cons_append, List.nil_append] at hbm ham
    exact ⟨_, _, hbm, ham⟩
  | powerA b e =>
    rw [WFA, Bool.and_eq_true] at hw
    rw [dP_power]
    obtain ⟨hbm, ham⟩ := @maskPair_one ['_'] (precisOf (deserialize b)) ['^']
      (by decide) (by decide) (innerBal_dP hw.1) (by decide) (by decide)
    simp only [List.cons_append, List.nil_append] at hbm ham
    exact ⟨_, _, hbm, ham⟩
  | divideA n d =>
    rw [dP_divide]
    obtain ⟨ha, hb⟩ := @maskPair_id ['_', '%'] (by decide) (by decide)
    exact ⟨_, _, ha, hb⟩
  | rootA r =>
    rw [dP_root]
    obtain ⟨ha, hb⟩ := @maskPair_id ['_', '%'] (by decide) (by decide)
    exact ⟨_, _, ha, hb⟩
  | rootNoDegA r =>
    rw [dP_rootNoDeg]
    obtain ⟨ha, hb⟩ := @maskPair_id ['_', '%'] (by decide) (by decide)
    exact ⟨_, _, ha, hb⟩

theorem rte_of_rt (t : MathAST) (hw : WFA t = true) (hrt : RTslice t) :
    RTEfull t := by
  intro fuel hfuel
  obtain ⟨g, rfl⟩ : ∃ g, fuel = g + 1 := ⟨fuel - 1, by omega⟩
  obtain ⟨f, rfl⟩ : ∃ f, g = f + 1 := ⟨g - 1, by omega⟩
  obtain ⟨m1, m2, hbm, ham⟩ := masks_us t hw
  rw [exprValue_eq]
  rw [show precisOf (startNode :: deserialize t) =
    '_' :: precisOf (deserialize t) from rfl]
  rw [parseP_us hbm ham]
  have := hrt (startNode :: deserialize t) [startNode] [] f (by simp) (by omega)
  simpa using this

theorem parseP_pm0 {f : Nat} {nodes : List UnitNode} {precis : List Char}
    {off : Nat} {pms : List String} {mB mA : List Char}
    (hbm : bracketMask precis = .ok mB) (ham : absMask mB = .ok mA)
    (hhd : ∀ tail, precis ≠ '_' :: tail) (hpm : lastPMIdx mA = some 0) :
    parseP (f + 1) nodes precis off pms =
      parseNoPM f nodes precis off pms mA := by
  simp only [parseP]
  rw [hbm, ebind_ok, ham, ebind_ok, hpm]
  show (if (0 : Nat) ≠ 0 then parseOperator f nodes precis off 0
    else parseNoPM f nodes precis off pms mA) = _
  rw [if_neg (by omega)]

theorem getElem?_mid {α : Type} {nodes pre X post : List α} {k : Nat} {x : α}
    (h : nodes = pre ++ (X ++ post)) (hk : X[k]? = some x) :
    nodes[pre.length + k]? = some x := by
  subst h
  rw [List.getElem?_append_right (Nat.le_add_right _ _)]
  have hd : pre.length + k - pre.length = k := by omega
  rw [hd]
  have hklt : k < X.length := (List.getElem?_eq_some_iff.mp hk).1
  rw [List.getElem?_append_left hklt]
  exact hk

theorem takeWhile_of_all {p : Char → Bool} {l : List Char}
    (h : ∀ c ∈ l, p c = true) : l.takeWhile p = l := by
  induction l with
  | nil => rfl
  | cons c cs ih =>
    rw [List.takeWhile_cons, if_pos (h c (by simp))]
    rw [ih (fun x hx => h x (by simp [hx]))]

/-! ### The round trip, constructor by constructor -/

theorem rt_cn (ip : List Char) (fp : Option (List Char)) :
    WFA (cn ip fp) = true → RTslice (cn ip fp) := by
  intro hw nodes pre post fuel hnodes hfuel
  have hfB : fuelB (cn ip fp) = 4 := rfl
  rw [hfB] at hfuel
  obtain ⟨f, rfl⟩ : ∃ f, fuel = f + 1 := ⟨fuel - 1, by omega⟩
  obtain ⟨f2, rfl⟩ : ∃ f2, f = f2 + 1 := ⟨f - 1, by omega⟩
  obtain ⟨f3, rfl⟩ : ∃ f3, f2 = f3 + 1 := ⟨f2 - 1, by omega⟩
  have hch := cn_chars hw
  have h1 : '(' ∉ precisOf (deserialize (cn ip fp)) := fun hm =>
    (num_char_safe (hch _ hm)).1 rfl
  have h2 : '|' ∉ precisOf (deserialize (cn ip fp)) := fun hm =>
    (num_char_safe (hch _ hm)).2.2.1 rfl
  obtain ⟨hbm, ham⟩ := maskPair_id h1 h2
  have hhd : ∀ tail, precisOf (deserialize (cn ip fp)) ≠ '_' :: tail := by
    intro tail h
    have hmem : '_' ∈ precisOf (deserialize (cn ip fp)) := by
      rw [h]; simp
    exact (num_char_safe (hch _ hmem)).2.2.2.2.2.2 rfl
  have hpm : lastPMIdx (precisOf (deserialize (cn ip fp))) = none :=
    lastPMIdx_none (fun c hc =>
      isPM_false_of_ne (num_char_safe (hch _ hc)).2.2.2.1
        (num_char_safe (hch _ hc)).2.2.2.2.1)
  have hstar : firstStarIdx (precisOf (deserialize (cn ip fp))) = none :=
    firstStarIdx_none (fun hm => (num_char_safe (hch _ hm)).2.2.2.2.2.1 rfl)
  rw [parseP_nopm hbm ham hhd hpm]
  -- expose the digit head
  rw [WFA_cn, Bool.and_eq_true, Bool.and_eq_true] at hw
  obtain ⟨⟨hne, hdig⟩, hfp⟩ := hw
  obtain ⟨c0, ip', rfl⟩ : ∃ c0 ip', ip = c0 :: ip' := by
    cases ip with
    | nil => simp at hne
    | cons c0 ip' => exact ⟨c0, ip', rfl⟩
  have hd0 : isDigitChar c0 = true := List.all_eq_true.mp hdig c0 (by simp)
  have hterm : numberToken (precisOf (deserialize (cn (c0 :: ip') fp))) =
      precisOf (deserialize (cn (c0 :: ip') fp)) := by
    rw [dP_cn]
    cases fp with
    | none =>
      simp only [fpChars, List.append_nil]
      rw [numberToken, takeWhile_of_all (List.all_eq_true.mp hdig)]
      rw [List.drop_length]
    | some fr =>
      simp only [fpChars]
      rw [Bool.and_eq_true] at hfp
      obtain ⟨hfne, hfdig⟩ := hfp
      rw [numberToken]
      simp only
      rw [takeWhile_append_of_all _ _ (List.all_eq_true.mp hdig)]
      rw [show List.takeWhile isDigitChar ('.' :: fr) = [] from by
        rw [List.takeWhile_cons, if_neg (by decide)]]
      rw [List.append_nil]
      have hdl : ((c0 :: ip') ++ ('.' :: fr)).drop (c0 :: ip').length =
          '.' :: fr := List.drop_left _ _
      rw [hdl]
      simp only
      rw [takeWhile_of_all (List.all_eq_true.mp hfdig)]
      rw [if_neg (by simpa using hfne)]
  have hdPcons : precisOf (deserialize (cn (c0 :: ip') fp)) =
      c0 :: (ip' ++ fpChars fp) := by
    rw [dP_cn]
    rfl
  rw [hdPcons] at hterm hstar ⊢
  rw [parseNoPM_num hstar hd0 (digit_safe hd0).2.2.2.2.1]
  rw [hterm, parseTerm_full rfl]
  cases fp <;> simp [astString, canonAST, fpChars, applyPreModifiers]

theorem rt_ci (c : Char) : WFA (ci c) = true → RTslice (ci c) := by
  intro hw nodes pre post fuel hnodes hfuel
  have hfB : fuelB (ci c) = 4 := rfl
  rw [hfB] at hfuel
  obtain ⟨f, rfl⟩ : ∃ f, fuel = f + 1 := ⟨fuel - 1, by omega⟩
  obtain ⟨f2, rfl⟩ : ∃ f2, f = f2 + 1 := ⟨f - 1, by omega⟩
  obtain ⟨f3, rfl⟩ : ∃ f3, f2 = f3 + 1 := ⟨f2 - 1, by omega⟩
  rw [WFA, Bool.and_eq_true, Bool.and_eq_true] at hw
  obtain ⟨⟨hlet, hnote⟩, hnotpi⟩ := hw
  have hsafe := letter_safe hlet
  have hne : ¬ c = 'e' := by simpa using hnote
  have hnpi : ¬ c = 'π' := by simpa using hnotpi
  rw [dP_ci]
  have h1 : '(' ∉ [c] := by
    intro hm
    exact hsafe.1 (List.mem_singleton.mp hm).symm
  have h2 : '|' ∉ [c] := by
    intro hm
    exact hsafe.2.2.1 (List.mem_singleton.mp hm).symm
  obtain ⟨hbm, ham⟩ := maskPair_id h1 h2
  have hhd : ∀ tail, [c] ≠ '_' :: tail := by
    intro tail h
    rw [List.cons.injEq] at h
    exact hsafe.2.2.2.2.2.2.1 h.1
  have hpm : lastPMIdx [c] = none := by
    apply lastPMIdx_none
    intro d hd
    rcases List.mem_singleton.mp hd with rfl
    exact isPM_false_of_ne hsafe.2.2.2.1 hsafe.2.2.2.2.1
  have hstar : firstStarIdx [c] = none := by
    apply firstStarIdx_none
    intro hm
    exact hsafe.2.2.2.2.2.1 (List.mem_singleton.mp hm).symm
  rw [parseP_nopm hbm ham hhd hpm]
  rw [parseNoPM_single hstar hlet hnpi hne]
  rw [parseTerm_full rfl]
  simp [astString, canonAST, applyPreModifiers]

theorem rt_pi : WFA piC = true → RTslice piC := by
  intro _ nodes pre post fuel hnodes hfuel
  have hfB : fuelB piC = 4 := rfl
  rw [hfB] at hfuel
  obtain ⟨f, rfl⟩ : ∃ f, fuel = f + 1 := ⟨fuel - 1, by omega⟩
  obtain ⟨f2, rfl⟩ : ∃ f2, f = f2 + 1 := ⟨f - 1, by omega⟩
  obtain ⟨f3, rfl⟩ : ∃ f3, f2 = f3 + 1 := ⟨f2 - 1, by omega⟩
  rw [dP_pi]
  obtain ⟨hbm, ham⟩ := @maskPair_id ['π'] (by decide) (by decide)
  rw [parseP_nopm hbm ham (by intro tail h; simp at h) (by decide)]
  rw [parseNoPM_pi (by decide)]
  rw [parseTerm_full rfl]
  simp [astString, canonAST, applyPreModifiers]

theorem rt_euler : WFA eulerC = true → RTslice eulerC := by
  intro _ nodes pre post fuel hnodes hfuel
  have hfB : fuelB eulerC = 4 := rfl
  rw [hfB] at hfuel
  obtain ⟨f, rfl⟩ : ∃ f, fuel = f + 1 := ⟨fuel - 1, by omega⟩
  obtain ⟨f2, rfl⟩ : ∃ f2, f = f2 + 1 := ⟨f - 1, by omega⟩
  obtain ⟨f3, rfl⟩ : ∃ f3, f2 = f3 + 1 := ⟨f2 - 1, by omega⟩
  rw [dP_euler]
  obtain ⟨hbm, ham⟩ := @maskPair_id ['e'] (by decide) (by decide)
  rw [parseP_nopm hbm ham (by intro tail h; simp at h) (by decide)]
  rw [parseNoPM_e (by decide)]
  rw [parseTerm_full rfl]
  simp [astString, canonAST, applyPreModifiers]

theorem rt_infty : WFA inftyC = true → RTslice inftyC := by
  intro _ nodes pre post fuel hnodes hfuel
  have hfB : fuelB inftyC = 4 := rfl
  rw [hfB] at hfuel
  obtain ⟨f, rfl⟩ : ∃ f, fuel = f + 1 := ⟨fuel - 1, by omega⟩
  obtain ⟨f2, rfl⟩ : ∃ f2, f = f2 + 1 := ⟨f - 1, by omega⟩
  obtain ⟨f3, rfl⟩ : ∃ f3, f2 = f3 + 1 := ⟨f2 - 1, by omega⟩
  rw [dP_infty]
  obtain ⟨hbm, ham⟩ := @maskPair_id ['∞'] (by decide) (by decide)
  rw [parseP_nopm hbm ham (by intro tail h; simp at h) (by decide)]
  rw [parseNoPM_inf (by decide)]
  rw [parseTerm_full rfl]
  simp [astString, canonAST, applyPreModifiers]

theorem rt_divide (n d : MathAST)
    (ihn : WFA n = true → RTslice n) (ihd : WFA d = true → RTslice d) :
    WFA (divideA n d) = true → RTslice (divideA n d) := by
  intro hw nodes pre post fuel hnodes hfuel
  have hfB : fuelB (divideA n d) = fuelB n + fuelB d + 16 := rfl
  rw [hfB] at hfuel
  rw [WFA, Bool.and_eq_true] at hw
  obtain ⟨hwn, hwd⟩ := hw
  have hen := rte_of_rt n hwn (ihn hwn)
  have hed := rte_of_rt d hwd (ihd hwd)
  obtain ⟨f, rfl⟩ : ∃ f, fuel = f + 1 := ⟨fuel - 1, by omega⟩
  obtain ⟨f2, rfl⟩ : ∃ f2, f = f2 + 1 := ⟨f - 1, by omega⟩
  obtain ⟨f3, rfl⟩ : ∃ f3, f2 = f3 + 1 := ⟨f2 - 1, by omega⟩
  rw [dP_divide]
  obtain ⟨hbm, ham⟩ := @maskPair_id ['%'] (by decide) (by decide)
  rw [parseP_nopm hbm ham (by intro tail h; simp at h) (by decide)]
  have hnode : nodes[pre.length]? = some
      (divisionNode (startNode :: deserialize n)
        (startNode :: deserialize d)) := by
    rw [hnodes, List.getElem?_append_right (le_refl _)]
    simp [deserialize]
  have hnv : nodeValue (f3 + 1)
      (divisionNode (startNode :: deserialize n)
        (startNode :: deserialize d)) =
      .ok ("<apply><divide/>" ++ astString (canonAST n) ++
        astString (canonAST d) ++ "</apply>") :=
    nodeValue_div (hen f3 (by omega)) (hed f3 (by omega))
  rw [parseNoPM_pct (by decide) hnode hnv]
  rw [parseTerm_full rfl]
  simp [astString, canonAST, applyPreModifiers]

theorem rt_root (r : MathAST) (ihr : WFA r = true → RTslice r) :
    WFA (rootA r) = true → RTslice (rootA r) := by
  intro hw nodes pre post fuel hnodes hfuel
  have hfB : fuelB (rootA r) = fuelB r + 16 := rfl
  rw [hfB] at hfuel
  rw [WFA] at hw
  have her := rte_of_rt r hw (ihr hw)
  obtain ⟨f, rfl⟩ : ∃ f, fuel = f + 1 := ⟨fuel - 1, by omega⟩
  obtain ⟨f2, rfl⟩ : ∃ f2, f = f2 + 1 := ⟨f - 1, by omega⟩
  obtain ⟨f3, rfl⟩ : ∃ f3, f2 = f3 + 1 := ⟨f2 - 1, by omega⟩
  rw [dP_root]
  obtain ⟨hbm, ham⟩ := @maskPair_id ['%'] (by decide) (by decide)
  rw [parseP_nopm hbm ham (by intro tail h; simp at h) (by decide)]
  have hnode : nodes[pre.length]? =
      some (squareRootNode (startNode :: deserialize r)) := by
    rw [hnodes, List.getElem?_append_right (le_refl _)]
    simp [deserialize]
  have hnv : nodeValue (f3 + 1) (squareRootNode (startNode :: deserialize r)) =
      .ok ("<apply><root/><degree><cn>2</cn></degree>" ++
        astString (canonAST r) ++ "</apply>") :=
    nodeValue_sqrt (her f3 (by omega))
  rw [parseNoPM_pct (by decide) hnode hnv]
  rw [parseTerm_full rfl]
  simp [astString, canonAST, applyPreModifiers]

theorem rt_rootNoDeg (r : MathAST) (ihr : WFA r = true → RTslice r) :
    WFA (rootNoDegA r) = true → RTslice (rootNoDegA r) := by
  intro hw nodes pre post fuel hnodes hfuel
  have hfB : fuelB (rootNoDegA r) = fuelB r + 16 := rfl
  rw [hfB] at hfuel
  rw [WFA] at hw
  have her := rte_of_rt r hw (ihr hw)
  obtain ⟨f, rfl⟩ : ∃ f, fuel = f + 1 := ⟨fuel - 1, by omega⟩
  obtain ⟨f2, rfl⟩ : ∃ f2, f = f2 + 1 := ⟨f - 1, by omega⟩
  obtain ⟨f3, rfl⟩ : ∃ f3, f2 = f3 + 1 := ⟨f2 - 1, by omega⟩
  rw [dP_rootNoDeg]
  obtain ⟨hbm, ham⟩ := @maskPair_id ['%'] (by decide) (by decide)
  rw [parseP_nopm hbm ham (by intro tail h; simp at h) (by decide)]
  have hnode : nodes[pre.length]? =
      some (squareRootNode (startNode :: deserialize r)) := by
    rw [hnodes, List.getElem?_append_right (le_refl _)]
    simp [deserialize]
  have hnv : nodeValue (f3 + 1) (squareRootNode (startNode :: deserialize r)) =
      .ok ("<apply><root/><degree><cn>2</cn></degree>" ++
        astString (canonAST r) ++ "</apply>") :=
    nodeValue_sqrt (her f3 (by omega))
  rw [parseNoPM_pct (by decide) hnode hnv]
  rw [parseTerm_full rfl]
  simp [astString, canonAST, applyPreModifiers]

theorem fnChars_safe (fn : FnName) : ∀ c ∈ fnChars fn,
    isPM c = false ∧ c ≠ '*' ∧ c ≠ '_' ∧ c ≠ '(' ∧ c ≠ '|' := by
  cases fn <;> decide

theorem rt_neg (a : MathAST) (iha : WFA a = true → RTslice a) :
    WFA (negA a) = true → RTslice (negA a) := by
  intro hw nodes pre post fuel hnodes hfuel
  have hfB : fuelB (negA a) = fuelB a + 8 := rfl
  rw [hfB] at hfuel
  rw [WFA_neg] at hw
  have hra := rtbr_of_rt a hw (iha hw)
  obtain ⟨f, rfl⟩ : ∃ f, fuel = f + 1 := ⟨fuel - 1, by omega⟩
  obtain ⟨f2, rfl⟩ : ∃ f2, f = f2 + 1 := ⟨f - 1, by omega⟩
  rw [dP_neg]
  obtain ⟨hbm, ham⟩ := @maskPair_one ['-'] (precisOf (deserialize a)) []
    (by decide) (by decide) (innerBal_dP hw) (by simp) (by simp)
  simp only [List.cons_append, List.nil_append, List.append_nil] at hbm ham
  have hpm : lastPMIdx ('-' ::
      List.replicate ((precisOf (deserialize a)).length + 2) '#') = some 0 := by
    have := @lastPMIdx_at []
      (List.replicate ((precisOf (deserialize a)).length + 2) '#') '-'
      (by decide) (fun d hd => by rw [List.eq_of_mem_replicate hd]; rfl)
    simpa using this
  rw [parseP_pm0 hbm ham (by intro tail h; simp at h) hpm]
  have hstar : firstStarIdx ('-' ::
      List.replicate ((precisOf (deserialize a)).length + 2) '#') = none := by
    apply firstStarIdx_none
    intro hm
    rcases List.mem_cons.mp hm with h | h
    · exact absurd h (by decide)
    · exact not_mem_replicate (by decide) _ h
  rw [parseNoPM_neg hstar]
  have hthis := hra nodes (pre ++ [atomNode '-']) post ["negative"] f2
    (by rw [hnodes]; simp [deserialize, brN]) (by omega)
  have hoff : (pre ++ [atomNode '-']).length = pre.length + 1 := by simp
  rw [hoff] at hthis
  rw [hthis]
  rfl

theorem rt_fn (fn : FnName) (a : MathAST) (iha : WFA a = true → RTslice a) :
    WFA (fnA fn a) = true → RTslice (fnA fn a) := by
  intro hw nodes pre post fuel hnodes hfuel
  have hfB : fuelB (fnA fn a) = fuelB a + 8 := rfl
  rw [hfB] at hfuel
  rw [WFA_fn] at hw
  have hra := rtbr_of_rt a hw (iha hw)
  obtain ⟨f, rfl⟩ : ∃ f, fuel = f + 1 := ⟨fuel - 1, by omega⟩
  obtain ⟨f2, rfl⟩ : ∃ f2, f = f2 + 1 := ⟨f - 1, by omega⟩
  rw [dP_fn]
  obtain ⟨hbm, ham⟩ := @maskPair_one (fnChars fn) (precisOf (deserialize a)) []
    (by cases fn <;> decide) (by cases fn <;> decide)
    (innerBal_dP hw) (by simp) (by simp)
  simp only [List.append_nil] at hbm ham
  have hhd : ∀ tail,
      fnChars fn ++ ('(' :: (precisOf (deserialize a) ++ [')'])) ≠
        '_' :: tail := by
    intro tail h
    cases fn <;> simp [fnChars] at h
  have hpm : lastPMIdx (fnChars fn ++
      List.replicate ((precisOf (deserialize a)).length + 2) '#') = none := by
    apply lastPMIdx_none
    intro c hc
    rcases List.mem_append.mp hc with h | h
    · exact (fnChars_safe fn c h).1
    · rw [List.eq_of_mem_replicate h]; rfl
  rw [parseP_nopm hbm ham hhd hpm]
  have hstar : firstStarIdx (fnChars fn ++
      List.replicate ((precisOf (deserialize a)).length + 2) '#') = none := by
    apply firstStarIdx_none
    intro hm
    rcases List.mem_append.mp hm with h | h
    · exact (fnChars_safe fn _ h).2.1 rfl
    · exact not_mem_replicate (by decide) _ h
  rw [parseNoPM_fn hstar]
  have hthis := hra nodes (pre ++ (fnChars fn).map atomNode) post [fnTag fn] f2
    (by rw [hnodes]; simp [deserialize, brN]) (by omega)
  have hoff : (pre ++ (fnChars fn).map atomNode).length =
      pre.length + (fnChars fn).length := by
    simp
  rw [hoff] at hthis
  rw [hthis]
  cases fn <;> rfl

theorem rt_abs (a : MathAST) (iha : WFA a = true → RTslice a) :
    WFA (absA a) = true → RTslice (absA a) := by
  intro hw nodes pre post fuel hnodes hfuel
  have hfB : fuelB (absA a) = fuelB a + 8 := rfl
  rw [hfB] at hfuel
  rw [WFA, Bool.and_eq_true] at hw
  obtain ⟨hwa, hpf⟩ := hw
  have hra := rtbr_of_rt a hwa (iha hwa)
  have hnp := noPipe_dP hwa hpf
  obtain ⟨f, rfl⟩ : ∃ f, fuel = f + 1 := ⟨fuel - 1, by omega⟩
  obtain ⟨f2, rfl⟩ : ∃ f2, f = f2 + 1 := ⟨f - 1, by omega⟩
  obtain ⟨f3, rfl⟩ : ∃ f3, f2 = f3 + 1 := ⟨f2 - 1, by omega⟩
  rw [dP_abs]
  obtain ⟨hbm, ham⟩ := @maskPair_abs [] (precisOf (deserialize a))
    (by simp) (by simp) (innerBal_dP hwa)
  simp only [List.nil_append, List.cons_append, List.append_assoc] at hbm ham
  have hpm : lastPMIdx
      (List.replicate ((precisOf (deserialize a)).length + 4) '#') = none :=
    lastPMIdx_none (fun c hc => by rw [List.eq_of_mem_replicate hc]; rfl)
  rw [parseP_nopm hbm ham (by intro tail h; simp at h) hpm]
  have hstar : firstStarIdx
      (List.replicate ((precisOf (deserialize a)).length + 4) '#') = none :=
    firstStarIdx_none (not_mem_replicate (by decide) _)
  have hdrop : ('|' :: ('(' :: (precisOf (deserialize a) ++
      (')' :: ['|'])))).drop 1 =
      ('(' :: (precisOf (deserialize a) ++ [')'])) ++ ('|' :: []) := by
    simp
  have hx : '|' ∉ '(' :: (precisOf (deserialize a) ++ [')']) := by
    intro hm
    rcases List.mem_cons.mp hm with h | h
    · exact absurd h (by decide)
    · rcases List.mem_append.mp h with h | h
      · exact hnp h
      · exact absurd (List.mem_singleton.mp h) (by decide)
  have hifo := indexOfFrom_at [] hdrop hx
  have hlen1 : ('(' :: (precisOf (deserialize a) ++ [')'])).length =
      (precisOf (deserialize a)).length + 2 := by
    simp
  rw [hlen1] at hifo
  rw [show 1 + ((precisOf (deserialize a)).length + 2) =
    (precisOf (deserialize a)).length + 3 from by omega] at hifo
  have htk : ('|' :: ('(' :: (precisOf (deserialize a) ++
      (')' :: ['|'])))).take ((precisOf (deserialize a)).length + 3) =
      '|' :: ('(' :: (precisOf (deserialize a) ++ [')'])) := by
    rw [List.take_succ_cons, List.take_succ_cons, List.take_append]
    simp
  have hthis := hra nodes (pre ++ [absoluteNode]) (absoluteNode :: post) [] (f3 + 1)
    (by rw [hnodes]; simp [deserialize, brN]) (by omega)
  have hoff : (pre ++ [absoluteNode]).length = pre.length + 1 := by simp
  rw [hoff] at hthis
  have hiv2 : parseP (f3 + 1) nodes
      ((('|' :: ('(' :: (precisOf (deserialize a) ++ (')' :: ['|'])))).take
        ((precisOf (deserialize a)).length + 3)).drop 1)
      (pre.length + 1) [] = .ok (applyPreModifiers [] (astString (canonAST a))) := by
    rw [htk]
    show parseP (f3 + 1) nodes ('(' :: (precisOf (deserialize a) ++ [')']))
      (pre.length + 1) [] = _
    exact hthis
  rw [parseNoPM_pipe hstar hifo hiv2]
  have htkfull : ('|' :: ('(' :: (precisOf (deserialize a) ++
      (')' :: ['|'])))).take ((precisOf (deserialize a)).length + 3 + 1) =
      '|' :: ('(' :: (precisOf (deserialize a) ++ (')' :: ['|']))) :=
    List.take_of_length_le (by simp)
  rw [htkfull, parseTerm_full rfl]
  rfl

theorem rt_power (b e : MathAST) (ihb : WFA b = true → RTslice b)
    (ihe : WFA e = true → RTslice e) :
    WFA (powerA b e) = true → RTslice (powerA b e) := by
  intro hw nodes pre post fuel hnodes hfuel
  have hfB : fuelB (powerA b e) = fuelB b + fuelB e + 16 := rfl
  rw [hfB] at hfuel
  rw [WFA, Bool.and_eq_true] at hw
  obtain ⟨hwb, hwe⟩ := hw
  have hrb := ihb hwb
  have hee := rte_of_rt e hwe (ihe hwe)
  obtain ⟨f, rfl⟩ : ∃ f, fuel = f + 1 := ⟨fuel - 1, by omega⟩
  obtain ⟨f2, rfl⟩ : ∃ f2, f = f2 + 1 := ⟨f - 1, by omega⟩
  obtain ⟨f3, rfl⟩ : ∃ f3, f2 = f3 + 1 := ⟨f2 - 1, by omega⟩
  obtain ⟨f4, rfl⟩ : ∃ f4, f3 = f4 + 1 := ⟨f3 - 1, by omega⟩
  rw [dP_power]
  obtain ⟨hbm, ham⟩ := @maskPair_one [] (precisOf (deserialize b)) ['^']
    (by simp) (by simp) (innerBal_dP hwb) (by decide) (by decide)
  simp only [List.nil_append] at hbm ham
  have hpm : lastPMIdx
      (List.replicate ((precisOf (deserialize b)).length + 2) '#' ++ ['^']) =
      none := by
    apply lastPMIdx_none
    intro c hc
    rcases List.mem_append.mp hc with h | h
    · rw [List.eq_of_mem_replicate h]; rfl
    · rcases List.mem_singleton.mp h with rfl; rfl
  rw [parseP_nopm hbm ham (by intro tail h; simp at h) hpm]
  have hstar : firstStarIdx
      (List.replicate ((precisOf (deserialize b)).length + 2) '#' ++ ['^']) =
      none := by
    apply firstStarIdx_none
    intro hm
    rcases List.mem_append.mp hm with h | h
    · exact not_mem_replicate (by decide) _ h
    · exact absurd (List.mem_singleton.mp h) (by decide)
  have hfmp := findMatchingParen_span [] (precisOf (deserialize b)) ['^']
    (innerBal_dP hwb)
  simp only [List.nil_append, List.length_nil, Nat.zero_add] at hfmp
  have hthis := hrb nodes (pre ++ [bracketNode '('])
    (bracketNode ')' :: exponentNode (startNode :: deserialize e) :: post)
    ((f4 + 1) + 1)
    (by rw [hnodes]; simp [deserialize, brN]) (by omega)
  have hoff : (pre ++ [bracketNode '(']).length = pre.length + 1 := by simp
  rw [hoff] at hthis
  have hinner : parseP ((f4 + 1) + 1) nodes
      ((('(' :: (precisOf (deserialize b) ++ (')' :: ['^']))).take
        ((precisOf (deserialize b)).length + 1)).drop 1)
      (pre.length + 1) [] = .ok (astString (canonAST b)) := by
    have htk : ('(' :: (precisOf (deserialize b) ++ (')' :: ['^']))).take
        ((precisOf (deserialize b)).length + 1) =
        '(' :: precisOf (deserialize b) := by
      rw [List.take_succ_cons]
      congr 1
      exact List.take_left _ _
    rw [htk, List.drop_succ_cons, List.drop_zero]
    exact hthis
  rw [parseNoPM_paren hstar hfmp hinner]
  have hterm : ('(' :: (precisOf (deserialize b) ++ (')' :: ['^']))).take
      ((precisOf (deserialize b)).length + 1 + 1) =
      '(' :: (precisOf (deserialize b) ++ [')']) := by
    rw [List.take_succ_cons]
    congr 1
    rw [show (precisOf (deserialize b)).length + 1 =
      (precisOf (deserialize b)).length + 1 from rfl, List.take_append]
    simp
  rw [hterm]
  have htl : ('(' :: (precisOf (deserialize b) ++ [')'])).length =
      (precisOf (deserialize b)).length + 2 := by
    simp
  have hpost : ('(' :: (precisOf (deserialize b) ++
      (')' :: ['^'])))[('(' :: (precisOf (deserialize b) ++ [')'])).length]? =
      some '^' := by
    rw [htl]
    rw [show (precisOf (deserialize b)).length + 2 =
      ((precisOf (deserialize b)).length + 1) + 1 from rfl,
      List.getElem?_cons_succ]
    rw [List.getElem?_append_right (Nat.le_add_right _ _)]
    have hs : (precisOf (deserialize b)).length + 1 -
        (precisOf (deserialize b)).length = 1 := by omega
    rw [hs]
    rfl
  have hXk : (deserialize (powerA b e))[('(' ::
      (precisOf (deserialize b) ++ [')'])).length]? =
      some (exponentNode (startNode :: deserialize e)) := by
    rw [htl]
    show (brN (deserialize b) ++
      [exponentNode (startNode :: deserialize e)])[(precisOf (deserialize b)).length + 2]? = _
    rw [List.getElem?_append_right (by simp [brN, length_dP])]
    have hz : (precisOf (deserialize b)).length + 2 -
        (brN (deserialize b)).length = 0 := by
      simp [brN, length_dP]
    rw [hz]
    rfl
  have hnode : nodes[pre.length +
      ('(' :: (precisOf (deserialize b) ++ [')'])).length]? =
      some (exponentNode (startNode :: deserialize e)) :=
    getElem?_mid hnodes hXk
  have hnv : nodeValue (f4 + 1) (exponentNode (startNode :: deserialize e)) =
      .ok (astString (canonAST e)) :=
    nodeValue_exp (hee f4 (by omega))
  have hlenp : ('(' :: (precisOf (deserialize b) ++ [')'])).length + 1 =
      ('(' :: (precisOf (deserialize b) ++ (')' :: ['^']))).length := by
    simp
  rw [parseTerm_hat_full hpost hnode hnv hlenp]
  rfl

theorem rt_plus (a b : MathAST) (iha : WFA a = true → RTslice a)
    (ihb : WFA b = true → RTslice b) :
    WFA (plusA a b) = true → RTslice (plusA a b) := by
  intro hw nodes pre post fuel hnodes hfuel
  have hfB : fuelB (plusA a b) = fuelB a + fuelB b + 8 := rfl
  rw [hfB] at hfuel
  rw [WFA, Bool.and_eq_true] at hw
  obtain ⟨hwa, hwb⟩ := hw
  have hra := rtbr_of_rt a hwa (iha hwa)
  have hrb := rtbr_of_rt b hwb (ihb hwb)
  obtain ⟨f, rfl⟩ : ∃ f, fuel = f + 1 := ⟨fuel - 1, by omega⟩
  obtain ⟨f2, rfl⟩ : ∃ f2, f = f2 + 1 := ⟨f - 1, by omega⟩
  rw [dP_plus]
  obtain ⟨hbm, ham⟩ := @maskPair_two [] (precisOf (deserialize a))
    (precisOf (deserialize b)) '+' (by simp) (by simp)
    (innerBal_dP hwa) (innerBal_dP hwb) (by decide) (by decide)
  simp only [List.nil_append] at hbm ham
  have heqm : (List.replicate ((precisOf (deserialize a)).length + 2) '#' ++
      ['+']) ++ List.replicate ((precisOf (deserialize b)).length + 2) '#' =
      List.replicate ((precisOf (deserialize a)).length + 2) '#' ++
        ('+' :: List.replicate ((precisOf (deserialize b)).length + 2) '#') := by
    simp
  rw [heqm] at hbm ham
  have hpm := @lastPMIdx_at
    (List.replicate ((precisOf (deserialize a)).length + 2) '#')
    (List.replicate ((precisOf (deserialize b)).length + 2) '#') '+'
    (by decide) (fun d hd => by rw [List.eq_of_mem_replicate hd]; rfl)
  rw [List.length_replicate] at hpm
  rw [parseP_op hbm ham (by intro tail h; simp at h) hpm (by omega)]
  have hop : ('(' :: (precisOf (deserialize a) ++ (')' :: ('+' ::
      ('(' :: (precisOf (deserialize b) ++
        [')']))))))[(precisOf (deserialize a)).length + 2]? = some '+' := by
    rw [show (precisOf (deserialize a)).length + 2 =
      ((precisOf (deserialize a)).length + 1) + 1 from rfl,
      List.getElem?_cons_succ,
      List.getElem?_append_right (Nat.le_add_right _ _)]
    have hs : (precisOf (deserialize a)).length + 1 -
        (precisOf (deserialize a)).length = 1 := by omega
    rw [hs]
    rfl
  have htka : ('(' :: (precisOf (deserialize a) ++ (')' :: ('+' ::
      ('(' :: (precisOf (deserialize b) ++ [')'])))))).take
      ((precisOf (deserialize a)).length + 2) =
      '(' :: (precisOf (deserialize a) ++ [')']) := by
    rw [List.take_succ_cons]
    congr 1
    rw [List.take_append]
    simp
  have hl : parseP f2 nodes
      (('(' :: (precisOf (deserialize a) ++ (')' :: ('+' ::
        ('(' :: (precisOf (deserialize b) ++ [')'])))))).take
        ((precisOf (deserialize a)).length + 2)) pre.length [] =
      .ok (applyPreModifiers [] (astString (canonAST a))) := by
    rw [htka]
    exact hra nodes pre ((atomNode '+' :: brN (deserialize b)) ++ post) [] f2
      (by rw [hnodes]; simp [deserialize, brN]) (by omega)
  have hdr : ('(' :: (precisOf (deserialize a) ++ (')' :: ('+' ::
      ('(' :: (precisOf (deserialize b) ++ [')'])))))).drop
      ((precisOf (deserialize a)).length + 2 + 1) =
      '(' :: (precisOf (deserialize b) ++ [')']) := by
    rw [List.drop_succ_cons]
    rw [List.drop_append]
    rfl
  have hoff : (pre ++ brN (deserialize a) ++ [atomNode '+']).length =
      pre.length + ((precisOf (deserialize a)).length + 2) + 1 := by
    simp [brN, length_dP]
    omega
  have hrbi := hrb nodes (pre ++ brN (deserialize a) ++ [atomNode '+']) post [] f2
    (by rw [hnodes]; simp [deserialize, brN]) (by omega)
  rw [hoff] at hrbi
  have hr : parseP f2 nodes
      (('(' :: (precisOf (deserialize a) ++ (')' :: ('+' ::
        ('(' :: (precisOf (deserialize b) ++ [')'])))))).drop
        ((precisOf (deserialize a)).length + 2 + 1))
      (pre.length + ((precisOf (deserialize a)).length + 2) + 1) [] =
      .ok (applyPreModifiers [] (astString (canonAST b))) := by
    rw [hdr]
    exact hrbi
  rw [parseOperator_ok hop hl hr]
  rfl

theorem rt_minus (a b : MathAST) (iha : WFA a = true → RTslice a)
    (ihb : WFA b = true → RTslice b) :
    WFA (minusA a b) = true → RTslice (minusA a b) := by
  intro hw nodes pre post fuel hnodes hfuel
  have hfB : fuelB (minusA a b) = fuelB a + fuelB b + 8 := rfl
  rw [hfB] at hfuel
  rw [WFA, Bool.and_eq_true] at hw
  obtain ⟨hwa, hwb⟩ := hw
  have hra := rtbr_of_rt a hwa (iha hwa)
  have hrb := rtbr_of_rt b hwb (ihb hwb)
  obtain ⟨f, rfl⟩ : ∃ f, fuel = f + 1 := ⟨fuel - 1, by omega⟩
  obtain ⟨f2, rfl⟩ : ∃ f2, f = f2 + 1 := ⟨f - 1, by omega⟩
  rw [dP_minus]
  obtain ⟨hbm, ham⟩ := @maskPair_two [] (precisOf (deserialize a))
    (precisOf (deserialize b)) '-' (by simp) (by simp)
    (innerBal_dP hwa) (innerBal_dP hwb) (by decide) (by decide)
  simp only [List.nil_append] at hbm ham
  have heqm : (List.replicate ((precisOf (deserialize a)).length + 2) '#' ++
      ['-']) ++ List.replicate ((precisOf (deserialize b)).length + 2) '#' =
      List.replicate ((precisOf (deserialize a)).length + 2) '#' ++
        ('-' :: List.replicate ((precisOf (deserialize b)).length + 2) '#') := by
    simp
  rw [heqm] at hbm ham
  have hpm := @lastPMIdx_at
    (List.replicate ((precisOf (deserialize a)).length + 2) '#')
    (List.replicate ((precisOf (deserialize b)).length + 2) '#') '-'
    (by decide) (fun d hd => by rw [List.eq_of_mem_replicate hd]; rfl)
  rw [List.length_replicate] at hpm
  rw [parseP_op hbm ham (by intro tail h; simp at h) hpm (by omega)]
  have hop : ('(' :: (precisOf (deserialize a) ++ (')' :: ('-' ::
      ('(' :: (precisOf (deserialize b) ++
        [')']))))))[(precisOf (deserialize a)).length + 2]? = some '-' := by
    rw [show (precisOf (deserialize a)).length + 2 =
      ((precisOf (deserialize a)).length + 1) + 1 from rfl,
      List.getElem?_cons_succ,
      List.getElem?_append_right (Nat.le_add_right _ _)]
    have hs : (precisOf (deserialize a)).length + 1 -
        (precisOf (deserialize a)).length = 1 := by omega
    rw [hs]
    rfl
  have htka : ('(' :: (precisOf (deserialize a) ++ (')' :: ('-' ::
      ('(' :: (precisOf (deserialize b) ++ [')'])))))).take
      ((precisOf (deserialize a)).length + 2) =
      '(' :: (precisOf (deserialize a) ++ [')']) := by
    rw [List.take_succ_cons]
    congr 1
    rw [List.take_append]
    simp
  have hl : parseP f2 nodes
      (('(' :: (precisOf (deserialize a) ++ (')' :: ('-' ::
        ('(' :: (precisOf (deserialize b) ++ [')'])))))).take
        ((precisOf (deserialize a)).length + 2)) pre.length [] =
      .ok (applyPreModifiers [] (astString (canonAST a))) := by
    rw [htka]
    exact hra nodes pre ((atomNode '-' :: brN (deserialize b)) ++ post) [] f2
      (by rw [hnodes]; simp [deserialize, brN]) (by omega)
  have hdr : ('(' :: (precisOf (deserialize a) ++ (')' :: ('-' ::
      ('(' :: (precisOf (deserialize b) ++ [')'])))))).drop
      ((precisOf (deserialize a)).length + 2 + 1) =
      '(' :: (precisOf (deserialize b) ++ [')']) := by
    rw [List.drop_succ_cons]
    rw [List.drop_append]
    rfl
  have hoff : (pre ++ brN (deserialize a) ++ [atomNode '-']).length =
      pre.length + ((precisOf (deserialize a)).length + 2) + 1 := by
    simp [brN, length_dP]
    omega
  have hrbi := hrb nodes (pre ++ brN (deserialize a) ++ [atomNode '-']) post [] f2
    (by rw [hnodes]; simp [deserialize, brN]) (by omega)
  rw [hoff] at hrbi
  have hr : parseP f2 nodes
      (('(' :: (precisOf (deserialize a) ++ (')' :: ('-' ::
        ('(' :: (precisOf (deserialize b) ++ [')'])))))).drop
        ((precisOf (deserialize a)).length + 2 + 1))
      (pre.length + ((precisOf (deserialize a)).length + 2) + 1) [] =
      .ok (applyPreModifiers [] (astString (canonAST b))) := by
    rw [hdr]
    exact hrbi
  rw [parseOperator_ok hop hl hr]
  rfl

theorem rt_times (a b : MathAST) (iha : WFA a = true → RTslice a)
    (ihb : WFA b = true → RTslice b) :
    WFA (timesA a b) = true → RTslice (timesA a b) := by
  intro hw nodes pre post fuel hnodes hfuel
  have hfB : fuelB (timesA a b) = fuelB a + fuelB b + 8 := rfl
  rw [hfB] at hfuel
  rw [WFA, Bool.and_eq_true] at hw
  obtain ⟨hwa, hwb⟩ := hw
  have hra := rtbr_of_rt a hwa (iha hwa)
  have hrb := rtbr_of_rt b hwb (ihb hwb)
  obtain ⟨f, rfl⟩ : ∃ f, fuel = f + 1 := ⟨fuel - 1, by omega⟩
  obtain ⟨f2, rfl⟩ : ∃ f2, f = f2 + 1 := ⟨f - 1, by omega⟩
  obtain ⟨f3, rfl⟩ : ∃ f3, f2 = f3 + 1 := ⟨f2 - 1, by omega⟩
  rw [dP_times]
  obtain ⟨hbm, ham⟩ := @maskPair_two [] (precisOf (deserialize a))
    (precisOf (deserialize b)) '*' (by simp) (by simp)
    (innerBal_dP hwa) (innerBal_dP hwb) (by decide) (by decide)
  simp only [List.nil_append] at hbm ham
  have heqm : (List.replicate ((precisOf (deserialize a)).length + 2) '#' ++
      ['*']) ++ List.replicate ((precisOf (deserialize b)).length + 2) '#' =
      List.replicate ((precisOf (deserialize a)).length + 2) '#' ++
        ('*' :: List.replicate ((precisOf (deserialize b)).length + 2) '#') := by
    simp
  rw [heqm] at hbm ham
  have hpm : lastPMIdx
      (List.replicate ((precisOf (deserialize a)).length + 2) '#' ++
        ('*' :: List.replicate ((precisOf (deserialize b)).length + 2) '#')) =
      none := by
    apply lastPMIdx_none
    intro c hc
    rcases List.mem_append.mp hc with h | h
    · rw [List.eq_of_mem_replicate h]; rfl
    · rcases List.mem_cons.mp h with rfl | h
      · rfl
      · rw [List.eq_of_mem_replicate h]; rfl
  rw [parseP_nopm hbm ham (by intro tail h; simp at h) hpm]
  have hstar := @firstStarIdx_at
    (List.replicate ((precisOf (deserialize a)).length + 2) '#')
    (List.replicate ((precisOf (deserialize b)).length + 2) '#')
    (not_mem_replicate (by decide) _)
  rw [List.length_replicate] at hstar
  rw [parseNoPM_star hstar]
  have hop : ('(' :: (precisOf (deserialize a) ++ (')' :: ('*' ::
      ('(' :: (precisOf (deserialize b) ++
        [')']))))))[(precisOf (deserialize a)).length + 2]? = some '*' := by
    rw [show (precisOf (deserialize a)).length + 2 =
      ((precisOf (deserialize a)).length + 1) + 1 from rfl,
      List.getElem?_cons_succ,
      List.getElem?_append_right (Nat.le_add_right _ _)]
    have hs : (precisOf (deserialize a)).length + 1 -
        (precisOf (deserialize a)).length = 1 := by omega
    rw [hs]
    rfl
  have htka : ('(' :: (precisOf (deserialize a) ++ (')' :: ('*' ::
      ('(' :: (precisOf (deserialize b) ++ [')'])))))).take
      ((precisOf (deserialize a)).length + 2) =
      '(' :: (precisOf (deserialize a) ++ [')']) := by
    rw [List.take_succ_cons]
    congr 1
    rw [List.take_append]
    simp
  have hl : parseP f3 nodes
      (('(' :: (precisOf (deserialize a) ++ (')' :: ('*' ::
        ('(' :: (precisOf (deserialize b) ++ [')'])))))).take
        ((precisOf (deserialize a)).length + 2)) pre.length [] =
      .ok (applyPreModifiers [] (astString (canonAST a))) := by
    rw [htka]
    exact hra nodes pre ((atomNode '*' :: brN (deserialize b)) ++ post) [] f3
      (by rw [hnodes]; simp [deserialize, brN]) (by omega)
  have hdr : ('(' :: (precisOf (deserialize a) ++ (')' :: ('*' ::
      ('(' :: (precisOf (deserialize b) ++ [')'])))))).drop
      ((precisOf (deserialize a)).length + 2 + 1) =
      '(' :: (precisOf (deserialize b) ++ [')']) := by
    rw [List.drop_succ_cons]
    rw [List.drop_append]
    rfl
  have hoff : (pre ++ brN (deserialize a) ++ [atomNode '*']).length =
      pre.length + ((precisOf (deserialize a)).length + 2) + 1 := by
    simp [brN, length_dP]
    omega
  have hrbi := hrb nodes (pre ++ brN (deserialize a) ++ [atomNode '*']) post [] f3
    (by rw [hnodes]; simp [deserialize, brN]) (by omega)
  rw [hoff] at hrbi
  have hr : parseP f3 nodes
      (('(' :: (precisOf (deserialize a) ++ (')' :: ('*' ::
        ('(' :: (precisOf (deserialize b) ++ [')'])))))).drop
        ((precisOf (deserialize a)).length + 2 + 1))
      (pre.length + ((precisOf (deserialize a)).length + 2) + 1) [] =
      .ok (applyPreModifiers [] (astString (canonAST b))) := by
    rw [hdr]
    exact hrbi
  rw [parseOperator_ok hop hl hr]
  rfl

/-- Every well-formed semantic tree re-serializes from its deserialized
node sequence to its canonical semantic string. -/
theorem rt_all : ∀ t : MathAST, WFA t = true → RTslice t := by
  intro t
  induction t with
  | cn ip fp => exact rt_cn ip fp
  | ci c => exact rt_ci c
  | piC => exact rt_pi
  | eulerC => exact rt_euler
  | inftyC => exact rt_infty
  | plusA a b iha ihb => exact rt_plus a b iha ihb
  | minusA a b iha ihb => exact rt_minus a b iha ihb
  | timesA a b iha ihb => exact rt_times a b iha ihb
  | negA a iha => exact rt_neg a iha
  | fnA fn a iha => exact rt_fn fn a iha
  | absA a iha => exact rt_abs a iha
  | powerA b e ihb ihe => exact rt_power b e ihb ihe
  | divideA n d ihn ihd => exact rt_divide n d ihn ihd
  | rootA r ihr => exact rt_root r ihr
  | rootNoDegA r ihr => exact rt_rootNoDeg r ihr

theorem rte_all (t : MathAST) (hw : WFA t = true) : RTEfull t :=
  rte_of_rt t hw (rt_all t hw)

/-! ### Completeness: serializer outputs are semantic strings -/

/-- The node array matches the precis slice from `offset` on. -/
def aligned (nodes : List UnitNode) (precis : List Char) (offset : Nat) : Prop :=
  ∀ k, k < precis.length → (nodes[offset + k]?).map precisChar = precis[k]?

theorem aligned_precisOf (nodes : List UnitNode) :
    aligned nodes (precisOf nodes) 0 := by
  intro k hk
  rw [Nat.zero_add, precisOf, List.getElem?_map]

theorem aligned_cons {nodes : List UnitNode} {c : Char} {tail : List Char}
    {offset : Nat} (h : aligned nodes (c :: tail) offset) :
    aligned nodes tail (offset + 1) := by
  intro k hk
  have hh := h (k + 1) (by simp only [List.length_cons]; omega)
  rw [show offset + (k + 1) = offset + 1 + k from by omega] at hh
  rw [List.getElem?_cons_succ] at hh
  exact hh

theorem aligned_drop {nodes : List UnitNode} {precis : List Char}
    {offset : Nat} (h : aligned nodes precis offset) (n : Nat) :
    aligned nodes (precis.drop n) (offset + n) := by
  intro k hk
  rw [List.length_drop] at hk
  have hh := h (n + k) (by omega)
  rw [List.getElem?_drop]
  rw [show offset + n + k = offset + (n + k) from by omega]
  exact hh

theorem aligned_take {nodes : List UnitNode} {precis : List Char}
    {offset : Nat} (h : aligned nodes precis offset) (n : Nat) :
    aligned nodes (precis.take n) offset := by
  intro k hk
  rw [List.length_take] at hk
  rw [List.getElem?_take, if_pos (by omega)]
  exact h k (by omega)

/-- One pre-modifier as a tree constructor. -/
def stepPM (m : String) (t : MathAST) : MathAST :=
  if m = "sin" then fnA .sinF t
  else if m = "cos" then fnA .cosF t
  else if m = "tan" then fnA .tanF t
  else if m = "ln" then fnA .lnF t
  else if m = "negative" then negA t
  else t

/-- The pending pre-modifier stack as tree constructors. -/
def wrapPM : List String → MathAST → MathAST
  | [], t => t
  | m :: rest, t => wrapPM rest (stepPM m t)

theorem stepPM_WFA (m : String) (t : MathAST) : WFA (stepPM m t) = WFA t := by
  rw [stepPM]
  split_ifs <;> rfl

theorem stepPM_pipeFree (m : String) (t : MathAST) :
    pipeFree (stepPM m t) = pipeFree t := by
  rw [stepPM]
  split_ifs <;> rfl

theorem stepPM_canon {m : String} {t : MathAST} (h : canonAST t = t) :
    canonAST (stepPM m t) = stepPM m t := by
  rw [stepPM]
  split_ifs <;> simp [canonAST, h]

theorem stepPM_string (m : String) (t : MathAST) :
    (if (m = "sin" || m = "cos" || m = "tan" || m = "ln" : Bool) then
       "<apply><" ++ m ++ "/>" ++ astString t ++ "</apply>"
     else if m = "negative" then
       "<apply><minus/>" ++ astString t ++ "</apply>"
     else astString t) = astString (stepPM m t) := by
  by_cases h1 : m = "sin"
  · subst h1; rfl
  by_cases h2 : m = "cos"
  · subst h2; rfl
  by_cases h3 : m = "tan"
  · subst h3; rfl
  by_cases h4 : m = "ln"
  · subst h4; rfl
  by_cases h5 : m = "negative"
  · subst h5; rfl
  rw [if_neg (by simp [h1, h2, h3, h4]), if_neg h5, stepPM,
    if_neg h1, if_neg h2, if_neg h3, if_neg h4, if_neg h5]

theorem wrapPM_WFA (pms : List String) (t : MathAST) :
    WFA (wrapPM pms t) = WFA t := by
  induction pms generalizing t with
  | nil => rfl
  | cons m rest ih =>
    rw [wrapPM, ih, stepPM_WFA]

theorem wrapPM_pipeFree (pms : List String) (t : MathAST) :
    pipeFree (wrapPM pms t) = pipeFree t := by
  induction pms generalizing t with
  | nil => rfl
  | cons m rest ih =>
    rw [wrapPM, ih, stepPM_pipeFree]

theorem wrapPM_canon (pms : List String) {t : MathAST} (h : canonAST t = t) :
    canonAST (wrapPM pms t) = wrapPM pms t := by
  induction pms generalizing t with
  | nil => exact h
  | cons m rest ih =>
    rw [wrapPM]
    exact ih (stepPM_canon h)

theorem wrapPM_string (pms : List String) (t : MathAST) :
    applyPreModifiers pms (astString t) = astString (wrapPM pms t) := by
  induction pms generalizing t with
  | nil => rfl
  | cons m rest ih =>
    have hstep := stepPM_string m t
    calc applyPreModifiers (m :: rest) (astString t)
        = applyPreModifiers rest
            (if (m = "sin" || m = "cos" || m = "tan" || m = "ln" : Bool) then
               "<apply><" ++ m ++ "/>" ++ astString t ++ "</apply>"
             else if m = "negative" then
               "<apply><minus/>" ++ astString t ++ "</apply>"
             else astString t) := rfl
      _ = applyPreModifiers rest (astString (stepPM m t)) := by rw [hstep]
      _ = astString (wrapPM rest (stepPM m t)) := ih _
      _ = astString (wrapPM (m :: rest) t) := rfl

/-- The completeness conclusion: the result is the semantic string of a
producible tree, pipe-free at this level when the slice has no pipes. -/
def Concl (precis : List Char) (s : String) : Prop :=
  ∃ t : MathAST, WFA t = true ∧ canonAST t = t ∧ astString t = s ∧
    (('|' : Char) ∉ precis → pipeFree t = true)

theorem numberToken_nil {s : List Char}
    (h : s.drop (s.takeWhile isDigitChar).length = []) :
    numberToken s = s.takeWhile isDigitChar := by
  rw [numberToken]
  simp only []
  rw [h]

theorem numberToken_nodot {s : List Char} {c1 : Char} {after : List Char}
    (h : s.drop (s.takeWhile isDigitChar).length = c1 :: after)
    (hc1 : ¬ c1 = '.') :
    numberToken s = s.takeWhile isDigitChar := by
  rw [numberToken]
  simp only []
  rw [h]
  split
  · rename_i afterDot heq
    rw [List.cons.injEq] at heq
    exact absurd heq.1 hc1
  · rfl

theorem numberToken_dot_empty {s : List Char} {after : List Char}
    (h : s.drop (s.takeWhile isDigitChar).length = '.' :: after)
    (hfr : after.takeWhile isDigitChar = []) :
    numberToken s = s.takeWhile isDigitChar := by
  rw [numberToken]
  simp only []
  rw [h]
  simp only [hfr]
  simp

theorem numberToken_dot {s : List Char} {after : List Char}
    (h : s.drop (s.takeWhile isDigitChar).length = '.' :: after)
    (hfr : ¬ after.takeWhile isDigitChar = []) :
    numberToken s = s.takeWhile isDigitChar ++
      '.' :: after.takeWhile isDigitChar := by
  rw [numberToken]
  simp only []
  rw [h]
  simp only
  rw [if_neg hfr]

/-- The numeric token of a digit-headed slice is a well-formed literal. -/
theorem numberToken_shape {precis : List Char}
    (h : (precis.head?.map isDigitChar).getD false = true) :
    ∃ ip fp, numberToken precis = ip ++ fpChars fp ∧ WFA (cn ip fp) = true := by
  obtain ⟨c0, rest, rfl⟩ : ∃ c0 rest, precis = c0 :: rest := by
    cases precis with
    | nil => simp at h
    | cons c0 rest => exact ⟨c0, rest, rfl⟩
  have hd : isDigitChar c0 = true := by simpa using h
  have hipd : ∀ c ∈ (c0 :: rest).takeWhile isDigitChar, isDigitChar c = true :=
    fun c hc => List.mem_takeWhile_imp hc
  have hipne : ¬ (c0 :: rest).takeWhile isDigitChar = [] := by
    rw [List.takeWhile_cons, if_pos hd]
    simp
  have hwfip : (!((c0 :: rest).takeWhile isDigitChar).isEmpty &&
      ((c0 :: rest).takeWhile isDigitChar).all isDigitChar) = true := by
    rw [Bool.and_eq_true]
    constructor
    · simpa [List.isEmpty_iff] using hipne
    · exact List.all_eq_true.mpr hipd
  cases hrest : (c0 :: rest).drop
      ((c0 :: rest).takeWhile isDigitChar).length with
  | nil =>
    refine ⟨(c0 :: rest).takeWhile isDigitChar, none, ?_, ?_⟩
    · rw [numberToken_nil hrest]
      simp [fpChars]
    · rw [WFA_cn, hwfip]
      rfl
  | cons c1 after =>
    by_cases hc1 : c1 = '.'
    · subst hc1
      by_cases hfr : after.takeWhile isDigitChar = []
      · refine ⟨(c0 :: rest).takeWhile isDigitChar, none, ?_, ?_⟩
        · rw [numberToken_dot_empty hrest hfr]
          simp [fpChars]
        · rw [WFA_cn, hwfip]
          rfl
      · refine ⟨(c0 :: rest).takeWhile isDigitChar,
          some (after.takeWhile isDigitChar), ?_, ?_⟩
        · rw [numberToken_dot hrest hfr]
          simp [fpChars]
        · rw [WFA_cn, hwfip, Bool.true_and, Bool.and_eq_true]
          constructor
          · simpa [List.isEmpty_iff] using hfr
          · exact List.all_eq_true.mpr
              (fun c hc => List.mem_takeWhile_imp hc)
    · refine ⟨(c0 :: rest).takeWhile isDigitChar, none, ?_, ?_⟩
      · rw [numberToken_nodot hrest hc1]
        simp [fpChars]
      · rw [WFA_cn, hwfip]
        rfl

/-- Minimality of `indexOf` below its result. -/
theorem indexOfFrom_min {s : List Char} {ch : Char} {start e : Nat}
    (h : indexOfFrom s ch start = some e) :
    ∀ j, start ≤ j → j < e → s[j]? ≠ some ch := by
  rw [indexOfFrom] at h
  cases hf : (s.drop start).findIdx? (· = ch) with
  | none => rw [hf] at h; exact absurd h (by simp)
  | some k =>
    rw [hf] at h
    have he : start + k = e := by
      have := h
      simp only [Option.some.injEq] at this
      exact this
    obtain ⟨hlt, hp, hmin⟩ := List.findIdx?_eq_some_iff_getElem.mp hf
    intro j hj1 hj2 hcontra
    have hj3 : j - start < k := by omega
    have hj4 : j - start < (s.drop start).length := by omega
    have := hmin (j - start) hj3
    apply this
    have hg : (s.drop start)[j - start]? = s[j]? := by
      rw [List.getElem?_drop]
      rw [show start + (j - start) = j from by omega]
    have hgv : (s.drop start)[j - start]? = some ch := by rw [hg, hcontra]
    have : (s.drop start)[j - start] = ch := by
      have := List.getElem?_eq_some_iff.mp hgv
      obtain ⟨hh, hv⟩ := this
      exact hv
    rw [this]
    simp

def ClP (fuel : Nat) : Prop :=
  ∀ nodes precis offset pms s, aligned nodes precis offset →
    parseP fuel nodes precis offset pms = .ok s → Concl precis s

def ClN (fuel : Nat) : Prop :=
  ∀ nodes precis offset pms masked s, aligned nodes precis offset →
    parseNoPM fuel nodes precis offset pms masked = .ok s → Concl precis s

def ClT (fuel : Nat) : Prop :=
  ∀ nodes term mathml precis offset pms s, aligned nodes precis offset →
    Concl precis mathml →
    parseTerm fuel nodes term mathml precis offset pms = .ok s → Concl precis s

def ClO (fuel : Nat) : Prop :=
  ∀ nodes precis offset i s, aligned nodes precis offset →
    parseOperator fuel nodes precis offset i = .ok s → Concl precis s

def ClV (fuel : Nat) : Prop :=
  ∀ u s, nodeValue fuel u = .ok s →
    ∃ t : MathAST, WFA t = true ∧ canonAST t = t ∧ astString t = s ∧
      (precisChar u = '%' → pipeFree t = true)

def ClE (fuel : Nat) : Prop :=
  ∀ nodes s, exprValue fuel nodes = .ok s →
    ∃ t : MathAST, WFA t = true ∧ canonAST t = t ∧ astString t = s

theorem Concl_mono {precis precis' : List Char} {s : String}
    (hsub : ('|' : Char) ∈ precis' → ('|' : Char) ∈ precis)
    (h : Concl precis' s) : Concl precis s := by
  obtain ⟨t, h1, h2, h3, h4⟩ := h
  exact ⟨t, h1, h2, h3, fun hp => h4 (fun hm => hp (hsub hm))⟩

theorem clE_succ (f : Nat) (hP : ClP f) : ClE (f + 1) := by
  intro nodes s h
  rw [exprValue_eq] at h
  obtain ⟨t, h1, h2, h3, _⟩ :=
    hP nodes (precisOf nodes) 0 [] s (aligned_precisOf nodes) h
  exact ⟨t, h1, h2, h3⟩

theorem clV_succ (f : Nat) (hE : ClE f) : ClV (f + 1) := by
  intro u s h
  cases u with
  | startNode => simp only [nodeValue] at h; exact absurd h (by simp)
  | atomNode c => simp only [nodeValue] at h; exact absurd h (by simp)
  | bracketNode c => simp only [nodeValue] at h; exact absurd h (by simp)
  | absoluteNode => simp only [nodeValue] at h; exact absurd h (by simp)
  | divisionNode numer denom =>
    simp only [nodeValue] at h
    cases hn : exprValue f numer with
    | error e => rw [hn, ebind_error] at h; exact absurd h (by simp)
    | ok nv =>
      rw [hn, ebind_ok] at h
      cases hd : exprValue f denom with
      | error e => rw [hd, ebind_error] at h; exact absurd h (by simp)
      | ok dv =>
        rw [hd, ebind_ok] at h
        obtain ⟨tn, hn1, hn2, hn3⟩ := hE numer nv hn
        obtain ⟨td, hd1, hd2, hd3⟩ := hE denom dv hd
        have hs : s = "<apply><divide/>" ++ nv ++ dv ++ "</apply>" := by
          simp only [Except.ok.injEq] at h
          exact h.symm
        refine ⟨divideA tn td, ?_, ?_, ?_, fun _ => rfl⟩
        · rw [WFA, Bool.and_eq_true]
          exact ⟨hn1, hd1⟩
        · simp [canonAST, hn2, hd2]
        · rw [astString, hn3, hd3, hs]
  | exponentNode e =>
    simp only [nodeValue] at h
    obtain ⟨te, h1, h2, h3⟩ := hE e s h
    refine ⟨te, h1, h2, h3, fun hc => ?_⟩
    exact absurd hc (by simp [precisChar])
  | squareRootNode r =>
    simp only [nodeValue] at h
    cases hr : exprValue f r with
    | error e => rw [hr, ebind_error] at h; exact absurd h (by simp)
    | ok rv =>
      rw [hr, ebind_ok] at h
      obtain ⟨tr, hr1, hr2, hr3⟩ := hE r rv hr
      have hs : s = "<apply><root/><degree><cn>2</cn></degree>" ++ rv ++
          "</apply>" := by
        simp only [Except.ok.injEq] at h
        exact h.symm
      refine ⟨rootA tr, ?_, ?_, ?_, fun _ => rfl⟩
      · rw [WFA]
        exact hr1
      · simp [canonAST, hr2]
      · rw [astString, hr3, hs]

theorem clO_succ (f : Nat) (hP : ClP f) : ClO (f + 1) := by
  intro nodes precis offset i s hal h
  simp only [parseOperator] at h
  cases hl : parseP f nodes (precis.take i) offset [] with
  | error e => rw [hl, ebind_error] at h; exact absurd h (by simp)
  | ok lv =>
    rw [hl, ebind_ok] at h
    cases hr : parseP f nodes (precis.drop (i + 1)) (offset + i + 1) [] with
    | error e => rw [hr, ebind_error] at h; exact absurd h (by simp)
    | ok rv =>
      rw [hr, ebind_ok] at h
      obtain ⟨tl, hl1, hl2, hl3, hl4⟩ :=
        hP nodes (precis.take i) offset [] lv (aligned_take hal i) hl
      have halr : aligned nodes (precis.drop (i + 1)) (offset + i + 1) := by
        have hh := aligned_drop hal (i + 1)
        rw [show offset + (i + 1) = offset + i + 1 from by omega] at hh
        exact hh
      obtain ⟨tr, hr1, hr2, hr3, hr4⟩ :=
        hP nodes (precis.drop (i + 1)) (offset + i + 1) [] rv halr hr
      have hs : s = "<apply>" ++
          (if precis[i]?.getD ' ' = '+' then "<plus/>"
           else if precis[i]?.getD ' ' = '-' then "<minus/>"
           else "<times/>") ++ lv ++ rv ++ "</apply>" := by
        simp only [Except.ok.injEq] at h
        exact h.symm
      have hpl : ('|' : Char) ∉ precis → pipeFree tl = true :=
        fun hp => hl4 (fun hm => hp (List.take_subset _ _ hm))
      have hpr : ('|' : Char) ∉ precis → pipeFree tr = true :=
        fun hp => hr4 (fun hm => hp (List.drop_subset _ _ hm))
      by_cases hc1 : precis[i]?.getD ' ' = '+'
      · refine ⟨plusA tl tr, ?_, ?_, ?_, ?_⟩
        · rw [WFA, Bool.and_eq_true]
          exact ⟨hl1, hr1⟩
        · simp [canonAST, hl2, hr2]
        · rw [astString, hl3, hr3, hs, if_pos hc1]
          rfl
        · intro hp
          rw [pipeFree, Bool.and_eq_true]
          exact ⟨hpl hp, hpr hp⟩
      · by_cases hc2 : precis[i]?.getD ' ' = '-'
        · refine ⟨minusA tl tr, ?_, ?_, ?_, ?_⟩
          · rw [WFA, Bool.and_eq_true]
            exact ⟨hl1, hr1⟩
          · simp [canonAST, hl2, hr2]
          · rw [astString, hl3, hr3, hs, if_neg hc1, if_pos hc2]
            rfl
          · intro hp
            rw [pipeFree, Bool.and_eq_true]
            exact ⟨hpl hp, hpr hp⟩
        · refine ⟨timesA tl tr, ?_, ?_, ?_, ?_⟩
          · rw [WFA, Bool.and_eq_true]
            exact ⟨hl1, hr1⟩
          · simp [canonAST, hl2, hr2]
          · rw [astString, hl3, hr3, hs, if_neg hc1, if_neg hc2]
            rfl
          · intro hp
            rw [pipeFree, Bool.and_eq_true]
            exact ⟨hpl hp, hpr hp⟩

theorem clP_succ (f : Nat) (hN : ClN f) (hO : ClO f) (hP : ClP f) :
    ClP (f + 1) := by
  intro nodes precis offset pms s hal h
  simp only [parseP] at h
  cases hbm : bracketMask precis with
  | error e => rw [hbm, ebind_error] at h; exact absurd h (by simp)
  | ok mB =>
    rw [hbm, ebind_ok] at h
    cases ham : absMask mB with
    | error e => rw [ham, ebind_error] at h; exact absurd h (by simp)
    | ok mA =>
      rw [ham, ebind_ok] at h
      split at h
      · rename_i tail heq
        obtain ⟨t, h1, h2, h3, h4⟩ :=
          hP nodes heq (offset + 1) [] s (aligned_cons hal) h
        exact ⟨t, h1, h2, h3,
          fun hp => h4 (fun hm => hp (List.mem_cons_of_mem _ hm))⟩
      · split at h
        · rename_i i heq2
          split at h
          · exact hO nodes precis offset i s hal h
          · exact hN nodes precis offset pms mA s hal h
        · exact hN nodes precis offset pms mA s hal h

theorem clT_succ (f : Nat) (hP : ClP f) (hV : ClV f) : ClT (f + 1) := by
  intro nodes term mathml precis offset pms s hal hTH h
  obtain ⟨t0, ht1, ht2, ht3, ht4⟩ := hTH
  simp only [parseTerm] at h
  by_cases hpost : precis[term.length]? = some '^'
  · rw [if_pos hpost] at h
    cases hnode : nodes[offset + term.length]? with
    | none =>
      rw [hnode, ebind_error] at h
      exact absurd h (by simp)
    | some u =>
      rw [hnode] at h
      simp only [] at h
      cases hnv : nodeValue f u with
      | error e =>
        rw [hnv, ebind_error, ebind_error] at h
        exact absurd h (by simp)
      | ok ev =>
        rw [hnv, ebind_ok, ebind_ok] at h
        simp only [] at h
        obtain ⟨te, he1, he2, he3, _⟩ := hV u ev hnv
        have hastp : astString (powerA t0 te) =
            "<apply><power/>" ++ mathml ++ ev ++ "</apply>" := by
          rw [astString, ht3, he3]
        have hwfp : WFA (powerA t0 te) = true := by
          rw [WFA, Bool.and_eq_true]
          exact ⟨ht1, he1⟩
        have hcanp : canonAST (powerA t0 te) = powerA t0 te := by
          simp [canonAST, ht2, he2]
        by_cases hfull : (term ++ ['^']).length = precis.length
        · rw [if_pos hfull] at h
          have hs : s = applyPreModifiers pms
              ("<apply><power/>" ++ mathml ++ ev ++ "</apply>") := by
            simp only [Except.ok.injEq] at h
            exact h.symm
          refine ⟨wrapPM pms (powerA t0 te), ?_, ?_, ?_, ?_⟩
          · rw [wrapPM_WFA]
            exact hwfp
          · exact wrapPM_canon pms hcanp
          · rw [← wrapPM_string, hastp, hs]
          · intro hp
            rw [wrapPM_pipeFree]
            show pipeFree t0 = true
            exact ht4 hp
        · rw [if_neg hfull] at h
          cases hrest : parseP f nodes (precis.drop (term ++ ['^']).length)
              (offset + (term ++ ['^']).length) [] with
          | error e => rw [hrest, ebind_error] at h; exact absurd h (by simp)
          | ok rv =>
            rw [hrest, ebind_ok] at h
            obtain ⟨tr, hr1, hr2, hr3, hr4⟩ :=
              hP nodes (precis.drop (term ++ ['^']).length)
                (offset + (term ++ ['^']).length) [] rv
                (aligned_drop hal ((term ++ ['^']).length)) hrest
            have hs : s = "<apply><times/>" ++
                applyPreModifiers pms
                  ("<apply><power/>" ++ mathml ++ ev ++ "</apply>") ++
                rv ++ "</apply>" := by
              simp only [Except.ok.injEq] at h
              exact h.symm
            refine ⟨timesA (wrapPM pms (powerA t0 te)) tr, ?_, ?_, ?_, ?_⟩
            · rw [WFA, Bool.and_eq_true, wrapPM_WFA]
              exact ⟨hwfp, hr1⟩
            · simp [canonAST, wrapPM_canon pms hcanp, hr2]
            · rw [astString, ← wrapPM_string, hastp, hr3, hs]
            · intro hp
              rw [pipeFree, Bool.and_eq_true, wrapPM_pipeFree]
              constructor
              · show pipeFree t0 = true
                exact ht4 hp
              · exact hr4 (fun hm => hp (List.drop_subset _ _ hm))
  · rw [if_neg hpost, ebind_ok] at h
    simp only [] at h
    by_cases hfull : term.length = precis.length
    · rw [if_pos hfull] at h
      have hs : s = applyPreModifiers pms mathml := by
        simp only [Except.ok.injEq] at h
        exact h.symm
      refine ⟨wrapPM pms t0, ?_, ?_, ?_, ?_⟩
      · rw [wrapPM_WFA]
        exact ht1
      · exact wrapPM_canon pms ht2
      · rw [← wrapPM_string, ht3, hs]
      · intro hp
        rw [wrapPM_pipeFree]
        exact ht4 hp
    · rw [if_neg hfull] at h
      cases hrest : parseP f nodes (precis.drop term.length)
          (offset + term.length) [] with
      | error e => rw [hrest, ebind_error] at h; exact absurd h (by simp)
      | ok rv =>
        rw [hrest, ebind_ok] at h
        obtain ⟨tr, hr1, hr2, hr3, hr4⟩ :=
          hP nodes (precis.drop term.length) (offset + term.length) [] rv
            (aligned_drop hal term.length) hrest
        have hs : s = "<apply><times/>" ++ applyPreModifiers pms mathml ++
            rv ++ "</apply>" := by
          simp only [Except.ok.injEq] at h
          exact h.symm
        refine ⟨timesA (wrapPM pms t0) tr, ?_, ?_, ?_, ?_⟩
        · rw [WFA, Bool.and_eq_true, wrapPM_WFA]
          exact ⟨ht1, hr1⟩
        · simp [canonAST, wrapPM_canon pms ht2, hr2]
        · rw [astString, ← wrapPM_string, ht3, hr3, hs]
        · intro hp
          rw [pipeFree, Bool.and_eq_true, wrapPM_pipeFree]
          exact ⟨ht4 hp, hr4 (fun hm => hp (List.drop_subset _ _ hm))⟩

theorem clN_succ (f : Nat) (hP : ClP f) (hT : ClT f) (hO : ClO f)
    (hV : ClV f) : ClN (f + 1) := by
  intro nodes precis offset pms masked s hal h
  simp only [parseNoPM] at h
  split at h
  · rename_i i heq
    exact hO nodes precis offset i s hal h
  · split at h
    · rename_i t1 t2
      obtain ⟨t, h1, h2, h3, h4⟩ :=
        hP nodes t2 (offset + 1) ("negative" :: pms) s (aligned_cons hal) h
      exact ⟨t, h1, h2, h3,
        fun hp => h4 (fun hm => hp (List.mem_cons_of_mem _ hm))⟩
    · -- the terminal guard chain
      by_cases hdig : (Option.map isDigitChar precis.head?).getD false = true
      · rw [if_pos hdig] at h
        obtain ⟨ip, fp, hnt, hwf⟩ := numberToken_shape hdig
        have hast : astString (cn ip fp) =
            "<cn>" ++ String.mk (numberToken precis) ++ "</cn>" := by
          rw [hnt]
          cases fp <;> rfl
        exact hT nodes (numberToken precis)
          ("<cn>" ++ String.mk (numberToken precis) ++ "</cn>")
          precis offset pms s hal
          ⟨cn ip fp, hwf, rfl, hast, fun _ => rfl⟩ h
      · rw [if_neg hdig] at h
        by_cases hsin : List.take 3 precis = ['s', 'i', 'n']
        · rw [if_pos hsin] at h
          exact Concl_mono (fun hm => List.drop_subset _ _ hm)
            (hP nodes (precis.drop 3) (offset + 3) ("sin" :: pms) s
              (aligned_drop hal 3) h)
        · rw [if_neg hsin] at h
          by_cases hcos : List.take 3 precis = ['c', 'o', 's']
          · rw [if_pos hcos] at h
            exact Concl_mono (fun hm => List.drop_subset _ _ hm)
              (hP nodes (precis.drop 3) (offset + 3) ("cos" :: pms) s
                (aligned_drop hal 3) h)
          · rw [if_neg hcos] at h
            by_cases htan : List.take 3 precis = ['t', 'a', 'n']
            · rw [if_pos htan] at h
              exact Concl_mono (fun hm => List.drop_subset _ _ hm)
                (hP nodes (precis.drop 3) (offset + 3) ("tan" :: pms) s
                  (aligned_drop hal 3) h)
            · rw [if_neg htan] at h
              by_cases hln : List.take 2 precis = ['l', 'n']
              · rw [if_pos hln] at h
                exact Concl_mono (fun hm => List.drop_subset _ _ hm)
                  (hP nodes (precis.drop 2) (offset + 2) ("ln" :: pms) s
                    (aligned_drop hal 2) h)
              · rw [if_neg hln] at h
                by_cases hpitxt : List.take 2 precis = ['p', 'i']
                · rw [if_pos hpitxt] at h
                  exact hT nodes ['p', 'i'] "<pi/>" precis offset pms s hal
                    ⟨piC, rfl, rfl, rfl, fun _ => rfl⟩ h
                · rw [if_neg hpitxt] at h
                  by_cases hpi : precis.head? = some 'π'
                  · rw [if_pos hpi] at h
                    exact hT nodes ['π'] "<pi/>" precis offset pms s hal
                      ⟨piC, rfl, rfl, rfl, fun _ => rfl⟩ h
                  · rw [if_neg hpi] at h
                    by_cases hinf : precis.head? = some '∞'
                    · rw [if_pos hinf] at h
                      exact hT nodes ['∞'] "<infinity/>" precis offset pms s hal
                        ⟨inftyC, rfl, rfl, rfl, fun _ => rfl⟩ h
                    · rw [if_neg hinf] at h
                      by_cases he : precis.head? = some 'e'
                      · rw [if_pos he] at h
                        exact hT nodes ['e'] "<exponentiale/>" precis offset pms s hal
                          ⟨eulerC, rfl, rfl, rfl, fun _ => rfl⟩ h
                      · rw [if_neg he] at h
                        by_cases hlet : (Option.map isLetterChar precis.head?).getD false = true
                        · rw [if_pos hlet] at h
                          cases precis with
                          | nil => simp at hlet
                          | cons c0 rest =>
                            have hl0 : isLetterChar c0 = true := by simpa using hlet
                            have hc0e : ¬ c0 = 'e' := by
                              intro hc
                              subst hc
                              exact he (by simp)
                            have hc0pi : ¬ c0 = 'π' := by
                              intro hc
                              subst hc
                              exact hpi (by simp)
                            have hwf : WFA (ci c0) = true := by
                              rw [WFA]
                              simp [hl0, hc0e, hc0pi]
                            exact hT nodes [(c0 :: rest).headI]
                              ("<ci>" ++ String.mk [(c0 :: rest).headI] ++ "</ci>")
                              (c0 :: rest) offset pms s hal
                              ⟨ci c0, hwf, rfl, rfl, fun _ => rfl⟩ h
                        · rw [if_neg hlet] at h
                          by_cases hpct : precis.head? = some '%'
                          · rw [if_pos hpct] at h
                            cases hnode : nodes[offset]? with
                            | none => rw [hnode] at h; simp at h
                            | some u =>
                              rw [hnode] at h
                              simp only [] at h
                              cases hnv : nodeValue f u with
                              | error e =>
                                rw [hnv, ebind_error] at h
                                exact absurd h (by simp)
                              | ok mv =>
                                rw [hnv, ebind_ok] at h
                                obtain ⟨t0, h01, h02, h03, h04⟩ := hV u mv hnv
                                have hlen0 : 0 < precis.length := by
                                  cases precis with
                                  | nil => simp at hpct
                                  | cons a b => simp
                                have hh := hal 0 hlen0
                                rw [Nat.add_zero, hnode] at hh
                                have hpz : precis[0]? = some '%' := by
                                  rw [← List.head?_eq_getElem?]
                                  exact hpct
                                rw [hpz] at hh
                                have hpc : precisChar u = '%' := by
                                  simpa using hh
                                exact hT nodes ['%'] mv precis offset pms s hal
                                  ⟨t0, h01, h02, h03, fun _ => h04 hpc⟩ h
                          · rw [if_neg hpct] at h
                            by_cases hpar : precis.head? = some '('
                            · rw [if_pos hpar] at h
                              cases hfmp : findMatchingParen precis 0 with
                              | error e =>
                                rw [hfmp, ebind_error] at h
                                exact absurd h (by simp)
                              | ok r =>
                                rw [hfmp, ebind_ok] at h
                                cases r with
                                | none => simp at h
                                | some endPos =>
                                  simp only [] at h
                                  cases hin : parseP f nodes ((precis.take endPos).drop 1)
                                      (offset + 1) [] with
                                  | error e =>
                                    rw [hin, ebind_error] at h
                                    exact absurd h (by simp)
                                  | ok mv =>
                                    rw [hin, ebind_ok] at h
                                    obtain ⟨ti, hi1, hi2, hi3, hi4⟩ :=
                                      hP nodes ((precis.take endPos).drop 1) (offset + 1) [] mv
                                        (aligned_drop (aligned_take hal endPos) 1) hin
                                    exact hT nodes (precis.take (endPos + 1)) mv precis offset pms
                                      s hal
                                      ⟨ti, hi1, hi2, hi3, fun hp => hi4 (fun hm =>
                                        hp (List.take_subset _ _ (List.drop_subset _ _ hm)))⟩ h
                            · rw [if_neg hpar] at h
                              by_cases hpipe : precis.head? = some '|'
                              · rw [if_pos hpipe] at h
                                cases hifo : indexOfFrom precis '|' 1 with
                                | none => rw [hifo] at h; simp at h
                                | some endPos =>
                                  rw [hifo] at h
                                  simp only [] at h
                                  cases hin : parseP f nodes ((precis.take endPos).drop 1)
                                      (offset + 1) [] with
                                  | error e =>
                                    rw [hin, ebind_error] at h
                                    exact absurd h (by simp)
                                  | ok mv =>
                                    rw [hin, ebind_ok] at h
                                    obtain ⟨ti, hi1, hi2, hi3, hi4⟩ :=
                                      hP nodes ((precis.take endPos).drop 1) (offset + 1) [] mv
                                        (aligned_drop (aligned_take hal endPos) 1) hin
                                    have hnop : ('|' : Char) ∉ (precis.take endPos).drop 1 := by
                                      intro hm
                                      obtain ⟨k, hk⟩ := List.mem_iff_getElem?.mp hm
                                      rw [List.getElem?_drop, List.getElem?_take] at hk
                                      by_cases hlt : 1 + k < endPos
                                      · rw [if_pos hlt] at hk
                                        exact indexOfFrom_min hifo (1 + k) (by omega) (by omega) hk
                                      · rw [if_neg hlt] at hk
                                        exact absurd hk (by simp)
                                    have hpf : pipeFree ti = true := hi4 hnop
                                    have hwfabs : WFA (absA ti) = true := by
                                      rw [WFA, Bool.and_eq_true]
                                      exact ⟨hi1, hpf⟩
                                    have hmempipe : ('|' : Char) ∈ precis := by
                                      cases precis with
                                      | nil => simp at hpipe
                                      | cons c r =>
                                        have hcp : c = '|' := by simpa using hpipe
                                        simp [hcp]
                                    exact hT nodes (precis.take (endPos + 1))
                                      ("<apply><abs/>" ++ mv ++ "</apply>") precis offset pms s hal
                                      ⟨absA ti, hwfabs, by simp [canonAST, hi2],
                                        by rw [astString, hi3], fun hp => absurd hmempipe hp⟩ h
                              · rw [if_neg hpipe] at h
                                exact absurd h (by simp)

/-- Completeness of the producible-tree analysis, by induction on fuel: at
zero fuel every parse function fails, and each successor step is one of the
six clause lemmas. -/
theorem partA : ∀ fuel : Nat,
    ClP fuel ∧ ClN fuel ∧ ClT fuel ∧ ClO fuel ∧ ClV fuel ∧ ClE fuel := by
  intro fuel
  induction fuel with
  | zero =>
    refine ⟨?_, ?_, ?_, ?_, ?_, ?_⟩
    · intro nodes precis offset pms s _ h
      simp [parseP] at h
    · intro nodes precis offset pms masked s _ h
      simp [parseNoPM] at h
    · intro nodes term mathml precis offset pms s _ _ h
      simp [parseTerm] at h
    · intro nodes precis offset i s _ h
      simp [parseOperator] at h
    · intro u s h
      simp [nodeValue] at h
    · intro nodes s h
      simp [exprValue] at h
  | succ f ih =>
    obtain ⟨hP, hN, hT, hO, hV, hE⟩ := ih
    exact ⟨clP_succ f hN hO hP, clN_succ f hP hT hO hV, clT_succ f hP hV,
      clO_succ f hP, clV_succ f hE, clE_succ f hP⟩

/-- C9: for every semantic MathML string `s` the serializer can produce
(`exprValue` succeeding on some node sequence with some fuel), deserializing
`s` yields a node sequence whose re-serialization is exactly `s` again; and
for every well-formed semantic tree, deserializing its string and
re-serializing yields its canonical form, which is the identity except that
a degree-less root re-serializes in the canonical explicit degree-2 form. -/
theorem c9_deserialize_round_trip :
    (∀ (nodes : List UnitNode) (fuel : Nat) (s : String),
        exprValue fuel nodes = .ok s →
        ∃ t : MathAST, WFA t = true ∧ astString t = s ∧
          ∀ k : Nat,
            exprValue (fuelB t + 8 + k) (startNode :: deserialize t) =
              .ok s) ∧
    (∀ t : MathAST, WFA t = true → ∀ k : Nat,
        exprValue (fuelB t + 8 + k) (startNode :: deserialize t) =
          .ok (astString (canonAST t))) := by
  constructor
  · intro nodes fuel s h
    obtain ⟨t, h1, h2, h3⟩ := (partA fuel).2.2.2.2.2 nodes s h
    refine ⟨t, h1, h3, fun k => ?_⟩
    have hr := rte_all t h1 (fuelB t + 8 + k) (by omega)
    rw [h2] at hr
    rw [hr, h3]
  · intro t hw k
    exact rte_all t hw (fuelB t + 8 + k) (by omega)

/-- Concrete instance of C9: the serializer output for the atom sequence
`1` is reproduced after deserialization, and a degree-less root over `x`
re-serializes in the explicit degree-2 form. -/
theorem c9_deserialize_round_trip_witness :
    (∃ t : MathAST, WFA t = true ∧ astString t = "<cn>1</cn>" ∧
       ∀ k : Nat,
         exprValue (fuelB t + 8 + k) (startNode :: deserialize t) =
           .ok "<cn>1</cn>") ∧
    exprValue (fuelB (rootNoDegA (ci 'x')) + 8 + 0)
        (startNode :: deserialize (rootNoDegA (ci 'x'))) =
      .ok (astString (canonAST (rootNoDegA (ci 'x')))) :=
  ⟨c9_deserialize_round_trip.1 [startNode, atomNode '1'] 10 "<cn>1</cn>"
     (by rfl),
   c9_deserialize_round_trip.2 (rootNoDegA (ci 'x')) (by decide) 0⟩

end MathInput
